import Mathlib

/-!
A verification development for the totui todo.txt engine.

The Rust sources embedded here:
- src/todo.rs: the item model (TodoItem, Content, ContentPart, Priority,
  RecurringUnit), its Display serialization, the pest-based line parser
  (FromStr for TodoItem / TodoList and TodoItem::from_item_pair), the
  index-cache maintenance (set_indices) and the mutators/accessors.
- src/app.rs: TodoListFilter::applies and SortedFilteredTodoList
  (update_view_indices, new, mutate_filter).

The repository does not ship the pest grammar file (todo_grammar.pest), the
recurrence engine, the TodoItem total order used by sort_by_key, or the
toggle_completed implementation called from src/main.rs; those pieces are
modelled from the specification (sections 3, 4.1, 4.3, 4.4 and 6) and are
marked as such in their doc comments.

Machine integers: all Rust usize/u32 values are modelled as Nat.  The only
place where the width matters is the u32 recurrence amount, noted at its
definition.  Strings are modelled as Lean String / List Char; positions are
character positions (the inputs of interest are ASCII, where pest byte
columns and character columns coincide).
-/
/-! ## Characters, digits and small string utilities -/
/-- Is the character an ASCII space (the separator in the todo.txt grammar). -/
def isSpaceC (c : Char) : Bool := c == ' '

/-- Is the character an ASCII digit. -/
def isDigitC (c : Char) : Bool := 48 ≤ c.toNat && c.toNat ≤ 57

/-- Is the character an uppercase ASCII letter A-Z. -/
def isUpperC (c : Char) : Bool := 65 ≤ c.toNat && c.toNat ≤ 90

/-- Numeric value of a digit character. -/
def digitVal (c : Char) : Nat := c.toNat - 48

/-- The digit character for a value below ten. -/
def digitChar (n : Nat) : Char := Char.ofNat (48 + n)

/-- Render a natural number in decimal, most significant digit first
(the digit sequence emitted by Rust's Display for integers). -/
def renderNat (n : Nat) : List Char :=
  if n < 10 then [digitChar n]
  else renderNat (n / 10) ++ [digitChar (n % 10)]
decreasing_by exact Nat.div_lt_self (by omega) (by omega)

/-- Fold a digit list into the natural number it denotes. -/
def natFromDigits (ds : List Char) : Nat :=
  ds.foldl (fun acc c => acc * 10 + digitVal c) 0

/-- Does the needle occur at the start of the haystack. -/
def prefB : List Char → List Char → Bool
  | [], _ => true
  | _ :: _, [] => false
  | a :: as, b :: bs => a == b && prefB as bs

/-- Does the needle occur as a contiguous substring of the haystack
(the semantics of Rust str::contains for literal needles). -/
def subB (needle : List Char) : List Char → Bool
  | [] => needle.isEmpty
  | c :: cs => prefB needle (c :: cs) || subB needle cs

/-- ASCII lowercasing of a character list (models str::to_lowercase on the
ASCII inputs the filter deals with). -/
def lowerL (cs : List Char) : List Char := cs.map Char.toLower

/-! ## Calendar dates

Models chrono::NaiveDate restricted to what the 4-digit-year grammar can
produce: a year/month/day triple of naturals, valid per the proleptic
Gregorian calendar. -/
/-- A calendar date (no time of day, no timezone). -/
structure Date where
  year : Nat
  month : Nat
  day : Nat
deriving DecidableEq, Repr, Inhabited

/-- Gregorian leap year test. -/
def isLeap (y : Nat) : Bool := (y % 4 == 0 && y % 100 != 0) || y % 400 == 0

/-- Days in a month of the proleptic Gregorian calendar. -/
def daysInMonth (y m : Nat) : Nat :=
  if m == 2 then (if isLeap y then 29 else 28)
  else if m == 4 || m == 6 || m == 9 || m == 11 then 30
  else 31

/-- Validity of a year/month/day triple (what chrono NaiveDate::from_ymd_opt
accepts; NaiveDate::parse_from_str enforces the same). -/
def validYmd (y m d : Nat) : Bool :=
  1 ≤ m && m ≤ 12 && 1 ≤ d && d ≤ daysInMonth y m

/-- Validity of a Date value. -/
def Date.validB (d : Date) : Bool := validYmd d.year d.month d.day

/-- Strict chronological order on dates (chrono Ord: lexicographic on
year, month, day). -/
def dateLtB (a b : Date) : Bool :=
  a.year < b.year ||
    (a.year == b.year &&
      (a.month < b.month || (a.month == b.month && a.day < b.day)))

/-- Two-digit zero-padded decimal rendering (the %m / %d directives). -/
def pad2 (n : Nat) : List Char := [digitChar (n / 10 % 10), digitChar (n % 10)]

/-- Four-digit zero-padded decimal rendering (the %Y directive for years
0 to 9999). -/
def pad4 (n : Nat) : List Char :=
  [digitChar (n / 1000 % 10), digitChar (n / 100 % 10),
   digitChar (n / 10 % 10), digitChar (n % 10)]

/-- Render a date as YYYY-MM-DD, the %Y-%m-%d format used on both the
serialization and parsing sides in src/todo.rs. -/
def renderDate (d : Date) : List Char :=
  pad4 d.year ++ '-' :: pad2 d.month ++ '-' :: pad2 d.day

/-- Read a character list of the exact shape YYYY-MM-DD (digits and dashes)
into a raw year/month/day triple.  Returns none when the shape does not
match; value validity is checked separately, mirroring the split between
the grammar (shape) and NaiveDate::parse_from_str (value) in the source. -/
def readDateShape : List Char → Option (Nat × Nat × Nat)
  | [y1, y2, y3, y4, dash1, m1, m2, dash2, d1, d2] =>
    if dash1 == '-' && dash2 == '-' &&
        isDigitC y1 && isDigitC y2 && isDigitC y3 && isDigitC y4 &&
        isDigitC m1 && isDigitC m2 && isDigitC d1 && isDigitC d2 then
      some (digitVal y1 * 1000 + digitVal y2 * 100 + digitVal y3 * 10 + digitVal y4,
            digitVal m1 * 10 + digitVal m2,
            digitVal d1 * 10 + digitVal d2)
    else none
  | _ => none

/-! ## The item model (src/todo.rs) -/
/-- The unit of a recurrence rule (enum RecurringUnit). -/
inductive RecurringUnit where
  | days
  | weeks
  | months
  | years
deriving DecidableEq, Repr, Inhabited

/-- One content part variant (enum Content).  The Rust constructor Rec is
named recur here because rec is reserved in Lean; Word, Context, Project,
Due, T and Pri keep their names in lowercase. -/
inductive Content where
  | word (s : String)
  | context (s : String)
  | project (s : String)
  | recur (relative : Bool) (amount : Nat) (unit : RecurringUnit)
  | due (d : Date)
  | t (d : Date)
  | pri (c : Char)
deriving DecidableEq, Repr, Inhabited

/-- A content part: the whitespace run preceding it plus its content
(struct ContentPart). -/
structure ContentPart where
  space : String
  content : Content
deriving DecidableEq, Repr, Inhabited

/-- The priority representation (enum Priority): either the literal leading
marker letter or the index of a Pri content part. -/
inductive Priority where
  | literal (c : Char)
  | index (i : Nat)
deriving DecidableEq, Repr, Inhabited

/-- One todo item (struct TodoItem).  creation_date is mandatory, exactly as
in src/todo.rs. -/
structure TodoItem where
  completion_date : Option Date
  priority : Option Priority
  creation_date : Date
  content : List ContentPart
  context_indices : List Nat
  project_indices : List Nat
  rec_index : Option Nat
  due_index : Option Nat
  t_index : Option Nat
deriving DecidableEq, Repr, Inhabited

/-- The character rendered for a recurring unit (impl Display for
RecurringUnit). -/
def unitChar : RecurringUnit → Char
  | .days => 'd'
  | .weeks => 'w'
  | .months => 'm'
  | .years => 'y'

/-- Serialization of one content part body (impl Display for Content). -/
def renderContentC : Content → List Char
  | .word s => s.data
  | .context s => '@' :: s.data
  | .project s => '+' :: s.data
  | .recur rel amount unit =>
    'r' :: 'e' :: 'c' :: ':' ::
      ((if rel then ['+'] else []) ++ renderNat amount ++ [unitChar unit])
  | .due d => 'd' :: 'u' :: 'e' :: ':' :: renderDate d
  | .t d => 't' :: ':' :: renderDate d
  | .pri c => ['p', 'r', 'i', ':', c]

/-- Serialization of the content run: the first part is written without its
space, every later part is preceded by its stored space (impl Display for
TodoItem, the content loop). -/
def renderRest : List ContentPart → List Char
  | [] => []
  | p :: ps => p.space.data ++ renderContentC p.content ++ renderRest ps

/-- Serialization of a whole content list. -/
def renderParts : List ContentPart → List Char
  | [] => []
  | p :: ps => renderContentC p.content ++ renderRest ps

/-- Serialization of an item (impl Display for TodoItem): the completion
prefix when a completion date is present, else the literal priority prefix
when one is set; then the creation date and a space; then the content run.
A literal priority is not emitted at all while a completion date is
present. -/
def renderItemCh (item : TodoItem) : List Char :=
  (match item.completion_date with
    | some d => 'x' :: ' ' :: (renderDate d ++ [' '])
    | none =>
      match item.priority with
      | some (.literal c) => ['(', c, ')', ' ']
      | _ => []) ++
  renderDate item.creation_date ++ [' '] ++ renderParts item.content

/-- String-typed serialization (the to_string of the Display impl). -/
def renderItemS (item : TodoItem) : String := ⟨renderItemCh item⟩

/-! ## The line parser

The grammar file (todo_grammar.pest) is not part of the sources; the
token-level grammar below is modelled from the spec: section 4.1 (an
optional x-date completion prefix, an optional parenthesised letter
priority prefix, a mandatory creation date, then a content run of word,
at-word, plus-word and label:value chunks separated by space runs) and
section 6 (the wire format, dates as 4-digit-year YYYY-MM-DD, units d w m
y, each of pri due t rec at most once).  Everything downstream of
tokenization — duplicate-tag rejection, date value validation, error
messages and spans, content assembly — follows TodoItem::from_item_pair in
src/todo.rs, which is in the sources. -/
/-- An item-level parse error: message plus a column span, 1-based inclusive
start and exclusive stop (struct ItemParseError with its Range<usize>). -/
structure ItemParseError where
  error_message : String
  spanStart : Nat
  spanStop : Nat
deriving DecidableEq, Repr, Inhabited

/-- The classification of one whitespace-free chunk of the content run.
Raw dates are kept as number triples because the duplicate-tag check fires
before date value validation in from_item_pair. -/
inductive PreTok where
  | pword (s : String)
  | pctx (s : String)
  | pproj (s : String)
  | prec (relative : Bool) (amount : Nat) (unit : RecurringUnit)
  | pdue (y m d : Nat)
  | pt (y m d : Nat)
  | ppri (c : Char)
deriving DecidableEq, Repr, Inhabited

/-- The recurring unit denoted by a character (FromStr for RecurringUnit). -/
def unitOf : Char → Option RecurringUnit
  | 'd' => some .days
  | 'w' => some .weeks
  | 'm' => some .months
  | 'y' => some .years
  | _ => none

/-- Read the payload of a rec: chunk: an optional leading plus (relative
marker), a nonempty digit run, then exactly one unit character.
The amount is a Nat; the Rust code parses it into u32 and would panic on
overflow, a divergence only for amounts of ten or more digits. -/
def readRecShape (cs : List Char) : Option (Bool × Nat × RecurringUnit) :=
  let rel := prefB ['+'] cs
  let body := if rel then cs.drop 1 else cs
  let digits := body.takeWhile isDigitC
  let after := body.dropWhile isDigitC
  if digits.isEmpty then none
  else
    match after with
    | [u] => (unitOf u).map fun un => (rel, natFromDigits digits, un)
    | _ => none

/-- Classify one whitespace-free chunk of the content run.  A chunk that
starts like a tag but does not complete its shape falls back to a plain
word, so that classification is total on space-free chunks. -/
def classify (chunk : List Char) : PreTok :=
  if prefB ['@'] chunk && 1 < chunk.length then .pctx ⟨chunk.drop 1⟩
  else if prefB ['+'] chunk && 1 < chunk.length then .pproj ⟨chunk.drop 1⟩
  else if prefB ['r', 'e', 'c', ':'] chunk then
    match readRecShape (chunk.drop 4) with
    | some (rel, amount, un) => .prec rel amount un
    | none => .pword ⟨chunk⟩
  else if prefB ['d', 'u', 'e', ':'] chunk then
    match readDateShape (chunk.drop 4) with
    | some (y, m, d) => .pdue y m d
    | none => .pword ⟨chunk⟩
  else if prefB ['t', ':'] chunk then
    match readDateShape (chunk.drop 2) with
    | some (y, m, d) => .pt y m d
    | none => .pword ⟨chunk⟩
  else if prefB ['p', 'r', 'i', ':'] chunk then
    match chunk.drop 4 with
    | [c] => if isUpperC c then .ppri c else .pword ⟨chunk⟩
    | _ => .pword ⟨chunk⟩
  else .pword ⟨chunk⟩

/-- Split the content run into chunks.  Yields (position, preceding space
run, chunk) triples; pos is the 0-based character position of the chunk in
the line, sp the space run accumulated since the previous chunk (the caller
seeds the first chunk with the single separator space, matching the
builder's initial preceding_space of one space).  A trailing space run
produces no further chunk. -/
def scanChunks (pos : Nat) (sp : List Char) : (cs : List Char) →
    List (Nat × List Char × List Char)
  | [] => []
  | c :: rest =>
    if c == ' ' then
      scanChunks (pos + 1) (sp ++ [c]) rest
    else
      let chunk := c :: rest.takeWhile (fun d => !(d == ' '))
      let after := rest.dropWhile (fun d => !(d == ' '))
      (pos, sp, chunk) :: scanChunks (pos + chunk.length) [] after
termination_by cs => cs.length
decreasing_by
  all_goals simp only [List.length_cons]
  · omega
  · have hlen : ∀ (p : Char → Bool) (l : List Char),
        (l.dropWhile p).length ≤ l.length := by
      intro p l
      induction l with
      | nil => simp [List.dropWhile]
      | cons c cs ih =>
        simp only [List.dropWhile]
        rcases h : p c with _ | _
        · simp
        · simpa using Nat.le_succ_of_le ih
    exact Nat.lt_succ_of_le (hlen _ _)

/-- The builder state threaded through the content chunks: the priority seen
so far (literal from the prefix or index of a pri tag), the three
tag-already-seen flags, and the accumulated content parts (the local
variables of TodoItem::from_item_pair). -/
structure BState where
  prio : Option Priority
  dueSet : Bool
  tSet : Bool
  recSet : Bool
  parts : List ContentPart
deriving DecidableEq, Repr, Inhabited

/-- Process one classified chunk, mirroring the Rule::word / context /
project / rec / due / pri / t arms of TodoItem::from_item_pair: duplicate
tags are rejected with the span of the offending chunk before any value
validation; date values are then validated (the parse_date helper), the
error span being the date portion of the chunk. -/
def buildStep (st : BState) (c : Nat × List Char × List Char) :
    Except ItemParseError BState :=
  let pos := c.1
  let sp := c.2.1
  let chunk := c.2.2
  match classify chunk with
  | .pword s => .ok {st with parts := st.parts ++ [⟨⟨sp⟩, .word s⟩]}
  | .pctx s => .ok {st with parts := st.parts ++ [⟨⟨sp⟩, .context s⟩]}
  | .pproj s => .ok {st with parts := st.parts ++ [⟨⟨sp⟩, .project s⟩]}
  | .prec rel amount un =>
    if st.recSet then
      .error ⟨"Illegal second 'rec' definition", pos + 1, pos + chunk.length + 1⟩
    else
      .ok {st with recSet := true,
                   parts := st.parts ++ [⟨⟨sp⟩, .recur rel amount un⟩]}
  | .pdue y m d =>
    if st.dueSet then
      .error ⟨"Illegal second 'due' definition", pos + 1, pos + chunk.length + 1⟩
    else if validYmd y m d then
      .ok {st with dueSet := true, parts := st.parts ++ [⟨⟨sp⟩, .due ⟨y, m, d⟩⟩]}
    else
      .error ⟨"Failed to parse date", pos + 5, pos + chunk.length + 1⟩
  | .pt y m d =>
    if st.tSet then
      .error ⟨"Illegal second 't' definition", pos + 1, pos + chunk.length + 1⟩
    else if validYmd y m d then
      .ok {st with tSet := true, parts := st.parts ++ [⟨⟨sp⟩, .t ⟨y, m, d⟩⟩]}
    else
      .error ⟨"Failed to parse date", pos + 3, pos + chunk.length + 1⟩
  | .ppri ch =>
    if st.prio.isSome then
      .error ⟨"Illegal second 'pri' definition", pos + 1, pos + chunk.length + 1⟩
    else
      .ok {st with prio := some (.index st.parts.length),
                   parts := st.parts ++ [⟨⟨sp⟩, .pri ch⟩]}

/-- Fold the builder over all chunks, stopping at the first error. -/
def buildParts (st : BState) : List (Nat × List Char × List Char) →
    Except ItemParseError BState
  | [] => .ok st
  | c :: cs =>
    match buildStep st c with
    | .ok st2 => buildParts st2 cs
    | .error e => .error e

/-! ## set_indices (TodoItem::set_indices in src/todo.rs) -/
/-- The index data recomputed by set_indices: the possibly rewritten
priority plus the five index caches. -/
structure IndexData where
  prio : Option Priority
  ci : List Nat
  pi : List Nat
  ri : Option Nat
  di : Option Nat
  ti : Option Nat
deriving DecidableEq, Repr, Inhabited

/-- The scan loop of set_indices over the enumerated content.  The Rust
code asserts that rec/due/t indices and the priority are still unset when a
matching part is found; a failed assertion is a panic, modelled as none. -/
def siGo (k : Nat) (st : IndexData) : List ContentPart → Option IndexData
  | [] => some st
  | p :: rest =>
    match p.content with
    | .word _ => siGo (k + 1) st rest
    | .context _ => siGo (k + 1) {st with ci := st.ci ++ [k]} rest
    | .project _ => siGo (k + 1) {st with pi := st.pi ++ [k]} rest
    | .recur _ _ _ =>
      if st.ri.isSome then none else siGo (k + 1) {st with ri := some k} rest
    | .due _ =>
      if st.di.isSome then none else siGo (k + 1) {st with di := some k} rest
    | .t _ =>
      if st.ti.isSome then none else siGo (k + 1) {st with ti := some k} rest
    | .pri _ =>
      if st.prio.isSome then none
      else siGo (k + 1) {st with prio := some (.index k)} rest

/-- TodoItem::set_indices as a function of the priority field and the
content: clears every cache, drops an index-based priority, then scans.
none models the panicking assertion paths. -/
def setIndicesFn (p0 : Option Priority) (content : List ContentPart) :
    Option IndexData :=
  let pInit : Option Priority :=
    match p0 with
    | some (.index _) => none
    | other => other
  siGo 0 ⟨pInit, [], [], none, none, none⟩ content

/-- Apply set_indices to an item (none models a panic). -/
def set_indicesOpt (item : TodoItem) : Option TodoItem :=
  (setIndicesFn item.priority item.content).map fun d =>
    {item with priority := d.prio, context_indices := d.ci,
               project_indices := d.pi, rec_index := d.ri,
               due_index := d.di, t_index := d.ti}

/-! ## The item and list parsers -/
/-- Try to recognize the completion prefix: the characters x, space, a
date-shaped run, space (the completed rule of the grammar, modelled from
spec 4.1/6).  On success returns the raw date and the rest of the line;
per PEG semantics a failed optional consumes nothing. -/
def matchCompleted (cs : List Char) : Option ((Nat × Nat × Nat) × List Char) :=
  match cs with
  | c1 :: c2 :: rest =>
    if c1 == 'x' && c2 == ' ' then
      match readDateShape (rest.take 10) with
      | some raw =>
        match rest.drop 10 with
        | c3 :: rest2 => if c3 == ' ' then some (raw, rest2) else none
        | _ => none
      | none => none
    else none
  | _ => none

/-- Try to recognize the priority prefix: an uppercase letter in
parentheses followed by a space (the priority rule, modelled from spec
4.1/6 and the A-Z priority range of spec 3). -/
def matchPrio (cs : List Char) : Option (Char × List Char) :=
  match cs with
  | c1 :: c :: c3 :: c4 :: rest =>
    if c1 == '(' && c3 == ')' && c4 == ' ' && isUpperC c then some (c, rest)
    else none
  | _ => none

/-- Parse the content run that follows the creation date and its separator
space; pos is the 0-based position of the first content character.  The
run must not start with a space (the builder asserts its preceding_space
is consumed before another space run may begin), chunks are split on space
runs and fed to the builder. -/
def parseContent (pos : Nat) (prio0 : Option Priority) (body : List Char) :
    Except ItemParseError BState :=
  match body with
  | [] => .ok ⟨prio0, false, false, false, []⟩
  | c :: _ =>
    if c == ' ' then .error ⟨"Unexpected space in content", pos + 1, pos + 2⟩
    else buildParts ⟨prio0, false, false, false, []⟩ (scanChunks pos [' '] body)

/-- The error used for the creation-date grammar failure (pest reports the
expected rule at the failing position; message text modelled). -/
def expectedDateErr (pos : Nat) : ItemParseError :=
  ⟨"Expected date", pos + 1, pos + 2⟩

/-- Assemble the parsed item from the prefix data and the final builder
state, then run set_indices, exactly as the tail of
TodoItem::from_item_pair.  The set_indices call cannot fail on builder
output (proved below); its panic paths are mapped to a sentinel error that
is shown unreachable. -/
def finishItem (compl : Option Date) (creation : Date) (st : BState) :
    Except ItemParseError TodoItem :=
  match set_indicesOpt ⟨compl, st.prio, creation, st.parts, [], [],
      none, none, none⟩ with
  | some item => .ok item
  | none => .error ⟨"Unreachable set_indices assertion", 0, 0⟩

/-- Parse the creation date and the content run that follow the optional
prefixes; off2 is the 0-based position where the creation date starts. -/
def parseFromCreation (compl : Option Date) (prioLit : Option Char)
    (cs2 : List Char) (off2 : Nat) : Except ItemParseError TodoItem :=
  match readDateShape (cs2.take 10) with
  | none => .error (expectedDateErr off2)
  | some (y, m, d) =>
    if validYmd y m d then
      match cs2.drop 10 with
      | [] =>
        match parseContent (off2 + 11) (prioLit.map .literal) [] with
        | .ok st => finishItem compl ⟨y, m, d⟩ st
        | .error e => .error e
      | c :: body =>
        if c == ' ' then
          match parseContent (off2 + 11) (prioLit.map .literal) body with
          | .ok st => finishItem compl ⟨y, m, d⟩ st
          | .error e => .error e
        else .error ⟨"Expected space or end of item", off2 + 11, off2 + 12⟩
    else .error ⟨"Failed to parse date", off2 + 1, off2 + 11⟩

/-- Parse what follows the optional completion prefix: the optional
priority prefix, then creation date and content. -/
def parseAfterCompleted (compl : Option Date) (cs1 : List Char)
    (off1 : Nat) : Except ItemParseError TodoItem :=
  match matchPrio cs1 with
  | some (c, rest) => parseFromCreation compl (some c) rest (off1 + 4)
  | none => parseFromCreation compl none cs1 off1

/-- Parse one line into a TodoItem: FromStr for TodoItem combined with
TodoItem::from_item_pair.  Works on characters; spans are 1-based column
ranges as produced by pest line_col positions. -/
def parseItemCh (cs : List Char) : Except ItemParseError TodoItem :=
  match matchCompleted cs with
  | some ((y, m, d), rest) =>
    if validYmd y m d then parseAfterCompleted (some ⟨y, m, d⟩) rest 13
    else .error ⟨"Failed to parse date", 3, 13⟩
  | none => parseAfterCompleted none cs 0

/-- String-typed item parser (FromStr for TodoItem). -/
def parseItemS (s : String) : Except ItemParseError TodoItem :=
  parseItemCh s.data

/-- The whole-list error string for a failing line: line index, the line,
a caret marker row under the error span, and the item-level message
(FromStr for TodoList in src/todo.rs).  The marker row puts spanStart - 1
spaces then spanStop - spanStart carets; both subtractions are the Nat
truncations of the Rust usize arithmetic (spans are 1-based so the first
never underflows on reachable errors). -/
def listErrString (i : Nat) (line : String) (e : ItemParseError) : String :=
  "Failed to parse item in line " ++ Nat.repr i ++ ":\n" ++ line ++ "\n" ++
    (⟨List.replicate (e.spanStart - 1) ' ' ++
      List.replicate (e.spanStop - e.spanStart) '^'⟩ : String) ++ "\n" ++
    e.error_message

/-- Split a character list on newline characters, keeping empty
segments. -/
def splitNl : List Char → List (List Char)
  | [] => [[]]
  | c :: cs =>
    match splitNl cs with
    | [] => [[c]]
    | g :: gs => if c == '\n' then [] :: g :: gs else (c :: g) :: gs

/-- The line splitting performed by Rust str::lines: split on newline,
with no trailing empty line for a trailing newline.  Carriage returns are
not modelled (the inputs of interest contain none). -/
def linesModel (s : String) : List String :=
  let ps := (splitNl s.data).map fun l => (⟨l⟩ : String)
  if ps.getLast? == some "" then ps.dropLast else ps

/-- Parse the numbered lines, stopping at the first failure (the loop of
FromStr for TodoList). -/
def parseLines (i : Nat) : List String → Except String (List TodoItem)
  | [] => .ok []
  | l :: ls =>
    match parseItemS l with
    | .error e => .error (listErrString i l e)
    | .ok item =>
      match parseLines (i + 1) ls with
      | .ok items => .ok (item :: items)
      | .error msg => .error msg

/-- FromStr for TodoList: parse every line of the source, stopping at the
first failing line. -/
def parseListS (s : String) : Except String (List TodoItem) :=
  parseLines 0 (linesModel s)

/-! ## Accessors and mutators of TodoItem (src/todo.rs)

Rust panics (index out of bounds, the unreachable arms, failed asserts)
are modelled by Option: none is a panic, some the returned value. -/
/-- TodoItem::new. -/
def TodoItem.new (creation : Date) : TodoItem :=
  ⟨none, none, creation, [], [], [], none, none, none⟩

/-- TodoItem::priority: the stored letter, read through the content for an
index-based priority.  none models the unreachable/index panic. -/
def priorityAcc (item : TodoItem) : Option (Option Char) :=
  match item.priority with
  | none => some none
  | some (.literal c) => some (some c)
  | some (.index i) =>
    match item.content.get? i with
    | some ⟨_, .pri c⟩ => some (some c)
    | _ => none

/-- The priority as a plain optional letter, total: the value
TodoItem::priority returns whenever it does not panic.  Used where the
filter compares against the item priority. -/
def priorityView (item : TodoItem) : Option Char :=
  match item.priority with
  | none => none
  | some (.literal c) => some c
  | some (.index i) =>
    match item.content.get? i with
    | some ⟨_, .pri c⟩ => some c
    | _ => none

/-- Collect the images of a panic-propagating function (the shape of the
iterators TodoItem::contexts and TodoItem::projects return: any stale
index panics when the iterator is consumed). -/
def mapO {α β : Type} (f : α → Option β) : List α → Option (List β)
  | [] => some []
  | a :: as =>
    match f a with
    | some b => (mapO f as).map (b :: ·)
    | none => none

/-- TodoItem::contexts collected into a list (none models a panic on any
stale index). -/
def contextsAcc (item : TodoItem) : Option (List String) :=
  mapO (fun i =>
    match item.content.get? i with
    | some ⟨_, .context s⟩ => some s
    | _ => none) item.context_indices

/-- TodoItem::projects collected into a list. -/
def projectsAcc (item : TodoItem) : Option (List String) :=
  mapO (fun i =>
    match item.content.get? i with
    | some ⟨_, .project s⟩ => some s
    | _ => none) item.project_indices

/-- TodoItem::recurring. -/
def recurringAcc (item : TodoItem) : Option (Option (Bool × Nat × RecurringUnit)) :=
  match item.rec_index with
  | none => some none
  | some i =>
    match item.content.get? i with
    | some ⟨_, .recur rel amount un⟩ => some (some (rel, amount, un))
    | _ => none

/-- TodoItem::due_date. -/
def due_dateAcc (item : TodoItem) : Option (Option Date) :=
  match item.due_index with
  | none => some none
  | some i =>
    match item.content.get? i with
    | some ⟨_, .due d⟩ => some (some d)
    | _ => none

/-- TodoItem::t_date (t_date_mut reads the same data). -/
def t_dateAcc (item : TodoItem) : Option (Option Date) :=
  match item.t_index with
  | none => some none
  | some i =>
    match item.content.get? i with
    | some ⟨_, .t d⟩ => some (some d)
    | _ => none

/-- The threshold date as a total view (the value t_date returns whenever
it does not panic). -/
def t_dateView (item : TodoItem) : Option Date :=
  match item.t_index with
  | none => none
  | some i =>
    match item.content.get? i with
    | some ⟨_, .t d⟩ => some d
    | _ => none

/-- The due date as a total view. -/
def due_dateView (item : TodoItem) : Option Date :=
  match item.due_index with
  | none => none
  | some i =>
    match item.content.get? i with
    | some ⟨_, .due d⟩ => some d
    | _ => none

/-- The recurrence rule as a total view. -/
def recurringView (item : TodoItem) : Option (Bool × Nat × RecurringUnit) :=
  match item.rec_index with
  | none => none
  | some i =>
    match item.content.get? i with
    | some ⟨_, .recur rel amount un⟩ => some (rel, amount, un)
    | _ => none

/-- TodoItem::set_priority.  The five match arms of the source: nothing to
do; create a literal or, while completed, append a pri tag part; replace or
drop a literal; remove the pri tag part and re-derive the indices; rewrite
the letter inside the pri tag part.  none models the panics (out-of-bounds
remove, the unreachable arm, a failed set_indices assert). -/
def set_priority (item : TodoItem) (p : Option Char) : Option TodoItem :=
  match item.priority, p with
  | none, none => some item
  | none, some c =>
    if item.completion_date.isSome then
      some {item with priority := some (.index item.content.length),
                      content := item.content ++ [⟨" ", .pri c⟩]}
    else
      some {item with priority := some (.literal c)}
  | some (.literal _), _ => some {item with priority := p.map .literal}
  | some (.index i), none =>
    if i < item.content.length then
      let c2 := item.content.eraseIdx i
      match setIndicesFn (some (.index i)) c2 with
      | some d =>
        some {item with priority := none, content := c2,
                        context_indices := d.ci, project_indices := d.pi,
                        rec_index := d.ri, due_index := d.di, t_index := d.ti}
      | none => none
    else none
  | some (.index i), some c =>
    match item.content.get? i with
    | some ⟨sp, .pri _⟩ =>
      some {item with content := item.content.set i ⟨sp, .pri c⟩}
    | _ => none

/-- TodoItem::set_recurring, mirroring its four match arms. -/
def set_recurring (item : TodoItem)
    (r : Option (Bool × Nat × RecurringUnit)) : Option TodoItem :=
  match item.rec_index, r with
  | none, none => some item
  | some i, none =>
    if i < item.content.length then
      let c2 := item.content.eraseIdx i
      match setIndicesFn item.priority c2 with
      | some d =>
        some {item with priority := d.prio, content := c2,
                        context_indices := d.ci, project_indices := d.pi,
                        rec_index := d.ri, due_index := d.di, t_index := d.ti}
      | none => none
    else none
  | some i, some (rel, amount, un) =>
    match item.content.get? i with
    | some ⟨sp, .recur _ _ _⟩ =>
      some {item with content := item.content.set i ⟨sp, .recur rel amount un⟩}
    | _ => none
  | none, some (rel, amount, un) =>
    some {item with rec_index := some item.content.length,
                    content := item.content ++ [⟨" ", .recur rel amount un⟩]}

/-- TodoItem::set_due_date.  The Rust body maps due_index to a mutable
reference into the matching Due part and then discards it; the date
argument is never read and nothing is written, so the item is returned
unchanged.  none models the panic of the unreachable arm or an
out-of-bounds index. -/
def set_due_date (item : TodoItem) (date : Option Date) : Option TodoItem :=
  match item.due_index with
  | none => some item
  | some i =>
    match item.content.get? i with
    | some ⟨_, .due _⟩ => some item
    | _ => none

/-! ## The filter evaluator (TodoListFilter in src/app.rs) -/
/-- The filter (struct TodoListFilter): the free-text input field, the
completion criterion, the priority criterion and the
hide-future-threshold flag. -/
structure TodoListFilter where
  input_field : String
  completion : Option Bool
  priority : Option (Option Char)
  t : Bool
deriving DecidableEq, Repr, Inhabited

/-- Default for TodoListFilter: empty input, no completion or priority
criterion, threshold hiding on. -/
def TodoListFilter.default : TodoListFilter := ⟨"", none, none, true⟩

/-- str::split_whitespace: the maximal nonempty runs of
non-whitespace characters. -/
def wordsSplit : List Char → List (List Char)
  | [] => []
  | c :: rest =>
    if c.isWhitespace then wordsSplit rest
    else
      (c :: rest.takeWhile (fun d => !d.isWhitespace)) ::
        wordsSplit (rest.dropWhile (fun d => !d.isWhitespace))
termination_by cs => cs.length
decreasing_by
  all_goals simp only [List.length_cons]
  · omega
  · have hlen : ∀ (p : Char → Bool) (l : List Char),
        (l.dropWhile p).length ≤ l.length := by
      intro p l
      induction l with
      | nil => simp [List.dropWhile]
      | cons c cs ih =>
        simp only [List.dropWhile]
        rcases h : p c with _ | _
        · simp
        · simpa using Nat.le_succ_of_le ih
    exact Nat.lt_succ_of_le (hlen _ _)

/-- TodoListFilter::applies.  The source reads the current date from the
system clock (Local::now().date_naive()) inside the threshold clause; that
clock value is the explicit today parameter here.  The word clause
lowercases the filter input, splits it on whitespace and accepts as soon
as any configured word occurs inside the lowercased text of any word,
context or project part; tag parts never participate.  The priority clause
compares against the item's priority letter (the item priority field is a
plain optional letter in the filter's version of the model, read here
through priorityView). -/
def applies (f : TodoListFilter) (today : Date) (item : TodoItem) : Bool :=
  if f.completion.any fun c => c != item.completion_date.isSome then false
  else if f.priority.any fun p => p != priorityView item then false
  else if f.t &&
      (match t_dateView item with
        | some td => dateLtB today td
        | none => false) then false
  else if !(f.input_field == "") then
    let ws := wordsSplit (lowerL f.input_field.data)
    item.content.any fun part =>
      match part.content with
      | .word s => ws.any fun w => subB w (lowerL s.data)
      | .context s => ws.any fun w => subB w (lowerL s.data)
      | .project s => ws.any fun w => subB w (lowerL s.data)
      | _ => false
  else true

/-! ## The total order on items and the sorted filtered list (src/app.rs)

SortedFilteredTodoList::update_view_indices sorts the passing indices with
sort_by_key on the item, which requires an Ord implementation for TodoItem
that is not part of the sources.  The comparison key below is
modelled from the spec, section 3: completed (false before true), then
priority (letters alphabetically, any letter before no priority), then due
date (present before absent, ascending), then threshold date (absent
before present, ascending), then completion date (absent before present,
ascending), then creation date (ascending; creation is mandatory in this
model), then recurrence presence (having one before not), then content
(lexicographic). -/
/-- Lexicographic key of a date. -/
def dateKey (d : Date) : Nat ×ₗ Nat ×ₗ Nat := toLex (d.year, toLex (d.month, d.day))

/-- The comparison key realizing the spec section 3 total order. -/
def itemKey (item : TodoItem) :
    Bool ×ₗ (Bool ×ₗ Char) ×ₗ (Bool ×ₗ (Nat ×ₗ Nat ×ₗ Nat)) ×ₗ
      (Bool ×ₗ (Nat ×ₗ Nat ×ₗ Nat)) ×ₗ (Bool ×ₗ (Nat ×ₗ Nat ×ₗ Nat)) ×ₗ
      (Nat ×ₗ Nat ×ₗ Nat) ×ₗ Bool ×ₗ List Char :=
  toLex (item.completion_date.isSome,
    toLex (toLex ((priorityView item).isNone, (priorityView item).getD 'A'),
      toLex (toLex ((due_dateView item).isNone,
          dateKey ((due_dateView item).getD ⟨0, 0, 0⟩)),
        toLex (toLex ((t_dateView item).isSome,
            dateKey ((t_dateView item).getD ⟨0, 0, 0⟩)),
          toLex (toLex (item.completion_date.isSome,
              dateKey (item.completion_date.getD ⟨0, 0, 0⟩)),
            toLex (dateKey item.creation_date,
              toLex ((recurringView item).isNone,
                renderParts item.content)))))))

/-- Non-strict comparison on items: the Ord-derived le used by
sort_by_key. -/
def itemLeB (a b : TodoItem) : Bool := decide (itemKey a ≤ itemKey b)

/-- The sorted filtered list (struct SortedFilteredTodoList without its
ratatui table state): the underlying items, the current filter and the
derived view of indices. -/
structure SFTL where
  list : List TodoItem
  filter : TodoListFilter
  view_indices : List Nat
deriving Repr

/-- SortedFilteredTodoList::update_view_indices: collect the indices of
the items accepted by the filter in enumeration order, then sort them by
the indexed item (a stable mergesort, as Rust sort_by_key).  today is the
clock value read inside the filter. -/
def update_view_indices (list : List TodoItem) (f : TodoListFilter)
    (today : Date) : List Nat :=
  (list.enum.filterMap fun p => if applies f today p.2 then some p.1 else none).mergeSort
    fun i j => itemLeB (list.getD i default) (list.getD j default)

/-- SortedFilteredTodoList::new: default filter, then derive the view. -/
def SFTL.new (list : List TodoItem) (today : Date) : SFTL :=
  ⟨list, TodoListFilter.default,
    update_view_indices list TodoListFilter.default today⟩

/-- SortedFilteredTodoList::mutate_filter: apply the mutation to the
filter, then recompute the view. -/
def SFTL.mutate_filter (s : SFTL) (g : TodoListFilter → TodoListFilter)
    (today : Date) : SFTL :=
  let f2 := g s.filter
  ⟨s.list, f2, update_view_indices s.list f2 today⟩

/-! ## The recurrence engine and completion toggling

Modelled from the spec: the recurrence computation (section 4.4) and
toggleCompletion (section 4.3) are not part of the sources — src/main.rs
only calls toggle_completed on the selected item. -/
/-- The day after a date (proleptic Gregorian). -/
def nextDay (d : Date) : Date :=
  if d.day < daysInMonth d.year d.month then ⟨d.year, d.month, d.day + 1⟩
  else if d.month < 12 then ⟨d.year, d.month + 1, 1⟩
  else ⟨d.year + 1, 1, 1⟩

/-- Add a number of days. -/
def addDays (d : Date) : Nat → Date
  | 0 => d
  | n + 1 => addDays (nextDay d) n

/-- Add calendar months, clamping the day to the length of the target
month (spec 4.4 end-of-month policy). -/
def addMonths (d : Date) (n : Nat) : Date :=
  let tm := d.year * 12 + (d.month - 1) + n
  let y := tm / 12
  let m := tm % 12 + 1
  ⟨y, m, min d.day (daysInMonth y m)⟩

/-- Modelled from the spec: the Recurrence Engine apply(date, today, rule).
The base date is today when the rule is relative, otherwise the stored
date; days add the amount, weeks add seven times the amount, months add
calendar months with end-of-month clamping, years add twelve months per
unit (spec 4.4). -/
def applyRec (date today : Date) (rel : Bool) (amount : Nat)
    (un : RecurringUnit) : Date :=
  let base := if rel then today else date
  match un with
  | .days => addDays base amount
  | .weeks => addDays base (7 * amount)
  | .months => addMonths base amount
  | .years => addMonths base (12 * amount)

/-- Advance every due and threshold part through the recurrence engine. -/
def advanceParts (today : Date) (rel : Bool) (amount : Nat)
    (un : RecurringUnit) (parts : List ContentPart) : List ContentPart :=
  parts.map fun p =>
    match p.content with
    | .due d => {p with content := .due (applyRec d today rel amount un)}
    | .t d => {p with content := .t (applyRec d today rel amount un)}
    | _ => p

/-- Modelled from the spec: toggleCompletion (spec 4.3) on the src/todo.rs
item representation, with today supplied by the caller.  Completing an
item stamps today as its completion date (creation dates are mandatory in
this model); completing an item that carries a recurrence rule also
produces the sibling: a copy that is not completed, has its creation date
reset to today, and has its due and threshold dates advanced through the
engine with today as reference.  Un-completing clears the completion date
and produces no sibling. -/
def toggleCompleted (item : TodoItem) (today : Date) :
    TodoItem × Option TodoItem :=
  match item.completion_date with
  | some _ => ({item with completion_date := none}, none)
  | none =>
    let done := {item with completion_date := some today}
    match recurringView item with
    | none => (done, none)
    | some (rel, amount, un) =>
      (done,
        some {item with completion_date := none, creation_date := today,
                        content := advanceParts today rel amount un item.content})

/-! ## Claim-side reference definitions

These definitions follow the words of individual claims (not the source)
and exist to be compared against the source-derived definitions above. -/
/-- Rata die day number of a date (days-from-civil, proleptic Gregorian);
used to express a day difference between dates. -/
def rataDie (d : Date) : Int :=
  let y : Int := if d.month ≤ 2 then (d.year : Int) - 1 else (d.year : Int)
  let era : Int := (if 0 ≤ y then y else y - 399) / 400
  let yoe : Int := y - era * 400
  let mp : Int := ((d.month : Int) + 9) % 12
  let doy : Int := (153 * mp + 2) / 5 + (d.day : Int) - 1
  let doe : Int := yoe * 365 + yoe / 4 - yoe / 100 + doy
  era * 146097 + doe - 719468

/-- Written to the words of claim C2: every configured word occurs as a
substring of the item content, both sides case-folded. -/
def c2EveryWord (f : TodoListFilter) (item : TodoItem) : Bool :=
  (wordsSplit (lowerL f.input_field.data)).all fun w =>
    subB w (lowerL (renderParts item.content))

/-- Written to the words of claim C4: with hideThresholdBeyondDays
configured to limit, an item with a threshold date is rejected exactly
when threshold minus today in days exceeds the limit. -/
def c4SpecRejects (limit : Nat) (today : Date) (item : TodoItem) : Bool :=
  match t_dateView item with
  | some thr => decide ((limit : Int) < rataDie thr - rataDie today)
  | none => false

/-- The non-tag (free text) content parts, i.e. the content in the sense
of claim C5, which treats structural tags as fields outside the content. -/
def c5NonTagParts (parts : List ContentPart) : List ContentPart :=
  parts.filter fun p =>
    match p.content with
    | .word _ => true
    | .context _ => true
    | .project _ => true
    | _ => false

/-- Written to the words of claim C5: the fixed emission order
completion-or-priority prefix, creation date, content, then a trailing
pri tag while completed, then due, then t, then rec. -/
def c5ClaimRender (item : TodoItem) : List Char :=
  (match item.completion_date with
    | some d => 'x' :: ' ' :: (renderDate d ++ [' '])
    | none =>
      match priorityView item with
      | some c => ['(', c, ')', ' ']
      | none => []) ++
  renderDate item.creation_date ++ [' '] ++
  renderParts (c5NonTagParts item.content) ++
  (match item.completion_date, priorityView item with
    | some _, some c => ' ' :: renderContentC (.pri c)
    | _, _ => []) ++
  (match due_dateView item with
    | some d => ' ' :: renderContentC (.due d)
    | none => []) ++
  (match t_dateView item with
    | some d => ' ' :: renderContentC (.t d)
    | none => []) ++
  (match recurringView item with
    | some (rel, amount, un) => ' ' :: renderContentC (.recur rel amount un)
    | none => [])

/-! ## Well-formedness predicates -/
/-- Content part predicates by variant. -/
def ctxP (p : ContentPart) : Bool :=
  match p.content with | .context _ => true | _ => false

/-- Project part. -/
def projP (p : ContentPart) : Bool :=
  match p.content with | .project _ => true | _ => false

/-- Recurrence part. -/
def recP (p : ContentPart) : Bool :=
  match p.content with | .recur _ _ _ => true | _ => false

/-- Due part. -/
def dueP (p : ContentPart) : Bool :=
  match p.content with | .due _ => true | _ => false

/-- Threshold part. -/
def tP (p : ContentPart) : Bool :=
  match p.content with | .t _ => true | _ => false

/-- Pri part. -/
def priP (p : ContentPart) : Bool :=
  match p.content with | .pri _ => true | _ => false

/-- Index integrity: the stored caches and priority are a fixpoint of
set_indices (so every stored index points at a part of the matching
variant and every tag kind occurs at most once). -/
def wfIdx (item : TodoItem) : Bool :=
  setIndicesFn item.priority item.content ==
    some ⟨item.priority, item.context_indices, item.project_indices,
          item.rec_index, item.due_index, item.t_index⟩

/-- A date both valid and renderable with a four-digit year. -/
def dateOKB (d : Date) : Bool := d.validB && d.year ≤ 9999

/-- No space characters. -/
def noSpace (cs : List Char) : Bool := cs.all fun c => !(c == ' ')

/-- The textual well-formedness of one content part: its rendered chunk is
nonempty, space-free and classifies back to the same token.  This is what
the tokenizer guarantees about the parts it produces. -/
def chunkOK : Content → Bool
  | .word s => !s.data.isEmpty && noSpace s.data && (classify s.data == .pword s)
  | .context s => !s.data.isEmpty && noSpace s.data
  | .project s => !s.data.isEmpty && noSpace s.data
  | .recur _ _ _ => true
  | .due d => dateOKB d
  | .t d => dateOKB d
  | .pri c => isUpperC c

/-- The space runs stored in a content list: the first part carries the
single separator space, every later part a nonempty run of spaces. -/
def spacesOK : List ContentPart → Bool
  | [] => true
  | p :: ps =>
    p.space == " " &&
      ps.all fun q => !q.space.data.isEmpty && q.space.data.all isSpaceC

/-- Full well-formedness of an item as established by the parser: index
integrity plus textual constraints on every field. -/
def itemWFB (item : TodoItem) : Bool :=
  wfIdx item &&
  dateOKB item.creation_date &&
  item.completion_date.all dateOKB &&
  (match item.priority with
    | some (.literal c) => isUpperC c
    | _ => true) &&
  spacesOK item.content &&
  item.content.all fun p => chunkOK p.content

/-! ## Characterization of the set_indices scan -/
def oFill {α : Type} : Option α → Option α → Option α
  | some x, _ => some x
  | none, b => b

def idxsFrom (q : ContentPart → Bool) (k : Nat) : List ContentPart → List Nat
  | [] => []
  | p :: ps =>
    if q p then k :: idxsFrom q (k + 1) ps else idxsFrom q (k + 1) ps

def firstIdxFrom (q : ContentPart → Bool) (k : Nat) :
    List ContentPart → Option Nat
  | [] => none
  | p :: ps => if q p then some k else firstIdxFrom q (k + 1) ps

def flagCount (b : Bool) : Nat := if b then 1 else 0

def siFails (st : IndexData) (l : List ContentPart) : Bool :=
  2 ≤ flagCount st.prio.isSome + l.countP priP ||
  2 ≤ flagCount st.ri.isSome + l.countP recP ||
  2 ≤ flagCount st.di.isSome + l.countP dueP ||
  2 ≤ flagCount st.ti.isSome + l.countP tP

/-- The priority initialization of set_indices: an index-based priority is
cleared before the scan. -/
def initP : Option Priority → Option Priority
  | some (.index _) => none
  | o => o

/-- The constructor kind of a content part; the set_indices scan depends
only on this. -/
def partKind (p : ContentPart) : Nat :=
  match p.content with
  | .word _ => 0
  | .context _ => 1
  | .project _ => 2
  | .recur _ _ _ => 3
  | .due _ => 4
  | .t _ => 5
  | .pri _ => 6

unseal renderNat scanChunks wordsSplit

/-- The texts of the word, context and project parts (what the word
criterion of the filter evaluator scans). -/
def contentTexts (item : TodoItem) : List String :=
  item.content.filterMap fun p =>
    match p.content with
    | .word s => some s
    | .context s => some s
    | .project s => some s
    | _ => none

/-- The trailing tag block a canonical item stores after its free-text
parts: the pri tag (only for an index priority), then due, then t, then
rec, each preceded by one space. -/
def c5TagBlock (item : TodoItem) : List ContentPart :=
  (match item.priority, priorityView item with
    | some (.index _), some c => [⟨" ", .pri c⟩]
    | _, _ => []) ++
  (match due_dateView item with
    | some d => [⟨" ", .due d⟩]
    | none => []) ++
  (match t_dateView item with
    | some d => [⟨" ", .t d⟩]
    | none => []) ++
  (match recurringView item with
    | some (rel, amount, un) => [⟨" ", .recur rel amount un⟩]
    | none => [])

/-- The canonical dual-representation form assumed by the amended C5: a
literal priority only while not completed, a pri-tag priority only while
completed, at least one free-text part, and all structural tags stored
trailing in the order pri, due, t, rec with single-space separators. -/
def c5Canonical (item : TodoItem) : Bool :=
  (match item.priority with
    | some (.literal _) => !item.completion_date.isSome
    | some (.index _) => item.completion_date.isSome
    | none => true) &&
  !(c5NonTagParts item.content).isEmpty &&
  (item.content == c5NonTagParts item.content ++ c5TagBlock item)

/-- The triples the chunk scan produces for the tail of a rendered content
run: each part contributes its stored space run and its rendered chunk. -/
def tailTriples : Nat → List ContentPart → List (Nat × List Char × List Char)
  | _, [] => []
  | pos, p :: ps =>
    (pos + p.space.data.length, p.space.data, renderContentC p.content) ::
      tailTriples (pos + p.space.data.length + (renderContentC p.content).length) ps

/-- Dropping a matched run never lengthens a list. -/
theorem dropWhile_len_le (p : Char → Bool) (l : List Char) :
    (l.dropWhile p).length ≤ l.length := by
  induction l with
  | nil => simp [List.dropWhile]
  | cons c cs ih =>
    simp only [List.dropWhile]
    rcases h : p c with _ | _
    · simp
    · simpa using Nat.le_succ_of_le ih

theorem siGo_char (l : List ContentPart) : ∀ (k : Nat) (st : IndexData),
    siGo k st l =
      if siFails st l then none
      else some ⟨oFill st.prio ((firstIdxFrom priP k l).map .index),
                 st.ci ++ idxsFrom ctxP k l, st.pi ++ idxsFrom projP k l,
                 oFill st.ri (firstIdxFrom recP k l),
                 oFill st.di (firstIdxFrom dueP k l),
                 oFill st.ti (firstIdxFrom tP k l)⟩ := by
  induction l with
  | nil =>
    intro k st
    rcases st with ⟨p, ci, pi, ri, di, ti⟩
    simp only [siGo, siFails, idxsFrom, firstIdxFrom, List.countP_nil,
      List.append_nil, Option.map_none]
    have hp : ∀ (o : Option Priority), oFill o none = o := by
      intro o; cases o <;> rfl
    have hn : ∀ (o : Option Nat), oFill o none = o := by
      intro o; cases o <;> rfl
    have hb : ∀ b, flagCount b < 2 := by
      intro b; cases b <;> simp [flagCount]
    simp [hb, hp, hn]
  | cons p ps ih =>
    intro k st
    rcases p with ⟨sp, pc⟩
    have hcp : ∀ b (n : Nat), (2 ≤ flagCount b + (n + 1)) ↔ (2 ≤ 1 + n ∨ b = true) := by
      intro b n; cases b <;> simp [flagCount] <;> omega
    cases pc with
    | word s =>
      show siGo (k+1) st ps = _
      rw [ih]
      simp [siFails, idxsFrom, firstIdxFrom, List.countP_cons,
        ctxP, projP, recP, dueP, tP, priP]
    | context s =>
      show siGo (k+1) {st with ci := st.ci ++ [k]} ps = _
      rw [ih]
      simp [siFails, idxsFrom, firstIdxFrom, List.countP_cons,
        ctxP, projP, recP, dueP, tP, priP]
    | project s =>
      show siGo (k+1) {st with pi := st.pi ++ [k]} ps = _
      rw [ih]
      simp [siFails, idxsFrom, firstIdxFrom, List.countP_cons,
        ctxP, projP, recP, dueP, tP, priP]
    | recur rel amount un =>
      show (if st.ri.isSome then none else siGo (k+1) {st with ri := some k} ps) = _
      by_cases hri : st.ri.isSome
      · have hf : siFails st (⟨sp, .recur rel amount un⟩ :: ps) = true := by
          simp [siFails, List.countP_cons, recP, hcp, hri,
            ctxP, projP, dueP, tP, priP]
        simp [hri, hf]
      · have hri0 : st.ri = none := Option.not_isSome_iff_eq_none.mp hri
        rw [if_neg hri, ih]
        simp only [siFails, idxsFrom, firstIdxFrom, List.countP_cons,
          ctxP, projP, recP, dueP, tP, priP, hri0, Option.isSome_some,
          Option.isSome_none, flagCount, if_false, if_true,
          cond_true, cond_false]
        simp only [show (2:Nat) ≤ 1 + ps.countP recP ↔ 1 ≤ ps.countP recP by omega]
        by_cases h1 : 1 ≤ ps.countP recP
        · simp [h1, oFill]
        · simp [h1, oFill]
    | due d =>
      show (if st.di.isSome then none else siGo (k+1) {st with di := some k} ps) = _
      by_cases hdi : st.di.isSome
      · have hf : siFails st (⟨sp, .due d⟩ :: ps) = true := by
          simp [siFails, List.countP_cons, dueP, hcp, hdi,
            ctxP, projP, recP, tP, priP]
        simp [hdi, hf]
      · have hdi0 : st.di = none := Option.not_isSome_iff_eq_none.mp hdi
        rw [if_neg hdi, ih]
        simp only [siFails, idxsFrom, firstIdxFrom, List.countP_cons,
          ctxP, projP, recP, dueP, tP, priP, hdi0, Option.isSome_some,
          Option.isSome_none, flagCount, if_false, if_true,
          cond_true, cond_false]
        simp only [show (2:Nat) ≤ 1 + ps.countP dueP ↔ 1 ≤ ps.countP dueP by omega]
        by_cases h1 : 1 ≤ ps.countP dueP
        · simp [h1, oFill]
        · simp [h1, oFill]
    | t d =>
      show (if st.ti.isSome then none else siGo (k+1) {st with ti := some k} ps) = _
      by_cases hti : st.ti.isSome
      · have hf : siFails st (⟨sp, .t d⟩ :: ps) = true := by
          simp [siFails, List.countP_cons, tP, hcp, hti,
            ctxP, projP, recP, dueP, priP]
        simp [hti, hf]
      · have hti0 : st.ti = none := Option.not_isSome_iff_eq_none.mp hti
        rw [if_neg hti, ih]
        simp only [siFails, idxsFrom, firstIdxFrom, List.countP_cons,
          ctxP, projP, recP, dueP, tP, priP, hti0, Option.isSome_some,
          Option.isSome_none, flagCount, if_false, if_true,
          cond_true, cond_false]
        simp only [show (2:Nat) ≤ 1 + ps.countP tP ↔ 1 ≤ ps.countP tP by omega]
        by_cases h1 : 1 ≤ ps.countP tP
        · simp [h1, oFill]
        · simp [h1, oFill]
    | pri c =>
      show (if st.prio.isSome then none else
        siGo (k+1) {st with prio := some (.index k)} ps) = _
      by_cases hpr : st.prio.isSome
      · have hf : siFails st (⟨sp, .pri c⟩ :: ps) = true := by
          simp [siFails, List.countP_cons, priP, hcp, hpr,
            ctxP, projP, recP, dueP, tP]
        simp [hpr, hf]
      · have hpr0 : st.prio = none := Option.not_isSome_iff_eq_none.mp hpr
        rw [if_neg hpr, ih]
        simp only [siFails, idxsFrom, firstIdxFrom, List.countP_cons,
          ctxP, projP, recP, dueP, tP, priP, hpr0, Option.isSome_some,
          Option.isSome_none, flagCount, if_false, if_true,
          cond_true, cond_false]
        simp only [show (2:Nat) ≤ 1 + ps.countP priP ↔ 1 ≤ ps.countP priP by omega]
        by_cases h1 : 1 ≤ ps.countP priP
        · simp [h1, oFill]
        · simp [h1, oFill]

/-- setIndicesFn in closed form. -/
theorem setIndicesFn_char (p0 : Option Priority) (c : List ContentPart) :
    setIndicesFn p0 c =
      if siFails ⟨initP p0, [], [], none, none, none⟩ c then none
      else some ⟨oFill (initP p0) ((firstIdxFrom priP 0 c).map .index),
                 idxsFrom ctxP 0 c, idxsFrom projP 0 c,
                 firstIdxFrom recP 0 c, firstIdxFrom dueP 0 c,
                 firstIdxFrom tP 0 c⟩ := by
  have h : setIndicesFn p0 c = siGo 0 ⟨initP p0, [], [], none, none, none⟩ c := by
    cases p0 with
    | none => rfl
    | some pr => cases pr <;> rfl
  rw [h, siGo_char]
  rcases hf : siFails ⟨initP p0, [], [], none, none, none⟩ c <;> simp [oFill]

/-- A found first index points at a part satisfying the predicate. -/
theorem firstIdxFrom_spec (q : ContentPart → Bool) (l : List ContentPart) :
    ∀ (k i : Nat), firstIdxFrom q k l = some i →
      k ≤ i ∧ ∃ p, l[i - k]? = some p ∧ q p = true := by
  induction l with
  | nil => intro k i h; simp [firstIdxFrom] at h
  | cons p ps ih =>
    intro k i h
    simp only [firstIdxFrom] at h
    by_cases hq : q p
    · rw [if_pos hq] at h
      cases h
      exact ⟨Nat.le_refl _, p, by simp, hq⟩
    · rw [if_neg hq] at h
      obtain ⟨hk, p2, hget, hq2⟩ := ih (k + 1) i h
      refine ⟨by omega, p2, ?_, hq2⟩
      have : i - k = (i - (k + 1)) + 1 := by omega
      rw [this]
      simpa using hget

/-- A listed index points at a part satisfying the predicate. -/
theorem idxsFrom_spec (q : ContentPart → Bool) (l : List ContentPart) :
    ∀ (k i : Nat), i ∈ idxsFrom q k l →
      k ≤ i ∧ ∃ p, l[i - k]? = some p ∧ q p = true := by
  induction l with
  | nil => intro k i h; simp [idxsFrom] at h
  | cons p ps ih =>
    intro k i h
    simp only [idxsFrom] at h
    by_cases hq : q p
    · rw [if_pos hq] at h
      rcases List.mem_cons.mp h with h | h
      · subst h
        exact ⟨Nat.le_refl _, p, by simp, hq⟩
      · obtain ⟨hk, p2, hget, hq2⟩ := ih (k + 1) i h
        refine ⟨by omega, p2, ?_, hq2⟩
        have : i - k = (i - (k + 1)) + 1 := by omega
        rw [this]; simpa using hget
    · rw [if_neg hq] at h
      obtain ⟨hk, p2, hget, hq2⟩ := ih (k + 1) i h
      refine ⟨by omega, p2, ?_, hq2⟩
      have : i - k = (i - (k + 1)) + 1 := by omega
      rw [this]; simpa using hget

/-- Re-initializing the scanned priority gives back the initialization of
the original priority. -/
theorem initP_oFill (o : Option Priority) (fi : Option Nat) :
    initP (oFill (initP o) (fi.map .index)) = initP o := by
  cases o with
  | none => cases fi <;> rfl
  | some pr =>
    cases pr with
    | literal c => cases fi <;> rfl
    | index i => cases fi <;> rfl

/-- set_indices is idempotent: rerunning it on its own output succeeds and
changes nothing. -/
theorem setIndicesFn_idem (p0 : Option Priority) (c : List ContentPart)
    (d : IndexData) (h : setIndicesFn p0 c = some d) :
    setIndicesFn d.prio c = some d := by
  rw [setIndicesFn_char] at h
  by_cases hf : siFails ⟨initP p0, [], [], none, none, none⟩ c
  · simp [hf] at h
  · rw [if_neg hf] at h
    have hd := (Option.some_inj.mp h).symm
    have hip : initP d.prio = initP p0 := by
      rw [hd]; exact initP_oFill p0 _
    rw [setIndicesFn_char, hip, if_neg hf, hd]

/-- A first index is absent exactly when no part satisfies the
predicate. -/
theorem firstIdxFrom_none_iff (q : ContentPart → Bool) (l : List ContentPart) :
    ∀ k, firstIdxFrom q k l = none ↔ l.countP q = 0 := by
  induction l with
  | nil => intro k; simp [firstIdxFrom]
  | cons p ps ih =>
    intro k
    simp only [firstIdxFrom, List.countP_cons]
    by_cases hq : q p
    · simp [hq]
    · simp [hq, ih]

/-- idxsFrom over a one-element extension. -/
theorem idxsFrom_append_one (q : ContentPart → Bool) (l : List ContentPart)
    (p : ContentPart) : ∀ k, idxsFrom q k (l ++ [p]) =
      idxsFrom q k l ++ (if q p then [k + l.length] else []) := by
  induction l with
  | nil => intro k; by_cases hq : q p <;> simp [idxsFrom, hq]
  | cons a as ih =>
    intro k
    have hlen : k + (as.length + 1) = k + 1 + as.length := by omega
    simp only [List.cons_append, idxsFrom, List.append_eq]
    rw [ih]
    by_cases hq : q a <;> by_cases hqp : q p <;>
      simp [hq, hqp, List.length_cons, hlen]

/-- firstIdxFrom over a one-element extension. -/
theorem firstIdxFrom_append_one (q : ContentPart → Bool) (l : List ContentPart)
    (p : ContentPart) : ∀ k, firstIdxFrom q k (l ++ [p]) =
      oFill (firstIdxFrom q k l) (if q p then some (k + l.length) else none) := by
  induction l with
  | nil => intro k; by_cases hq : q p <;> simp [firstIdxFrom, hq, oFill]
  | cons a as ih =>
    intro k
    have hlen : k + (as.length + 1) = k + 1 + as.length := by omega
    simp only [List.cons_append, firstIdxFrom, List.append_eq]
    rw [ih]
    by_cases hq : q a <;> by_cases hqp : q p <;>
      simp [hq, hqp, oFill, List.length_cons, hlen]

/-- Erasing the sole element at a known index removes exactly one count. -/
theorem countP_eraseIdx (q : ContentPart → Bool) (l : List ContentPart) :
    ∀ (i : Nat) (p : ContentPart), l[i]? = some p → q p = true →
      (l.eraseIdx i).countP q + 1 = l.countP q := by
  induction l with
  | nil => intro i p h; simp at h
  | cons a as ih =>
    intro i p h hq
    cases i with
    | zero =>
      have h0 : a = p := by simpa using h
      subst h0
      simp [List.eraseIdx, List.countP_cons, hq]
    | succ j =>
      have h2 : as[j]? = some p := by simpa using h
      have := ih j p h2 hq
      simp only [List.eraseIdx, List.countP_cons]
      omega

/-- Erasing never increases a count. -/
theorem countP_eraseIdx_le (q : ContentPart → Bool) (l : List ContentPart)
    (i : Nat) : (l.eraseIdx i).countP q ≤ l.countP q :=
  List.Sublist.countP_le q (List.eraseIdx_sublist l i)

/-- The scan only looks at part kinds. -/
theorem siGo_congr_kinds (l1 l2 : List ContentPart)
    (h : l1.map partKind = l2.map partKind) :
    ∀ k st, siGo k st l1 = siGo k st l2 := by
  induction l1 generalizing l2 with
  | nil =>
    cases l2 with
    | nil => intro k st; rfl
    | cons b bs => simp at h
  | cons a as ih =>
    cases l2 with
    | nil => simp at h
    | cons b bs =>
      simp only [List.map_cons, List.cons.injEq] at h
      obtain ⟨hk, ht⟩ := h
      intro k st
      rcases a with ⟨sa, ca⟩
      rcases b with ⟨sb, cb⟩
      cases ca <;> cases cb <;> simp [partKind] at hk <;>
        simp only [siGo] <;> rw [ih _ ht]

/-! ## Consequences of index integrity -/
/-- Unpack the wfIdx fixpoint into its component equations. -/
theorem wfIdx_fields (item : TodoItem) (h : wfIdx item = true) :
    siFails ⟨initP item.priority, [], [], none, none, none⟩
        item.content = false ∧
    item.priority =
      oFill (initP item.priority)
        ((firstIdxFrom priP 0 item.content).map .index) ∧
    item.context_indices = idxsFrom ctxP 0 item.content ∧
    item.project_indices = idxsFrom projP 0 item.content ∧
    item.rec_index = firstIdxFrom recP 0 item.content ∧
    item.due_index = firstIdxFrom dueP 0 item.content ∧
    item.t_index = firstIdxFrom tP 0 item.content := by
  have h2 : setIndicesFn item.priority item.content =
      some ⟨item.priority, item.context_indices, item.project_indices,
            item.rec_index, item.due_index, item.t_index⟩ := by
    simpa [wfIdx] using h
  rw [setIndicesFn_char] at h2
  by_cases hf : siFails ⟨initP item.priority, [], [], none, none, none⟩
      item.content
  · simp [hf] at h2
  · rw [if_neg hf] at h2
    have := Option.some_inj.mp h2
    have hc := IndexData.mk.injEq _ _ _ _ _ _ _ _ _ _ _ _ ▸ this
    obtain ⟨hp, hci, hpi, hri, hdi, hti⟩ := IndexData.mk.inj this.symm
    exact ⟨Bool.not_eq_true _ ▸ (by simpa using hf), hp.symm ▸ hp, hci, hpi,
      hri, hdi, hti⟩

/-- A part satisfying dueP carries a due date. -/
theorem dueP_shape (p : ContentPart) (h : dueP p = true) :
    ∃ d, p.content = .due d := by
  rcases p with ⟨sp, pc⟩; cases pc <;> simp_all [dueP]

/-- A part satisfying tP carries a threshold date. -/
theorem tP_shape (p : ContentPart) (h : tP p = true) :
    ∃ d, p.content = .t d := by
  rcases p with ⟨sp, pc⟩; cases pc <;> simp_all [tP]

/-- A part satisfying recP carries a recurrence rule. -/
theorem recP_shape (p : ContentPart) (h : recP p = true) :
    ∃ rel amount un, p.content = .recur rel amount un := by
  rcases p with ⟨sp, pc⟩; cases pc <;> simp_all [recP]

/-- A part satisfying priP carries a priority letter. -/
theorem priP_shape (p : ContentPart) (h : priP p = true) :
    ∃ c, p.content = .pri c := by
  rcases p with ⟨sp, pc⟩; cases pc <;> simp_all [priP]

/-- A part satisfying ctxP carries a context word. -/
theorem ctxP_shape (p : ContentPart) (h : ctxP p = true) :
    ∃ s, p.content = .context s := by
  rcases p with ⟨sp, pc⟩; cases pc <;> simp_all [ctxP]

/-- A part satisfying projP carries a project word. -/
theorem projP_shape (p : ContentPart) (h : projP p = true) :
    ∃ s, p.content = .project s := by
  rcases p with ⟨sp, pc⟩; cases pc <;> simp_all [projP]

/-- Under index integrity the due accessor cannot panic. -/
theorem due_dateAcc_safe (item : TodoItem) (h : wfIdx item = true) :
    ∃ v, due_dateAcc item = some v := by
  obtain ⟨-, -, -, -, -, hdi, -⟩ := wfIdx_fields item h
  unfold due_dateAcc
  cases hd : item.due_index with
  | none => exact ⟨none, rfl⟩
  | some i =>
    rw [hd] at hdi
    obtain ⟨-, p, hget, hq⟩ := firstIdxFrom_spec dueP item.content 0 i hdi.symm
    obtain ⟨dd, hdd⟩ := dueP_shape p hq
    rcases p with ⟨sp, pc⟩
    simp only at hdd
    subst hdd
    simp only [Nat.sub_zero] at hget
    exact ⟨some dd, by simp [hget]⟩

/-- Under index integrity the threshold accessor cannot panic. -/
theorem t_dateAcc_safe (item : TodoItem) (h : wfIdx item = true) :
    ∃ v, t_dateAcc item = some v := by
  obtain ⟨-, -, -, -, -, -, hti⟩ := wfIdx_fields item h
  unfold t_dateAcc
  cases hd : item.t_index with
  | none => exact ⟨none, rfl⟩
  | some i =>
    rw [hd] at hti
    obtain ⟨-, p, hget, hq⟩ := firstIdxFrom_spec tP item.content 0 i hti.symm
    obtain ⟨dd, hdd⟩ := tP_shape p hq
    rcases p with ⟨sp, pc⟩
    simp only at hdd
    subst hdd
    simp only [Nat.sub_zero] at hget
    exact ⟨some dd, by simp [hget]⟩

/-- Under index integrity the recurrence accessor cannot panic. -/
theorem recurringAcc_safe (item : TodoItem) (h : wfIdx item = true) :
    ∃ v, recurringAcc item = some v := by
  obtain ⟨-, -, -, -, hri, -, -⟩ := wfIdx_fields item h
  unfold recurringAcc
  cases hd : item.rec_index with
  | none => exact ⟨none, rfl⟩
  | some i =>
    rw [hd] at hri
    obtain ⟨-, p, hget, hq⟩ := firstIdxFrom_spec recP item.content 0 i hri.symm
    obtain ⟨rel, amount, un, hdd⟩ := recP_shape p hq
    rcases p with ⟨sp, pc⟩
    simp only at hdd
    subst hdd
    simp only [Nat.sub_zero] at hget
    exact ⟨some (rel, amount, un), by simp [hget]⟩

/-- Under index integrity the priority accessor cannot panic. -/
theorem priorityAcc_safe (item : TodoItem) (h : wfIdx item = true) :
    ∃ v, priorityAcc item = some v := by
  obtain ⟨-, hp, -, -, -, -, -⟩ := wfIdx_fields item h
  unfold priorityAcc
  cases hpr : item.priority with
  | none => exact ⟨none, rfl⟩
  | some pr =>
    cases pr with
    | literal c => exact ⟨some c, rfl⟩
    | index i =>
      rw [hpr] at hp
      have hip : initP (some (Priority.index i)) = none := rfl
      rw [hip] at hp
      have hfi : (firstIdxFrom priP 0 item.content).map Priority.index =
          some (.index i) := by
        cases hm : firstIdxFrom priP 0 item.content with
        | none => rw [hm] at hp; simp [oFill] at hp
        | some j => rw [hm] at hp; simpa [oFill] using hp.symm
      cases hm : firstIdxFrom priP 0 item.content with
      | none => rw [hm] at hfi; simp at hfi
      | some j =>
        rw [hm] at hfi
        have hji : j = i := by simpa using hfi
        subst hji
        obtain ⟨-, p, hget, hq⟩ := firstIdxFrom_spec priP item.content 0 j hm
        obtain ⟨c, hdd⟩ := priP_shape p hq
        rcases p with ⟨sp, pc⟩
        simp only at hdd
        subst hdd
        simp only [Nat.sub_zero] at hget
        exact ⟨some c, by simp [hget]⟩

/-- mapO succeeds when every element does. -/
theorem mapO_isSome {α β : Type} (f : α → Option β) (l : List α)
    (h : ∀ a ∈ l, (f a).isSome = true) : ∃ v, mapO f l = some v := by
  induction l with
  | nil => exact ⟨[], rfl⟩
  | cons a as ih =>
    obtain ⟨b, hb⟩ := Option.isSome_iff_exists.mp (h a (by simp))
    obtain ⟨v, hv⟩ := ih fun x hx => h x (by simp [hx])
    exact ⟨b :: v, by simp [mapO, hb, hv]⟩

/-- Setting an index to the element already there changes nothing. -/
theorem set_self {α : Type} (l : List α) :
    ∀ (i : Nat) (b : α), l[i]? = some b → l.set i b = l := by
  induction l with
  | nil => intro i b h; simp at h
  | cons a as ih =>
    intro i b h
    cases i with
    | zero =>
      have h0 : a = b := by simpa using h
      subst h0; simp
    | succ j =>
      have h2 : as[j]? = some b := by simpa using h
      simp [List.set, ih j b h2]

/-- Under index integrity the contexts accessor cannot panic. -/
theorem contextsAcc_safe (item : TodoItem) (h : wfIdx item = true) :
    ∃ v, contextsAcc item = some v := by
  obtain ⟨-, -, hci, -, -, -, -⟩ := wfIdx_fields item h
  apply mapO_isSome
  intro i hi
  rw [hci] at hi
  obtain ⟨-, p, hget, hq⟩ := idxsFrom_spec ctxP item.content 0 i hi
  obtain ⟨s, hs⟩ := ctxP_shape p hq
  rcases p with ⟨sp, pc⟩
  simp only at hs
  subst hs
  simp only [Nat.sub_zero] at hget
  simp [hget]

/-- Under index integrity the projects accessor cannot panic. -/
theorem projectsAcc_safe (item : TodoItem) (h : wfIdx item = true) :
    ∃ v, projectsAcc item = some v := by
  obtain ⟨-, -, -, hpi, -, -, -⟩ := wfIdx_fields item h
  apply mapO_isSome
  intro i hi
  rw [hpi] at hi
  obtain ⟨-, p, hget, hq⟩ := idxsFrom_spec projP item.content 0 i hi
  obtain ⟨s, hs⟩ := projP_shape p hq
  rcases p with ⟨sp, pc⟩
  simp only at hs
  subst hs
  simp only [Nat.sub_zero] at hget
  simp [hget]

/-- TodoItem::new establishes index integrity. -/
theorem new_wfIdx (d : Date) : wfIdx (TodoItem.new d) = true := rfl

/-- Any successful run of set_indices establishes index integrity. -/
theorem set_indicesOpt_wfIdx (raw item : TodoItem)
    (h : set_indicesOpt raw = some item) : wfIdx item = true := by
  unfold set_indicesOpt at h
  cases hd : setIndicesFn raw.priority raw.content with
  | none => rw [hd] at h; simp at h
  | some d =>
    rw [hd] at h
    have h2 : ({raw with priority := d.prio, context_indices := d.ci,
                         project_indices := d.pi, rec_index := d.ri,
                         due_index := d.di, t_index := d.ti} : TodoItem) = item := by
      simpa using h
    have hidem := setIndicesFn_idem raw.priority raw.content d hd
    subst h2
    simp only [wfIdx]
    rcases d with ⟨dp, dci, dpi, dri, ddi, dti⟩
    simp only at hidem
    simp [hidem]

/-- A finished item comes out of set_indices. -/
theorem finishItem_ok (compl : Option Date) (creation : Date) (st : BState)
    (item : TodoItem) (h : finishItem compl creation st = .ok item) :
    set_indicesOpt ⟨compl, st.prio, creation, st.parts, [], [],
      none, none, none⟩ = some item := by
  unfold finishItem at h
  split at h
  · cases h; assumption
  · cases h

/-- Every parser-produced item has index integrity. -/
theorem parse_ok_wfIdx (cs : List Char) (item : TodoItem)
    (h : parseItemCh cs = .ok item) : wfIdx item = true := by
  have key : ∀ (compl : Option Date) (creation : Date) (st : BState),
      finishItem compl creation st = .ok item → wfIdx item = true := by
    intro compl creation st hf
    exact set_indicesOpt_wfIdx _ item (finishItem_ok _ _ _ _ hf)
  have key2 : ∀ (compl : Option Date) (prioLit : Option Char)
      (cs2 : List Char) (off2 : Nat),
      parseFromCreation compl prioLit cs2 off2 = .ok item →
        wfIdx item = true := by
    intro compl prioLit cs2 off2 hp
    unfold parseFromCreation at hp
    split at hp
    · cases hp
    · split at hp
      · split at hp
        · split at hp
          · exact key _ _ _ hp
          · cases hp
        · split at hp
          · split at hp
            · exact key _ _ _ hp
            · cases hp
          · cases hp
      · cases hp
  have key3 : ∀ (compl : Option Date) (cs1 : List Char) (off1 : Nat),
      parseAfterCompleted compl cs1 off1 = .ok item → wfIdx item = true := by
    intro compl cs1 off1 hp
    unfold parseAfterCompleted at hp
    split at hp
    · exact key2 _ _ _ _ hp
    · exact key2 _ _ _ _ hp
  unfold parseItemCh at h
  split at h
  · split at h
    · exact key3 _ _ _ h
    · cases h
  · exact key3 _ _ _ h

/-- Decompose the failure condition into count bounds. -/
theorem siFails_false_iff (st : IndexData) (l : List ContentPart) :
    siFails st l = false ↔
      flagCount st.prio.isSome + l.countP priP ≤ 1 ∧
      flagCount st.ri.isSome + l.countP recP ≤ 1 ∧
      flagCount st.di.isSome + l.countP dueP ≤ 1 ∧
      flagCount st.ti.isSome + l.countP tP ≤ 1 := by
  simp only [siFails, Bool.or_eq_false_iff, decide_eq_false_iff_not]
  omega

/-- Erasing an element cannot introduce a failure. -/
theorem siFails_eraseIdx (st : IndexData) (l : List ContentPart) (i : Nat)
    (h : siFails st l = false) : siFails st (l.eraseIdx i) = false := by
  rw [siFails_false_iff] at h ⊢
  have h1 := countP_eraseIdx_le priP l i
  have h2 := countP_eraseIdx_le recP l i
  have h3 := countP_eraseIdx_le dueP l i
  have h4 := countP_eraseIdx_le tP l i
  omega

/-- An answered getElem? witnesses the bound. -/
theorem getElem?_lt {α : Type} (l : List α) (i : Nat) (a : α)
    (h : l[i]? = some a) : i < l.length := by
  by_contra hc
  rw [List.getElem?_eq_none (by omega)] at h
  cases h

/-- set_indices only looks at part kinds. -/
theorem setIndicesFn_congr_kinds (p0 : Option Priority)
    (l1 l2 : List ContentPart) (h : l1.map partKind = l2.map partKind) :
    setIndicesFn p0 l1 = setIndicesFn p0 l2 := by
  unfold setIndicesFn
  exact siGo_congr_kinds l1 l2 h 0 _

/-- initP on none. -/
theorem initP_none : initP none = none := rfl

/-- initP on a literal priority. -/
theorem initP_literal (c : Char) :
    initP (some (.literal c)) = some (.literal c) := rfl

/-- initP on an index priority. -/
theorem initP_index (i : Nat) : initP (some (.index i)) = none := rfl

/-- The count bounds implied by index integrity. -/
theorem wfIdx_counts (item : TodoItem) (h : wfIdx item = true) :
    flagCount (initP item.priority).isSome + item.content.countP priP ≤ 1 ∧
    item.content.countP recP ≤ 1 ∧
    item.content.countP dueP ≤ 1 ∧
    item.content.countP tP ≤ 1 := by
  obtain ⟨hf, -, -, -, -, -, -⟩ := wfIdx_fields item h
  rw [siFails_false_iff] at hf
  simpa [flagCount] using hf

/-- The priority count of the content under each priority representation. -/
theorem wfIdx_priP_count (item : TodoItem) (h : wfIdx item = true) :
    (item.priority = none → item.content.countP priP = 0) ∧
    (∀ c, item.priority = some (.literal c) →
      item.content.countP priP = 0) ∧
    (∀ i, item.priority = some (.index i) →
      firstIdxFrom priP 0 item.content = some i ∧
        item.content.countP priP = 1) := by
  obtain ⟨-, hp, -, -, -, -, -⟩ := wfIdx_fields item h
  have hcounts := wfIdx_counts item h
  refine ⟨?_, ?_, ?_⟩
  · intro h0
    rw [h0, initP_none] at hp
    have hm : (firstIdxFrom priP 0 item.content).map Priority.index = none := by
      cases hmm : (firstIdxFrom priP 0 item.content).map Priority.index with
      | none => rfl
      | some j => rw [hmm] at hp; simp [oFill] at hp
    have : firstIdxFrom priP 0 item.content = none := by
      cases hmm : firstIdxFrom priP 0 item.content with
      | none => rfl
      | some j => rw [hmm] at hm; simp at hm
    exact (firstIdxFrom_none_iff priP item.content 0).mp this
  · intro c hc
    rw [hc, initP_literal] at hcounts
    simp only [Option.isSome_some, flagCount, if_true] at hcounts
    omega
  · intro i hi
    rw [hi, initP_index] at hp
    cases hm : firstIdxFrom priP 0 item.content with
    | none => rw [hm] at hp; simp [oFill] at hp
    | some j =>
      rw [hm] at hp
      simp only [Option.map_some, oFill] at hp
      have hji : j = i := by
        have h2 := Option.some_inj.mp hp
        cases h2; rfl
      subst hji
      refine ⟨rfl, ?_⟩
      have hge1 : 1 ≤ item.content.countP priP := by
        by_contra hcl
        have h0 : item.content.countP priP = 0 := by omega
        rw [← firstIdxFrom_none_iff priP item.content 0] at h0
        rw [h0] at hm; cases hm
      rw [hi, initP_index] at hcounts
      simp only [Option.isSome_none, flagCount, if_false,
        Bool.false_eq_true] at hcounts
      omega

/-- set_recurring never panics on an index-integral item and preserves
index integrity. -/
theorem set_recurring_safe (item : TodoItem) (h : wfIdx item = true)
    (r : Option (Bool × Nat × RecurringUnit)) :
    ∃ item2, set_recurring item r = some item2 ∧ wfIdx item2 = true := by
  obtain ⟨hfail, hpeq, hci, hpi, hri, hdi, hti⟩ := wfIdx_fields item h
  cases hrec : item.rec_index with
  | none =>
    cases r with
    | none => exact ⟨item, by simp [set_recurring, hrec], h⟩
    | some rau =>
      rcases rau with ⟨rel, amount, un⟩
      rw [hrec] at hri
      have hcount0 : item.content.countP recP = 0 :=
        (firstIdxFrom_none_iff recP item.content 0).mp hri.symm
      have hsr : set_recurring item (some (rel, amount, un)) =
          some {item with rec_index := some item.content.length,
                          content := item.content ++
                            [⟨" ", .recur rel amount un⟩]} := by
        simp [set_recurring, hrec]
      refine ⟨_, hsr, ?_⟩
      have hP : recP ⟨" ", .recur rel amount un⟩ = true := rfl
      have hnew : setIndicesFn item.priority
          (item.content ++ [⟨" ", .recur rel amount un⟩]) =
          some ⟨item.priority, item.context_indices, item.project_indices,
                some item.content.length, item.due_index, item.t_index⟩ := by
        rw [setIndicesFn_char]
        have cp : List.countP priP
            [(⟨" ", .recur rel amount un⟩ : ContentPart)] = 0 := rfl
        have cr : List.countP recP
            [(⟨" ", .recur rel amount un⟩ : ContentPart)] = 1 := rfl
        have cd : List.countP dueP
            [(⟨" ", .recur rel amount un⟩ : ContentPart)] = 0 := rfl
        have ct2 : List.countP tP
            [(⟨" ", .recur rel amount un⟩ : ContentPart)] = 0 := rfl
        have hfail2 : siFails ⟨initP item.priority, [], [], none, none, none⟩
            (item.content ++ [⟨" ", .recur rel amount un⟩]) = false := by
          rw [siFails_false_iff] at hfail ⊢
          simp only [List.countP_append, cp, cr, cd, ct2] at hfail ⊢
          simp only [flagCount, Option.isSome_none, Bool.false_eq_true,
            if_false] at hfail ⊢
          omega
        rw [hfail2]
        simp only [Bool.false_eq_true, if_false, Option.some_inj]
        rw [firstIdxFrom_append_one, firstIdxFrom_append_one,
          firstIdxFrom_append_one, firstIdxFrom_append_one,
          idxsFrom_append_one, idxsFrom_append_one]
        have e1 : priP ⟨" ", .recur rel amount un⟩ = false := rfl
        have e2 : ctxP ⟨" ", .recur rel amount un⟩ = false := rfl
        have e3 : projP ⟨" ", .recur rel amount un⟩ = false := rfl
        have e4 : dueP ⟨" ", .recur rel amount un⟩ = false := rfl
        have e5 : tP ⟨" ", .recur rel amount un⟩ = false := rfl
        have hofr : ∀ (o : Option Nat), oFill o none = o := fun o => by
          cases o <;> rfl
        have hofl : ∀ (x : Option Nat), oFill none x = x := fun x => rfl
        simp only [e1, e2, e3, e4, e5, hP, if_true, if_false,
          Bool.false_eq_true, List.append_nil, Nat.zero_add, hofr]
        rw [← hri]
        simp only [hofl]
        rw [← hpeq, ← hci, ← hpi, ← hdi, ← hti]
      simp only [wfIdx, hnew]
      simp
  | some i =>
    rw [hrec] at hri
    obtain ⟨-, p, hget, hq⟩ := firstIdxFrom_spec recP item.content 0 i hri.symm
    simp only [Nat.sub_zero] at hget
    have hlen : i < item.content.length := getElem?_lt _ _ _ hget
    obtain ⟨rel0, amount0, un0, hshape⟩ := recP_shape p hq
    rcases p with ⟨sp, pc⟩
    simp only at hshape
    subst hshape
    cases r with
    | none =>
      have hsub : siFails ⟨initP item.priority, [], [], none, none, none⟩
          (item.content.eraseIdx i) = false := siFails_eraseIdx _ _ i hfail
      cases hsi : setIndicesFn item.priority (item.content.eraseIdx i) with
      | none =>
        rw [setIndicesFn_char, hsub] at hsi
        simp at hsi
      | some d =>
        have hsr : set_recurring item none =
            some {item with priority := d.prio,
                            content := item.content.eraseIdx i,
                            context_indices := d.ci, project_indices := d.pi,
                            rec_index := d.ri, due_index := d.di,
                            t_index := d.ti} := by
          simp only [set_recurring, hrec, if_pos hlen, hsi]
        refine ⟨_, hsr, ?_⟩
        · have hidem := setIndicesFn_idem _ _ _ hsi
          simp only [wfIdx]
          rcases d with ⟨dp, dci, dpi, dri, ddi, dti⟩
          simp only at hidem
          simp [hidem]
    | some rau =>
      rcases rau with ⟨rel, amount, un⟩
      have hgete : item.content.get? i =
          some ⟨sp, .recur rel0 amount0 un0⟩ := by
        simpa using hget
      have hsr : set_recurring item (some (rel, amount, un)) =
          some {item with content :=
            item.content.set i ⟨sp, .recur rel amount un⟩} := by
        simp only [set_recurring, hrec, hgete]
      refine ⟨_, hsr, ?_⟩
      · have hkinds : (item.content.set i
            ⟨sp, .recur rel amount un⟩).map partKind =
            item.content.map partKind := by
          rw [List.map_set]
          apply set_self
          rw [List.getElem?_map, hget]
          rfl
        have hcong := setIndicesFn_congr_kinds item.priority _ _ hkinds
        simp only [wfIdx, hcong]
        simpa [wfIdx] using h

/-- set_priority never panics on an index-integral item and preserves
index integrity. -/
theorem set_priority_safe (item : TodoItem) (h : wfIdx item = true)
    (pr : Option Char) :
    ∃ item2, set_priority item pr = some item2 ∧ wfIdx item2 = true := by
  obtain ⟨hfail, hpeq, hci, hpi, hri, hdi, hti⟩ := wfIdx_fields item h
  obtain ⟨hcn, hcl, hcix⟩ := wfIdx_priP_count item h
  cases hprio : item.priority with
  | none =>
    have hcount0 := hcn hprio
    have hfx : firstIdxFrom priP 0 item.content = none :=
      (firstIdxFrom_none_iff priP item.content 0).mpr hcount0
    cases pr with
    | none => exact ⟨item, by simp [set_priority, hprio], h⟩
    | some c =>
      cases hcompl : item.completion_date.isSome with
      | true =>
        have hsr : set_priority item (some c) =
            some {item with priority := some (.index item.content.length),
                            content := item.content ++ [⟨" ", .pri c⟩]} := by
          simp [set_priority, hprio, hcompl]
        refine ⟨_, hsr, ?_⟩
        have hP : priP ⟨" ", .pri c⟩ = true := rfl
        have hnew : setIndicesFn (some (.index item.content.length))
            (item.content ++ [⟨" ", .pri c⟩]) =
            some ⟨some (.index item.content.length), item.context_indices,
                  item.project_indices, item.rec_index, item.due_index,
                  item.t_index⟩ := by
          rw [setIndicesFn_char]
          have cp : List.countP priP
              [(⟨" ", .pri c⟩ : ContentPart)] = 1 := rfl
          have cr : List.countP recP
              [(⟨" ", .pri c⟩ : ContentPart)] = 0 := rfl
          have cd : List.countP dueP
              [(⟨" ", .pri c⟩ : ContentPart)] = 0 := rfl
          have ct2 : List.countP tP
              [(⟨" ", .pri c⟩ : ContentPart)] = 0 := rfl
          have hfail2 : siFails ⟨initP (some (.index item.content.length)),
              [], [], none, none, none⟩
              (item.content ++ [⟨" ", .pri c⟩]) = false := by
            rw [initP_index, siFails_false_iff]
            rw [hprio, initP_none, siFails_false_iff] at hfail
            simp only [List.countP_append, cp, cr, cd, ct2] at hfail ⊢
            simp only [flagCount, Option.isSome_none, Bool.false_eq_true,
              if_false] at hfail ⊢
            omega
          rw [hfail2]
          simp only [Bool.false_eq_true, if_false, Option.some_inj,
            initP_index]
          rw [firstIdxFrom_append_one, firstIdxFrom_append_one,
            firstIdxFrom_append_one, firstIdxFrom_append_one,
            idxsFrom_append_one, idxsFrom_append_one]
          have e1 : recP ⟨" ", .pri c⟩ = false := rfl
          have e2 : ctxP ⟨" ", .pri c⟩ = false := rfl
          have e3 : projP ⟨" ", .pri c⟩ = false := rfl
          have e4 : dueP ⟨" ", .pri c⟩ = false := rfl
          have e5 : tP ⟨" ", .pri c⟩ = false := rfl
          have hofr : ∀ (o : Option Nat), oFill o none = o := fun o => by
            cases o <;> rfl
          have hofl : ∀ (x : Option Nat), oFill none x = x := fun x => rfl
          simp only [e1, e2, e3, e4, e5, hP, if_true, if_false,
            Bool.false_eq_true, List.append_nil, Nat.zero_add, hofr]
          rw [hfx]
          simp only [hofl, Option.map_some, oFill]
          rw [← hci, ← hpi, ← hri, ← hdi, ← hti]
          rfl
        simp only [wfIdx, hnew]
        simp
      | false =>
        have hsr : set_priority item (some c) =
            some {item with priority := some (.literal c)} := by
          simp [set_priority, hprio, hcompl]
        refine ⟨_, hsr, ?_⟩
        have hnew : setIndicesFn (some (.literal c)) item.content =
            some ⟨some (.literal c), item.context_indices,
                  item.project_indices, item.rec_index, item.due_index,
                  item.t_index⟩ := by
          rw [setIndicesFn_char, initP_literal]
          have hfail2 : siFails ⟨some (.literal c), [], [], none, none,
              none⟩ item.content = false := by
            rw [siFails_false_iff]
            rw [hprio, initP_none, siFails_false_iff] at hfail
            simp only [flagCount, Option.isSome_none, Option.isSome_some,
              Bool.false_eq_true, if_false, if_true] at hfail ⊢
            omega
          rw [hfail2]
          simp only [Bool.false_eq_true, if_false, Option.some_inj]
          rw [hfx]
          have : oFill (some (Priority.literal c))
              ((none : Option Nat).map Priority.index) =
              some (.literal c) := rfl
          rw [this, ← hci, ← hpi, ← hri, ← hdi, ← hti]
        simp only [wfIdx, hnew]
        simp
  | some prold =>
    cases prold with
    | literal c0 =>
      have hcount0 := hcl c0 hprio
      have hfx : firstIdxFrom priP 0 item.content = none :=
        (firstIdxFrom_none_iff priP item.content 0).mpr hcount0
      have hsr : set_priority item pr =
          some {item with priority := pr.map .literal} := by
        simp [set_priority, hprio]
      refine ⟨_, hsr, ?_⟩
      have hnew : setIndicesFn (pr.map .literal) item.content =
          some ⟨pr.map .literal, item.context_indices,
                item.project_indices, item.rec_index, item.due_index,
                item.t_index⟩ := by
        have hinit : initP (pr.map .literal) = pr.map .literal := by
          cases pr <;> rfl
        rw [setIndicesFn_char, hinit]
        have hfail2 : siFails ⟨pr.map .literal, [], [], none, none,
            none⟩ item.content = false := by
          rw [hprio, initP_literal, siFails_false_iff] at hfail
          simp only [flagCount, Option.isSome_none, Option.isSome_some,
            Bool.false_eq_true, if_false, if_true] at hfail
          cases pr with
          | none =>
            rw [siFails_false_iff]
            simp only [flagCount, Option.map_none', Option.isSome_none,
              Bool.false_eq_true, if_false]
            omega
          | some c2 =>
            rw [siFails_false_iff]
            simp only [flagCount, Option.map_some', Option.isSome_some,
              Option.isSome_none, Bool.false_eq_true, if_false, if_true]
            omega
        rw [hfail2]
        simp only [Bool.false_eq_true, if_false, Option.some_inj]
        rw [hfx]
        have : oFill (pr.map .literal)
            ((none : Option Nat).map Priority.index) = pr.map .literal := by
          cases pr <;> rfl
        rw [this, ← hci, ← hpi, ← hri, ← hdi, ← hti]
      simp only [wfIdx, hnew]
      simp
    | index i =>
      obtain ⟨hfx, hcount1⟩ := hcix i hprio
      obtain ⟨-, p, hget, hq⟩ := firstIdxFrom_spec priP item.content 0 i hfx
      simp only [Nat.sub_zero] at hget
      have hlen : i < item.content.length := getElem?_lt _ _ _ hget
      obtain ⟨c0, hshape⟩ := priP_shape p hq
      rcases p with ⟨sp, pc⟩
      simp only at hshape
      subst hshape
      cases pr with
      | none =>
        have hc2 : (item.content.eraseIdx i).countP priP = 0 := by
          have := countP_eraseIdx priP item.content i ⟨sp, .pri c0⟩ hget hq
          omega
        have hsub : siFails ⟨none, [], [], none, none, none⟩
            (item.content.eraseIdx i) = false := by
          have hx := siFails_eraseIdx _ _ i hfail
          rw [hprio, initP_index] at hx
          exact hx
        cases hsi : setIndicesFn (some (.index i))
            (item.content.eraseIdx i) with
        | none =>
          rw [setIndicesFn_char, initP_index, hsub] at hsi
          simp at hsi
        | some d =>
          have hdp : d.prio = none := by
            rw [setIndicesFn_char, initP_index, hsub] at hsi
            simp only [Bool.false_eq_true, if_false, Option.some_inj] at hsi
            rw [← hsi]
            have : firstIdxFrom priP 0 (item.content.eraseIdx i) = none :=
              (firstIdxFrom_none_iff priP _ 0).mpr hc2
            rw [this]
            rfl
          have hsr : set_priority item none =
              some {item with priority := none,
                              content := item.content.eraseIdx i,
                              context_indices := d.ci,
                              project_indices := d.pi, rec_index := d.ri,
                              due_index := d.di, t_index := d.ti} := by
            simp only [set_priority, hprio, if_pos hlen, hsi]
          refine ⟨_, hsr, ?_⟩
          have hidem := setIndicesFn_idem _ _ _ hsi
          rw [hdp] at hidem
          simp only [wfIdx]
          rcases d with ⟨dp, dci, dpi, dri, ddi, dti⟩
          simp only at hidem hdp
          subst hdp
          simp [hidem]
      | some c =>
        have hgete : item.content.get? i = some ⟨sp, .pri c0⟩ := by
          simpa using hget
        have hsr : set_priority item (some c) =
            some {item with content :=
              item.content.set i ⟨sp, .pri c⟩} := by
          simp only [set_priority, hprio, hgete]
        refine ⟨_, hsr, ?_⟩
        have hkinds : (item.content.set i ⟨sp, .pri c⟩).map partKind =
            item.content.map partKind := by
          rw [List.map_set]
          apply set_self
          rw [List.getElem?_map, hget]
          rfl
        have hcong := setIndicesFn_congr_kinds item.priority _ _ hkinds
        simp only [wfIdx, hcong]
        simpa [wfIdx] using h

/-- Index integrity makes every stored index point at a part of the
matching variant. -/
theorem wfIdx_points (item : TodoItem) (h : wfIdx item = true) :
    (∀ i, item.rec_index = some i →
      ∃ p, item.content[i]? = some p ∧ recP p = true) ∧
    (∀ i, item.due_index = some i →
      ∃ p, item.content[i]? = some p ∧ dueP p = true) ∧
    (∀ i, item.t_index = some i →
      ∃ p, item.content[i]? = some p ∧ tP p = true) ∧
    (∀ i, i ∈ item.context_indices →
      ∃ p, item.content[i]? = some p ∧ ctxP p = true) ∧
    (∀ i, i ∈ item.project_indices →
      ∃ p, item.content[i]? = some p ∧ projP p = true) ∧
    (∀ i, item.priority = some (.index i) →
      ∃ p, item.content[i]? = some p ∧ priP p = true) := by
  obtain ⟨-, -, hci, hpi, hri, hdi, hti⟩ := wfIdx_fields item h
  obtain ⟨-, -, hcix⟩ := wfIdx_priP_count item h
  refine ⟨?_, ?_, ?_, ?_, ?_, ?_⟩
  · intro i hi
    rw [hri] at hi
    obtain ⟨-, p, hp, hq⟩ := firstIdxFrom_spec recP item.content 0 i hi
    exact ⟨p, by simpa using hp, hq⟩
  · intro i hi
    rw [hdi] at hi
    obtain ⟨-, p, hp, hq⟩ := firstIdxFrom_spec dueP item.content 0 i hi
    exact ⟨p, by simpa using hp, hq⟩
  · intro i hi
    rw [hti] at hi
    obtain ⟨-, p, hp, hq⟩ := firstIdxFrom_spec tP item.content 0 i hi
    exact ⟨p, by simpa using hp, hq⟩
  · intro i hi
    rw [hci] at hi
    obtain ⟨-, p, hp, hq⟩ := idxsFrom_spec ctxP item.content 0 i hi
    exact ⟨p, by simpa using hp, hq⟩
  · intro i hi
    rw [hpi] at hi
    obtain ⟨-, p, hp, hq⟩ := idxsFrom_spec projP item.content 0 i hi
    exact ⟨p, by simpa using hp, hq⟩
  · intro i hi
    obtain ⟨hfx, -⟩ := hcix i hi
    obtain ⟨-, p, hp, hq⟩ := firstIdxFrom_spec priP item.content 0 i hfx
    exact ⟨p, by simpa using hp, hq⟩

/-- C9: on every index-integral item (the invariant every constructible
TodoItem satisfies), set_due_date returns the item completely unchanged
whatever argument it is given: the Rust body builds a mutable reference
from due_index and discards it without reading the argument or writing any
field. -/
theorem c9_set_due_date_noop (item : TodoItem) (d : Option Date)
    (h : wfIdx item = true) : set_due_date item d = some item := by
  obtain ⟨-, hdue, -, -, -, -⟩ := wfIdx_points item h
  unfold set_due_date
  cases hd : item.due_index with
  | none => rfl
  | some i =>
    obtain ⟨p, hp, hq⟩ := hdue i hd
    obtain ⟨dd, hdd⟩ := dueP_shape p hq
    rcases p with ⟨sp, pc⟩
    simp only at hdd
    subst hdd
    simp [hp]

/-- Witness for C9 at a concrete item carrying a due date: the call with a
different date argument returns the item unchanged. -/
theorem c9_set_due_date_noop_witness :
    set_due_date
      ⟨none, none, ⟨2024, 1, 1⟩,
        [⟨" ", .word "a"⟩, ⟨" ", .due ⟨2024, 5, 5⟩⟩],
        [], [], none, some 1, none⟩ (some ⟨2030, 12, 31⟩) =
      some ⟨none, none, ⟨2024, 1, 1⟩,
        [⟨" ", .word "a"⟩, ⟨" ", .due ⟨2024, 5, 5⟩⟩],
        [], [], none, some 1, none⟩ :=
  c9_set_due_date_noop _ _ (by decide)

/-- C10: items produced by the parser or by TodoItem::new satisfy index
integrity (every stored index, and an index-based priority, points at a
content part of the matching variant); set_priority and set_recurring
never panic on such items and preserve the integrity; and under it none of
the accessors priority, contexts, projects, recurring, due_date, t_date
can hit its unreachable branch or an out-of-bounds content access. -/
theorem c10_indices_valid_accessors_safe :
    (∀ d : Date, wfIdx (TodoItem.new d) = true) ∧
    (∀ (s : String) (item : TodoItem), parseItemS s = .ok item →
      wfIdx item = true) ∧
    (∀ item : TodoItem, wfIdx item = true →
      ((∀ i, item.rec_index = some i →
          ∃ p, item.content[i]? = some p ∧ recP p = true) ∧
        (∀ i, item.due_index = some i →
          ∃ p, item.content[i]? = some p ∧ dueP p = true) ∧
        (∀ i, item.t_index = some i →
          ∃ p, item.content[i]? = some p ∧ tP p = true) ∧
        (∀ i, i ∈ item.context_indices →
          ∃ p, item.content[i]? = some p ∧ ctxP p = true) ∧
        (∀ i, i ∈ item.project_indices →
          ∃ p, item.content[i]? = some p ∧ projP p = true) ∧
        (∀ i, item.priority = some (.index i) →
          ∃ p, item.content[i]? = some p ∧ priP p = true)) ∧
      (∀ p, ∃ item2, set_priority item p = some item2 ∧ wfIdx item2 = true) ∧
      (∀ r, ∃ item2, set_recurring item r = some item2 ∧
        wfIdx item2 = true) ∧
      (∃ v, priorityAcc item = some v) ∧
      (∃ v, contextsAcc item = some v) ∧
      (∃ v, projectsAcc item = some v) ∧
      (∃ v, recurringAcc item = some v) ∧
      (∃ v, due_dateAcc item = some v) ∧
      (∃ v, t_dateAcc item = some v)) :=
  ⟨new_wfIdx,
   fun _ item h => parse_ok_wfIdx _ item h,
   fun item h =>
     ⟨wfIdx_points item h, set_priority_safe item h,
      set_recurring_safe item h, priorityAcc_safe item h,
      contextsAcc_safe item h, projectsAcc_safe item h,
      recurringAcc_safe item h, due_dateAcc_safe item h,
      t_dateAcc_safe item h⟩⟩

/-- Witness for C10 at a concrete parser-like item: a completed item with a
pri tag, a context and a due tag; the integrity test evaluates to true and
the accessors return values. -/
theorem c10_indices_valid_accessors_safe_witness :
    wfIdx (⟨some ⟨2024, 1, 5⟩, some (.index 1), ⟨2024, 1, 1⟩,
      [⟨" ", .word "call"⟩, ⟨" ", .pri 'B'⟩, ⟨" ", .context "home"⟩,
       ⟨" ", .due ⟨2024, 2, 3⟩⟩],
      [2], [], none, some 3, none⟩ : TodoItem) = true ∧
    (∃ v, priorityAcc ⟨some ⟨2024, 1, 5⟩, some (.index 1), ⟨2024, 1, 1⟩,
      [⟨" ", .word "call"⟩, ⟨" ", .pri 'B'⟩, ⟨" ", .context "home"⟩,
       ⟨" ", .due ⟨2024, 2, 3⟩⟩],
      [2], [], none, some 3, none⟩ = some v) :=
  ⟨by decide,
   (c10_indices_valid_accessors_safe.2.2 _ (by decide)).2.2.2.1⟩

/-- C6: for a relative rule the recurrence engine bases the computation on
today, not the stored date — the result is independent of the stored date
— and the spec scenario holds: the item t:2024-01-01 rec:+1w toggled
completed with today 2024-01-10 yields a sibling whose threshold date is
2024-01-17, not 2024-01-08. -/
theorem c6_relative_recurrence_uses_today :
    (∀ (d d2 today : Date) (amount : Nat) (un : RecurringUnit),
      applyRec d today true amount un = applyRec d2 today true amount un) ∧
    ((parseItemS "2024-01-01 water plants t:2024-01-01 rec:+1w").map
        (fun item => (toggleCompleted item ⟨2024, 1, 10⟩).2.map t_dateView) =
      .ok (some (some ⟨2024, 1, 17⟩))) ∧
    (⟨2024, 1, 17⟩ : Date) ≠ ⟨2024, 1, 8⟩ := by
  refine ⟨fun d d2 today amount un => rfl, rfl, by decide⟩

/-- C3: the concrete duplicate-due line fails with the error naming the
second due tag, whose span (columns 31 to 45, 1-based, end exclusive)
covers exactly the characters of the second occurrence; and in general the
builder, on meeting a due/t/rec/pri chunk when that tag kind is already
set, stops with the second-definition error spanning that chunk, leaving
later chunks unprocessed. -/
theorem c3_duplicate_tag_rejected :
    (parseItemS "(A) 2024-01-01 due:2024-01-05 due:2024-01-06 task" =
      .error ⟨"Illegal second 'due' definition", 31, 45⟩) ∧
    ((("(A) 2024-01-01 due:2024-01-05 due:2024-01-06 task").data.drop
        30).take 14 = ("due:2024-01-06").data ∧ 31 = 30 + 1 ∧
      45 = 30 + 14 + 1) ∧
    (∀ (st : BState) (pos : Nat) (sp chunk : List Char)
       (rest : List (Nat × List Char × List Char)) (y m d : Nat),
      classify chunk = .pdue y m d → st.dueSet = true →
      buildParts st ((pos, sp, chunk) :: rest) =
        .error ⟨"Illegal second 'due' definition",
          pos + 1, pos + chunk.length + 1⟩) ∧
    (∀ (st : BState) (pos : Nat) (sp chunk : List Char)
       (rest : List (Nat × List Char × List Char)) (y m d : Nat),
      classify chunk = .pt y m d → st.tSet = true →
      buildParts st ((pos, sp, chunk) :: rest) =
        .error ⟨"Illegal second 't' definition",
          pos + 1, pos + chunk.length + 1⟩) ∧
    (∀ (st : BState) (pos : Nat) (sp chunk : List Char)
       (rest : List (Nat × List Char × List Char)) (rel : Bool)
       (amount : Nat) (un : RecurringUnit),
      classify chunk = .prec rel amount un → st.recSet = true →
      buildParts st ((pos, sp, chunk) :: rest) =
        .error ⟨"Illegal second 'rec' definition",
          pos + 1, pos + chunk.length + 1⟩) ∧
    (∀ (st : BState) (pos : Nat) (sp chunk : List Char)
       (rest : List (Nat × List Char × List Char)) (c : Char),
      classify chunk = .ppri c → st.prio.isSome = true →
      buildParts st ((pos, sp, chunk) :: rest) =
        .error ⟨"Illegal second 'pri' definition",
          pos + 1, pos + chunk.length + 1⟩) := by
  refine ⟨rfl, ⟨rfl, rfl, rfl⟩, ?_, ?_, ?_, ?_⟩
  · intro st pos sp chunk rest y m d hcl hset
    simp [buildParts, buildStep, hcl, hset]
  · intro st pos sp chunk rest y m d hcl hset
    simp [buildParts, buildStep, hcl, hset]
  · intro st pos sp chunk rest rel amount un hcl hset
    simp [buildParts, buildStep, hcl, hset]
  · intro st pos sp chunk rest c hcl hset
    simp [buildParts, buildStep, hcl, hset]

/-- Witness for C3: the builder in a state with the due flag set rejects a
further concrete due chunk with its span. -/
theorem c3_duplicate_tag_rejected_witness :
    classify ("due:2024-01-06").data = .pdue 2024 1 6 ∧

    buildParts ⟨none, true, false, false, []⟩
        [(30, [' '], ("due:2024-01-06").data)] =
      .error ⟨"Illegal second 'due' definition", 31, 45⟩ :=
  ⟨by decide,
   by
     rw [c3_duplicate_tag_rejected.2.2.1 ⟨none, true, false, false, []⟩
       30 [' '] ("due:2024-01-06").data [] 2024 1 6 (by decide) rfl]
     rfl⟩

/-- Counterexample to C2 as stated: with the words phone and xyz
configured, the evaluator accepts the item Call mom @Phone due:2024-01-01
(the word phone matches the context part) although xyz occurs nowhere, so
acceptance is not equivalent to every configured word occurring. -/
theorem c2_counterexample :
    (parseItemS "2024-01-01 Call mom @Phone due:2024-01-01").map
        (fun item =>
          (applies ⟨"phone xyz", some false, none, true⟩ ⟨2024, 1, 1⟩ item,
           c2EveryWord ⟨"phone xyz", some false, none, true⟩ item)) =
      .ok (true, false) := by rfl

/-- C2 amended: with a nonempty configured word list, the evaluator
accepts an item exactly when the completion, priority and threshold
clauses pass and some configured word occurs as a substring of the text of
some word, context or project part, both sides lowercased unconditionally
(there is no ignore-case switch; tag parts are never searched). -/
theorem c2_word_criterion (f : TodoListFilter) (today : Date)
    (item : TodoItem)
    (hw : wordsSplit (lowerL f.input_field.data) ≠ []) :
    applies f today item = true ↔
      ((∀ b, f.completion = some b → b = item.completion_date.isSome) ∧
       (∀ p, f.priority = some p → p = priorityView item) ∧
       (f.t = true → ∀ td, t_dateView item = some td →
         dateLtB today td = false) ∧
       (∃ s ∈ contentTexts item,
         ∃ w ∈ wordsSplit (lowerL f.input_field.data),
           subB w (lowerL s.data) = true)) := by
  have hne : ¬ (f.input_field == "") = true := by
    intro hemp
    rw [show f.input_field = "" by simpa using hemp] at hw
    exact hw rfl
  unfold applies
  by_cases h1 : (f.completion.any fun c => c != item.completion_date.isSome)
  · simp only [h1, if_true]
    constructor
    · intro hfalse; cases hfalse
    · rintro ⟨hc, -, -, -⟩
      rcases hcm : f.completion with _ | b
      · rw [hcm] at h1; simp [Option.any] at h1
      · have := hc b hcm
        rw [hcm] at h1
        simp only [Option.any_some, bne_iff_ne, ne_eq,
          decide_eq_true_eq] at h1
        exact absurd this h1
  · simp only [h1, if_false]
    by_cases h2 : (f.priority.any fun p => p != priorityView item)
    · simp only [h2, if_true]
      constructor
      · intro hfalse; cases hfalse
      · rintro ⟨-, hp, -, -⟩
        rcases hpm : f.priority with _ | p0
        · rw [hpm] at h2; simp [Option.any] at h2
        · have := hp p0 hpm
          rw [hpm] at h2
          simp only [Option.any_some, bne_iff_ne, ne_eq,
            decide_eq_true_eq] at h2
          exact absurd this h2
    · simp only [h2, if_false]
      by_cases h3 : (f.t && (match t_dateView item with
          | some td => dateLtB today td
          | none => false)) = true
      · simp only [h3, if_true]
        constructor
        · intro hfalse; cases hfalse
        · rintro ⟨-, -, ht, -⟩
          have hft : f.t = true := by
            cases hx : f.t
            · rw [hx] at h3; simp at h3
            · rfl
          have hmatch : (match t_dateView item with
              | some td => dateLtB today td
              | none => false) = true := by
            cases hx : (match t_dateView item with
              | some td => dateLtB today td
              | none => false)
            · rw [hft, hx] at h3; simp at h3
            · rfl
          rcases htd : t_dateView item with _ | td
          · rw [htd] at hmatch; cases hmatch
          · rw [htd] at hmatch
            have hm2 : dateLtB today td = true := by simpa using hmatch
            have hfalse := ht hft td htd
            exact absurd hm2 (by simp [hfalse])
      · have h3f : (f.t && (match t_dateView item with
            | some td => dateLtB today td
            | none => false)) = false := by
          exact Bool.not_eq_true _ ▸ (by simpa using h3)
        have heq : (f.input_field == "") = false := by
          simpa using hne
        simp only [h3f, Bool.false_eq_true, if_false, heq, Bool.not_false,
          if_true]
        have hgoal : (item.content.any fun part =>
            match part.content with
            | .word s => (wordsSplit (lowerL f.input_field.data)).any
                fun w => subB w (lowerL s.data)
            | .context s => (wordsSplit (lowerL f.input_field.data)).any
                fun w => subB w (lowerL s.data)
            | .project s => (wordsSplit (lowerL f.input_field.data)).any
                fun w => subB w (lowerL s.data)
            | _ => false) = true ↔
            (∃ s ∈ contentTexts item,
              ∃ w ∈ wordsSplit (lowerL f.input_field.data),
                subB w (lowerL s.data) = true) := by
          rw [List.any_eq_true]
          constructor
          · rintro ⟨part, hmem, hmatch⟩
            rcases part with ⟨sp, pc⟩
            cases pc with
            | word s =>
              refine ⟨s, ?_, ?_⟩
              · unfold contentTexts
                rw [List.mem_filterMap]
                exact ⟨⟨sp, .word s⟩, hmem, rfl⟩
              · simpa [List.any_eq_true] using hmatch
            | context s =>
              refine ⟨s, ?_, ?_⟩
              · unfold contentTexts
                rw [List.mem_filterMap]
                exact ⟨⟨sp, .context s⟩, hmem, rfl⟩
              · simpa [List.any_eq_true] using hmatch
            | project s =>
              refine ⟨s, ?_, ?_⟩
              · unfold contentTexts
                rw [List.mem_filterMap]
                exact ⟨⟨sp, .project s⟩, hmem, rfl⟩
              · simpa [List.any_eq_true] using hmatch
            | recur rel amount un => cases hmatch
            | due d => cases hmatch
            | t d => cases hmatch
            | pri c => cases hmatch
          · rintro ⟨s, hs, w, hwm, hsub⟩
            unfold contentTexts at hs
            rw [List.mem_filterMap] at hs
            obtain ⟨p, hpmem, hpeq⟩ := hs
            refine ⟨p, hpmem, ?_⟩
            rcases p with ⟨sp, pc⟩
            cases pc with
            | word s2 =>
              have hss : s2 = s := by simpa using hpeq
              subst hss
              simpa using List.any_eq_true.mpr ⟨w, hwm, hsub⟩
            | context s2 =>
              have hss : s2 = s := by simpa using hpeq
              subst hss
              simpa using List.any_eq_true.mpr ⟨w, hwm, hsub⟩
            | project s2 =>
              have hss : s2 = s := by simpa using hpeq
              subst hss
              simpa using List.any_eq_true.mpr ⟨w, hwm, hsub⟩
            | recur rel amount un => cases hpeq
            | due d => cases hpeq
            | t d => cases hpeq
            | pri c => cases hpeq
        constructor
        · intro hany
          refine ⟨?_, ?_, ?_, hgoal.mp hany⟩
          · intro b hb
            rw [hb] at h1
            simpa using h1
          · intro p hp
            rw [hp] at h2
            simpa using h2
          · intro hft td htd
            rw [hft, htd] at h3f
            simpa using h3f
        · rintro ⟨-, -, -, hex⟩
          exact hgoal.mpr hex

/-- Witness for C2 at a concrete filter and item: the word list [phone] is
nonempty and the evaluator accepts Call mom @Phone via the context part. -/
theorem c2_word_criterion_witness :
    wordsSplit (lowerL ("phone" : String).data) ≠ [] ∧
    applies ⟨"phone", none, none, false⟩ ⟨2024, 1, 1⟩
      ⟨none, none, ⟨2024, 1, 1⟩,
        [⟨" ", .word "Call"⟩, ⟨" ", .context "Phone"⟩],
        [1], [], none, none, none⟩ = true := by
  refine ⟨by decide, ?_⟩
  apply (c2_word_criterion ⟨"phone", none, none, false⟩ ⟨2024, 1, 1⟩
      ⟨none, none, ⟨2024, 1, 1⟩,
        [⟨" ", .word "Call"⟩, ⟨" ", .context "Phone"⟩],
        [1], [], none, none, none⟩ (by decide)).mpr
  refine ⟨?_, ?_, ?_, ?_⟩
  · intro b hb; cases hb
  · intro p hp; cases hp
  · intro hft td htd; cases htd
  · exact ⟨"Phone", by decide, ("phone" : String).data, by decide, by decide⟩

/-- Counterexample to C4 as stated: the filter has only a boolean
threshold flag, not a configured day limit.  For the item with threshold
2024-01-02 and today 2024-01-01 (a threshold one day ahead), the
claim-side evaluator configured with a one-day limit does not reject
(difference 1 does not exceed 1), yet the code rejects the item whenever
the flag is on — and accepts it with the flag off, showing the rejection
comes from the threshold clause.  The today the code uses is read from
the system clock inside the evaluator, not passed as a parameter. -/
theorem c4_counterexample :
    (parseItemS "2024-01-01 hide me t:2024-01-02").map (fun item =>
        (applies ⟨"", none, none, true⟩ ⟨2024, 1, 1⟩ item,
         c4SpecRejects 1 ⟨2024, 1, 1⟩ item,
         applies ⟨"", none, none, false⟩ ⟨2024, 1, 1⟩ item)) =
      .ok (false, false, true) := by rfl

/-- C4 amended: the threshold criterion is a boolean flag; when it is off,
or the item has no threshold date, the clause never rejects; when it is on
and the item has a threshold date, the evaluator result is exactly: reject
when the threshold is strictly after today (equivalently, the day
difference exceeds zero), else defer to the remaining clauses.  today is
the value the code reads from the system clock inside applies, modelled
as an explicit parameter. -/
theorem c4_threshold_clause (f : TodoListFilter) (today : Date)
    (item : TodoItem) :
    (t_dateView item = none →
      applies f today item = applies ⟨f.input_field, f.completion,
        f.priority, false⟩ today item) ∧
    (f.t = false →
      applies f today item = applies ⟨f.input_field, f.completion,
        f.priority, false⟩ today item) ∧
    (∀ td, t_dateView item = some td → f.t = true →
      applies f today item =
        (!(dateLtB today td) && applies ⟨f.input_field, f.completion,
          f.priority, false⟩ today item)) := by
  refine ⟨?_, ?_, ?_⟩
  · intro hnone
    unfold applies
    simp only [hnone]
    rcases f with ⟨fi, fc, fp, ft⟩
    cases ft <;> rfl
  · intro hf
    rcases f with ⟨fi, fc, fp, ft⟩
    simp only at hf
    subst hf
    rfl
  · intro td htd hft
    rcases f with ⟨fi, fc, fp, ft⟩
    simp only at hft
    subst hft
    unfold applies
    simp only [htd]
    by_cases h1 : (fc.any fun c => c != item.completion_date.isSome) = true
    · simp [h1]
    · simp only [h1, Bool.false_eq_true, if_false,
        Bool.not_eq_true _ ▸ h1]
      by_cases h2 : (fp.any fun p => p != priorityView item) = true
      · simp [h1, h2]
      · simp only [h2, Bool.false_eq_true, if_false]
        by_cases h3 : dateLtB today td = true
        · simp [h1, h2, h3]
        · have h3f : dateLtB today td = false := by simpa using h3
          simp [h1, h2, h3f]

/-- Witness for C4 at a concrete filter and item: with the flag on and a
threshold strictly after today the evaluator rejects. -/
theorem c4_threshold_clause_witness :
    applies ⟨"", none, none, true⟩ ⟨2024, 1, 1⟩
      ⟨none, none, ⟨2024, 1, 1⟩, [⟨" ", .t ⟨2024, 1, 2⟩⟩],
        [], [], none, none, some 0⟩ = false := by
  have h := (c4_threshold_clause ⟨"", none, none, true⟩ ⟨2024, 1, 1⟩
    ⟨none, none, ⟨2024, 1, 1⟩, [⟨" ", .t ⟨2024, 1, 2⟩⟩],
      [], [], none, none, some 0⟩).2.2 ⟨2024, 1, 2⟩ (by decide) rfl
  rw [h]
  decide

/-- The line loop succeeds on lines that all parse, in order. -/
theorem parseLines_ok (ls : List String) :
    ∀ (k : Nat) (items : List TodoItem),
      mapO (fun l => (parseItemS l).toOption) ls = some items →
      parseLines k ls = .ok items := by
  induction ls with
  | nil =>
    intro k items h
    simp only [mapO, Option.some_inj] at h
    rw [← h]
    rfl
  | cons l ls ih =>
    intro k items h
    simp only [mapO] at h
    cases hp : parseItemS l with
    | error e =>
      have hop : (parseItemS l).toOption = none := by rw [hp]; rfl
      rw [hop] at h
      simp at h
    | ok item =>
      have hop : (parseItemS l).toOption = some item := by rw [hp]; rfl
      rw [hop] at h
      simp only at h
      cases hm : mapO (fun l => (parseItemS l).toOption) ls with
      | none => rw [hm] at h; simp at h
      | some rest =>
        rw [hm] at h
        simp only [Option.map_some', Option.some_inj] at h
        rw [← h]
        simp only [parseLines, hp, ih (k + 1) rest hm]

/-- The line loop stops at the first failing line with its formatted
error. -/
theorem parseLines_err (pre : List String) :
    ∀ (k : Nat) (l : String) (post : List String) (e : ItemParseError),
      (∀ x ∈ pre, ∃ it, parseItemS x = .ok it) →
      parseItemS l = .error e →
      parseLines k (pre ++ l :: post) =
        .error (listErrString (k + pre.length) l e) := by
  induction pre with
  | nil =>
    intro k l post e hpre herr
    simp only [List.nil_append, parseLines, herr, List.length_nil,
      Nat.add_zero]
  | cons x xs ih =>
    intro k l post e hpre herr
    obtain ⟨it, hit⟩ := hpre x (by simp)
    simp only [List.cons_append, parseLines, hit, List.append_eq]
    rw [ih (k + 1) l post e (fun y hy => hpre y (by simp [hy])) herr]
    have : k + 1 + xs.length = k + (xs.length + 1) := by omega
    simp [this]

/-- C7: whole-list parsing returns the items of all the lines in order
when every line parses, and otherwise stops at the first failing line,
producing no list and wrapping that line's index, the line itself, the
caret markers under the item-level span, and the item-level message; the
lines after the first failure are never parsed (the result does not
depend on them). -/
theorem c7_list_parse_first_error :
    (∀ (s : String) (items : List TodoItem),
      mapO (fun l => (parseItemS l).toOption) (linesModel s) = some items →
      parseListS s = .ok items) ∧
    (∀ (s : String) (pre : List String) (l : String) (post : List String)
       (e : ItemParseError),
      linesModel s = pre ++ l :: post →
      (∀ x ∈ pre, ∃ it, parseItemS x = .ok it) →
      parseItemS l = .error e →
      parseListS s = .error (listErrString pre.length l e)) := by
  constructor
  · intro s items h
    exact parseLines_ok (linesModel s) 0 items h
  · intro s pre l post e hsplit hpre herr
    unfold parseListS
    rw [hsplit, parseLines_err pre 0 l post e hpre herr]
    simp

/-- Witness for C7: a three-line source whose second line fails parses to
the formatted error for line index 1, and an all-good source parses to
its two items. -/
theorem c7_list_parse_first_error_witness :
    parseListS "2024-01-01 a\nbad\n2024-01-02 b" =
      .error (listErrString 1 "bad"
        ⟨"Expected date", 1, 2⟩) ∧
    (∃ items, parseListS "2024-01-01 a\n2024-01-02 b" = .ok items) := by
  constructor
  · exact c7_list_parse_first_error.2 "2024-01-01 a\nbad\n2024-01-02 b"
      ["2024-01-01 a"] "bad" ["2024-01-02 b"] ⟨"Expected date", 1, 2⟩
      (by rfl)
      (fun x hx => by
        rcases List.mem_singleton.mp hx with rfl
        exact ⟨_, rfl⟩)
      (by rfl)
  · exact ⟨_, c7_list_parse_first_error.1 "2024-01-01 a\n2024-01-02 b"
      _ (by rfl)⟩

/-- renderRest distributes over append. -/
theorem renderRest_append (as bs : List ContentPart) :
    renderRest (as ++ bs) = renderRest as ++ renderRest bs := by
  induction as with
  | nil => simp [renderRest]
  | cons a as ih => simp [renderRest, ih]

/-- renderParts of a nonempty prefix followed by more parts. -/
theorem renderParts_append_ne (as bs : List ContentPart) (h : as ≠ []) :
    renderParts (as ++ bs) = renderParts as ++ renderRest bs := by
  cases as with
  | nil => exact absurd rfl h
  | cons a as =>
    simp only [List.cons_append, renderParts, renderRest_append,
      List.append_assoc]

/-- Counterexample to C5 as stated: for the parsed item
2024-01-01 due:2024-02-02 task the serializer emits the due tag at its
stored position before the word task, not after the content as the
claimed fixed order requires. -/
theorem c5_counterexample :
    (parseItemS "2024-01-01 due:2024-02-02 task").map (fun item =>
        decide (renderItemCh item = c5ClaimRender item)) = .ok false ∧
    (parseItemS "2024-01-01 due:2024-02-02 task").map
        (fun item => renderItemS item) =
      .ok "2024-01-01 due:2024-02-02 task" := by
  constructor
  · rfl
  · rfl

/-- C5 amended: the serializer emits the content parts at their stored
positions; for every item in canonical form the output is exactly the
claimed fixed order (completion or priority prefix, creation date,
free-text content, then pri while completed, due, t, rec). -/
theorem c5_emission_order (item : TodoItem)
    (h : c5Canonical item = true) :
    renderItemCh item = c5ClaimRender item := by
  simp only [c5Canonical, Bool.and_eq_true] at h
  obtain ⟨⟨h1, h2x⟩, h3x⟩ := h
  have h2 : (c5NonTagParts item.content).isEmpty = false := by
    simpa using h2x
  have h3 : item.content = c5NonTagParts item.content ++ c5TagBlock item := by
    simpa using h3x
  have hne : c5NonTagParts item.content ≠ [] := by
    intro hx
    rw [hx] at h2
    simp [List.isEmpty] at h2
  unfold renderItemCh c5ClaimRender
  have hparts : renderParts item.content =
      renderParts (c5NonTagParts item.content) ++
        renderRest (c5TagBlock item) := by
    conv_lhs => rw [h3]
    exact renderParts_append_ne _ _ hne
  rw [hparts]
  have htail : renderRest (c5TagBlock item) =
      (match item.completion_date, priorityView item with
        | some _, some c => ' ' :: renderContentC (.pri c)
        | _, _ => []) ++
      (match due_dateView item with
        | some d => ' ' :: renderContentC (.due d)
        | none => []) ++
      (match t_dateView item with
        | some d => ' ' :: renderContentC (.t d)
        | none => []) ++
      (match recurringView item with
        | some (rel, amount, un) => ' ' :: renderContentC (.recur rel amount un)
        | none => []) := by
    unfold c5TagBlock
    rw [renderRest_append, renderRest_append, renderRest_append]
    congr 1
    · congr 1
      · congr 1
        · cases hp : item.priority with
          | none =>
            have hv : priorityView item = none := by
              unfold priorityView; rw [hp]
            rw [hv]
            cases item.completion_date <;> rfl
          | some pr =>
            cases pr with
            | literal c =>
              rw [hp] at h1
              have hc : item.completion_date = none := by
                cases hcd : item.completion_date
                · rfl
                · rw [hcd] at h1; simp at h1
              have hv : priorityView item = some c := by
                unfold priorityView; rw [hp]
              rw [hc, hv]
              rfl
            | index i =>
              rw [hp] at h1
              obtain ⟨d0, hd0⟩ := Option.isSome_iff_exists.mp h1
              rw [hd0]
              cases hv : priorityView item with
              | none => rfl
              | some c => rfl
        · cases due_dateView item <;> rfl
      · cases t_dateView item <;> rfl
    · cases hre : recurringView item with
      | none => rfl
      | some rau =>
        rcases rau with ⟨rel, amount, un⟩
        simp [renderRest]
  rw [htail]
  have hpre : (match item.completion_date with
      | some d => 'x' :: ' ' :: (renderDate d ++ [' '])
      | none =>
        match item.priority with
        | some (.literal c) => ['(', c, ')', ' ']
        | _ => []) =
      (match item.completion_date with
      | some d => 'x' :: ' ' :: (renderDate d ++ [' '])
      | none =>
        match priorityView item with
        | some c => ['(', c, ')', ' ']
        | none => []) := by
    cases hcd : item.completion_date with
    | some d => rfl
    | none =>
      cases hp : item.priority with
      | none =>
        have hv : priorityView item = none := by
          unfold priorityView; rw [hp]
        rw [hv]
      | some pr =>
        cases pr with
        | literal c =>
          have hv : priorityView item = some c := by
            unfold priorityView; rw [hp]
          rw [hv]
        | index i =>
          rw [hp, hcd] at h1
          simp at h1
  rw [hpre]
  simp [List.append_assoc]

/-- Witness for C5 at a concrete canonical item: completed with a pri tag
and trailing due, t and rec tags; the render equals the claimed order. -/
theorem c5_emission_order_witness :
    c5Canonical ⟨some ⟨2024, 1, 5⟩, some (.index 1), ⟨2024, 1, 1⟩,
      [⟨" ", .word "call"⟩, ⟨" ", .pri 'B'⟩, ⟨" ", .due ⟨2024, 2, 3⟩⟩,
       ⟨" ", .t ⟨2024, 1, 2⟩⟩, ⟨" ", .recur false 1 .weeks⟩],
      [], [], some 4, some 2, some 3⟩ = true ∧
    renderItemCh ⟨some ⟨2024, 1, 5⟩, some (.index 1), ⟨2024, 1, 1⟩,
      [⟨" ", .word "call"⟩, ⟨" ", .pri 'B'⟩, ⟨" ", .due ⟨2024, 2, 3⟩⟩,
       ⟨" ", .t ⟨2024, 1, 2⟩⟩, ⟨" ", .recur false 1 .weeks⟩],
      [], [], some 4, some 2, some 3⟩ =
      c5ClaimRender ⟨some ⟨2024, 1, 5⟩, some (.index 1), ⟨2024, 1, 1⟩,
        [⟨" ", .word "call"⟩, ⟨" ", .pri 'B'⟩, ⟨" ", .due ⟨2024, 2, 3⟩⟩,
         ⟨" ", .t ⟨2024, 1, 2⟩⟩, ⟨" ", .recur false 1 .weeks⟩],
        [], [], some 4, some 2, some 3⟩ :=
  ⟨by decide, c5_emission_order _ (by decide)⟩

/-- The item order is transitive (it compares lexicographic keys in a
linear order). -/
theorem itemLeB_trans (a b c : TodoItem) (h1 : itemLeB a b = true)
    (h2 : itemLeB b c = true) : itemLeB a c = true := by
  simp only [itemLeB, decide_eq_true_eq] at h1 h2 ⊢
  exact le_trans h1 h2

/-- The item order is total. -/
theorem itemLeB_total (a b : TodoItem) :
    (itemLeB a b || itemLeB b a) = true := by
  simp only [itemLeB, Bool.or_eq_true, decide_eq_true_eq]
  exact le_total _ _

/-- A filterMap that only ever returns the image under g of its argument
is a sublist of the g-map. -/
theorem filterMap_sublist_map {α β : Type} (f : α → Option β) (g : α → β)
    (l : List α) (h : ∀ a, f a = none ∨ f a = some (g a)) :
    List.Sublist (l.filterMap f) (l.map g) := by
  induction l with
  | nil => simp
  | cons a as ih =>
    rcases h a with ha | ha <;>
      simp only [List.filterMap_cons, ha, List.map_cons]
    · exact List.Sublist.cons _ ih
    · exact List.Sublist.cons₂ _ ih

/-- Membership in the recomputed view: exactly the indices of items that
pass the filter. -/
theorem update_view_indices_mem (list : List TodoItem)
    (f : TodoListFilter) (today : Date) (i : Nat) :
    i ∈ update_view_indices list f today ↔
      ∃ item, list[i]? = some item ∧ applies f today item = true := by
  unfold update_view_indices
  rw [(List.mergeSort_perm _ _).mem_iff, List.mem_filterMap]
  constructor
  · rintro ⟨⟨k, item⟩, hmem, hg⟩
    have hki : applies f today item = true ∧ k = i := by
      by_cases ha : applies f today item = true
      · rw [ha] at hg; simp at hg; exact ⟨ha, hg⟩
      · rw [Bool.not_eq_true] at ha
        rw [ha] at hg; simp at hg
    obtain ⟨ha, hk⟩ := hki
    subst hk
    have := List.mk_mem_enum_iff_getElem?.mp hmem
    exact ⟨item, by simpa using this, ha⟩
  · rintro ⟨item, hget, ha⟩
    refine ⟨(i, item), List.mk_mem_enum_iff_getElem?.mpr (by simpa using hget), ?_⟩
    simp [ha]

/-- The recomputed view is sorted by the item order through the list. -/
theorem update_view_indices_sorted (list : List TodoItem)
    (f : TodoListFilter) (today : Date) :
    (update_view_indices list f today).Pairwise (fun i j =>
      itemLeB (list.getD i default) (list.getD j default) = true) := by
  unfold update_view_indices
  exact List.sorted_mergeSort
    (fun i j k hab hbc => itemLeB_trans (list.getD i default)
      (list.getD j default) (list.getD k default) hab hbc)
    (fun i j => itemLeB_total (list.getD i default) (list.getD j default)) _

/-- The recomputed view has no duplicate indices. -/
theorem update_view_indices_nodup (list : List TodoItem)
    (f : TodoListFilter) (today : Date) :
    (update_view_indices list f today).Nodup := by
  unfold update_view_indices
  rw [(List.mergeSort_perm _ _).nodup_iff]
  exact List.Sublist.nodup
    (filterMap_sublist_map _ Prod.fst list.enum (fun p => by
      by_cases ha : applies f today p.2 = true
      · right
        simp [ha]
      · left
        rw [Bool.not_eq_true] at ha
        simp [ha]))
    (by
      rw [List.enum_map_fst]
      exact List.nodup_range _)

/-- C8: after construction and after every mutate_filter call, the view is
exactly the set of indices of items passing the current filter, with no
duplicates, ordered by the (spec section 3) total order on the indexed
items; today is the clock value the filter reads. -/
theorem c8_view_reflects_filter :
    (∀ (list : List TodoItem) (today : Date),
      (∀ i, i ∈ (SFTL.new list today).view_indices ↔
        ∃ item, list[i]? = some item ∧
          applies (SFTL.new list today).filter today item = true) ∧
      (SFTL.new list today).view_indices.Pairwise (fun i j =>
        itemLeB (list.getD i default) (list.getD j default) = true) ∧
      (SFTL.new list today).view_indices.Nodup) ∧
    (∀ (s : SFTL) (g : TodoListFilter → TodoListFilter) (today : Date),
      (∀ i, i ∈ (s.mutate_filter g today).view_indices ↔
        ∃ item, s.list[i]? = some item ∧
          applies (s.mutate_filter g today).filter today item = true) ∧
      (s.mutate_filter g today).view_indices.Pairwise (fun i j =>
        itemLeB (s.list.getD i default) (s.list.getD j default) = true) ∧
      (s.mutate_filter g today).view_indices.Nodup) := by
  constructor
  · intro list today
    exact ⟨fun i => update_view_indices_mem list _ today i,
      update_view_indices_sorted list _ today,
      update_view_indices_nodup list _ today⟩
  · intro s g today
    exact ⟨fun i => update_view_indices_mem s.list _ today i,
      update_view_indices_sorted s.list _ today,
      update_view_indices_nodup s.list _ today⟩

/-- Witness for C8 on a concrete three-item list: the incomplete items
pass the default filter while a completed one sorts last, and the view
membership matches the theorem. -/
theorem c8_view_reflects_filter_witness :
    (0 ∈ (SFTL.new [TodoItem.new ⟨2024, 1, 1⟩] ⟨2024, 1, 1⟩).view_indices ↔
      ∃ item, [TodoItem.new ⟨2024, 1, 1⟩][0]? = some item ∧
        applies (SFTL.new [TodoItem.new ⟨2024, 1, 1⟩] ⟨2024, 1, 1⟩).filter
          ⟨2024, 1, 1⟩ item = true) ∧
    (0 ∈ (SFTL.new [TodoItem.new ⟨2024, 1, 1⟩] ⟨2024, 1, 1⟩).view_indices) :=
  ⟨(c8_view_reflects_filter.1 [TodoItem.new ⟨2024, 1, 1⟩] ⟨2024, 1, 1⟩).1 0,
   ((c8_view_reflects_filter.1 [TodoItem.new ⟨2024, 1, 1⟩] ⟨2024, 1, 1⟩).1
       0).mpr ⟨TodoItem.new ⟨2024, 1, 1⟩, by decide, by decide⟩⟩

/-! ## Round-trip machinery: digits and dates -/
/-- A digit character is a digit. -/
theorem isDigitC_digitChar (k : Nat) (h : k < 10) :
    isDigitC (digitChar k) = true := by
  interval_cases k <;> decide

/-- Reading back a digit character. -/
theorem digitVal_digitChar (k : Nat) (h : k < 10) :
    digitVal (digitChar k) = k := by
  interval_cases k <;> decide

/-- The rendered digits of a number are digit characters. -/
theorem renderNat_digits (n : Nat) : (renderNat n).all isDigitC = true := by
  induction n using Nat.strong_induction_on with
  | _ n ih =>
    unfold renderNat
    by_cases h : n < 10
    · simp only [h, if_true, List.all_cons, List.all_nil, Bool.and_true]
      exact isDigitC_digitChar n h
    · simp only [h, if_false, List.all_append, List.all_cons, List.all_nil,
        Bool.and_true]
      rw [ih (n / 10) (Nat.div_lt_self (by omega) (by omega))]
      simp only [Bool.true_and]
      exact isDigitC_digitChar (n % 10) (by omega)

/-- Rendered numbers are never empty. -/
theorem renderNat_ne_nil (n : Nat) : renderNat n ≠ [] := by
  unfold renderNat
  by_cases h : n < 10 <;> simp [h]

/-- The digit fold shifted by an accumulator. -/
theorem natFromDigits_aux (ds : List Char) : ∀ (acc : Nat),
    ds.foldl (fun a c => a * 10 + digitVal c) acc =
      acc * 10 ^ ds.length + ds.foldl (fun a c => a * 10 + digitVal c) 0 := by
  induction ds with
  | nil => intro acc; simp
  | cons d ds ih =>
    intro acc
    simp only [List.foldl_cons, List.length_cons]
    rw [ih (acc * 10 + digitVal d), ih (0 * 10 + digitVal d)]
    ring

/-- Reading back a rendered number. -/
theorem natFromDigits_renderNat (n : Nat) :
    natFromDigits (renderNat n) = n := by
  induction n using Nat.strong_induction_on with
  | _ n ih =>
    unfold natFromDigits renderNat
    by_cases h : n < 10
    · simp only [h, if_true, List.foldl_cons, List.foldl_nil]
      rw [digitVal_digitChar n h]
      omega
    · simp only [h, if_false, List.foldl_append, List.foldl_cons,
        List.foldl_nil]
      have := ih (n / 10) (Nat.div_lt_self (by omega) (by omega))
      unfold natFromDigits at this
      rw [this, digitVal_digitChar (n % 10) (by omega)]
      omega

/-- Reading back a rendered date with a four-digit year. -/
theorem readDateShape_renderDate (d : Date) (hy : d.year ≤ 9999)
    (hm : d.month ≤ 99) (hd : d.day ≤ 99) :
    readDateShape (renderDate d) = some (d.year, d.month, d.day) := by
  show readDateShape
    [digitChar (d.year / 1000 % 10), digitChar (d.year / 100 % 10),
     digitChar (d.year / 10 % 10), digitChar (d.year % 10), '-',
     digitChar (d.month / 10 % 10), digitChar (d.month % 10), '-',
     digitChar (d.day / 10 % 10), digitChar (d.day % 10)] = _
  simp only [readDateShape]
  rw [isDigitC_digitChar _ (by omega), isDigitC_digitChar _ (by omega),
    isDigitC_digitChar _ (by omega), isDigitC_digitChar _ (by omega),
    isDigitC_digitChar _ (by omega), isDigitC_digitChar _ (by omega),
    isDigitC_digitChar _ (by omega), isDigitC_digitChar _ (by omega)]
  simp only [beq_self_eq_true, Bool.and_self, Bool.true_and, Bool.and_true,
    if_true]
  rw [digitVal_digitChar _ (by omega), digitVal_digitChar _ (by omega),
    digitVal_digitChar _ (by omega), digitVal_digitChar _ (by omega),
    digitVal_digitChar _ (by omega), digitVal_digitChar _ (by omega),
    digitVal_digitChar _ (by omega), digitVal_digitChar _ (by omega)]
  simp only [Option.some_inj, Prod.mk.injEq]
  refine ⟨by omega, by omega, by omega⟩

/-- A character cannot beq-equal another when a boolean predicate separates
them. -/
theorem beq_false_of_pred (p : Char → Bool) (c a : Char) (hc : p c = true)
    (ha : p a = false) : (c == a) = false := by
  rcases hb : (c == a) with _ | _
  · rfl
  · have he := eq_of_beq hb
    subst he
    rw [hc] at ha
    exact Bool.noConfusion ha

/-- The flipped orientation of beq_false_of_pred. -/
theorem beq_false_of_pred_flip (p : Char → Bool) (a c : Char)
    (hc : p c = true) (ha : p a = false) : (a == c) = false := by
  rcases hb : (a == c) with _ | _
  · rfl
  · have he := eq_of_beq hb
    subst he
    rw [hc] at ha
    exact Bool.noConfusion ha

/-- A digit character's value is at most nine. -/
theorem digitVal_le (c : Char) (h : isDigitC c = true) : digitVal c ≤ 9 := by
  simp only [isDigitC, Bool.and_eq_true, decide_eq_true_eq] at h
  simp only [digitVal]
  omega

/-- Any successfully read date shape has a four-digit year and two-digit
month and day. -/
theorem readDateShape_bounds (cs : List Char) (y m d : Nat)
    (h : readDateShape cs = some (y, m, d)) :
    y ≤ 9999 ∧ m ≤ 99 ∧ d ≤ 99 := by
  unfold readDateShape at h
  split at h
  · split at h
    · rename_i y1 y2 y3 y4 dash1 m1 m2 dash2 d1 d2 hc
      simp only [Bool.and_eq_true] at hc
      obtain ⟨⟨⟨⟨⟨⟨⟨⟨⟨h1, h2⟩, h3⟩, h4⟩, h5⟩, h6⟩, h7⟩, h8⟩, h9⟩, h10⟩ := hc
      simp only [Option.some_inj, Prod.mk.injEq] at h
      obtain ⟨hy, hm, hd⟩ := h
      have b3 := digitVal_le _ h3
      have b4 := digitVal_le _ h4
      have b5 := digitVal_le _ h5
      have b6 := digitVal_le _ h6
      have b7 := digitVal_le _ h7
      have b8 := digitVal_le _ h8
      have b9 := digitVal_le _ h9
      have b10 := digitVal_le _ h10
      omega
    · exact absurd h (by simp)
  · exact absurd h (by simp)

/-- Months have at most 31 days. -/
theorem daysInMonth_le (y m : Nat) : daysInMonth y m ≤ 31 := by
  unfold daysInMonth
  split
  · split <;> omega
  · split <;> omega

/-- A valid month/day pair fits in two digits. -/
theorem validYmd_bounds (y m d : Nat) (h : validYmd y m d = true) :
    1 ≤ m ∧ m ≤ 99 ∧ 1 ≤ d ∧ d ≤ 99 := by
  simp only [validYmd, Bool.and_eq_true, decide_eq_true_eq] at h
  have hdm := daysInMonth_le y m
  omega

/-- Reading back the rendered form of any renderable valid date. -/
theorem readDateShape_renderDate_ok (d : Date) (h : dateOKB d = true) :
    readDateShape (renderDate d) = some (d.year, d.month, d.day) := by
  simp only [dateOKB, Date.validB, Bool.and_eq_true, decide_eq_true_eq] at h
  obtain ⟨hv, hy⟩ := h
  have hb := validYmd_bounds _ _ _ hv
  exact readDateShape_renderDate d hy (by omega) (by omega)

/-- A rendered date is ten characters long. -/
theorem renderDate_len (d : Date) : (renderDate d).length = 10 := by
  simp [renderDate, pad4, pad2]

/-- A rendered date contains no space. -/
theorem renderDate_noSpace (d : Date) : noSpace (renderDate d) = true := by
  have hd : ∀ k : Nat, k < 10 → (digitChar k == ' ') = false := fun k hk =>
    beq_false_of_pred isDigitC _ _ (isDigitC_digitChar k hk) (by decide)
  simp only [renderDate, pad4, pad2, List.cons_append, List.nil_append,
    noSpace, List.all_cons, List.all_nil, Bool.and_true]
  rw [hd _ (by omega), hd _ (by omega), hd _ (by omega), hd _ (by omega),
    hd _ (by omega), hd _ (by omega), hd _ (by omega), hd _ (by omega)]
  decide

/-- Rebuilding a string from its character data gives the string back. -/
theorem stringMk_data (s : String) : (⟨s.data⟩ : String) = s := rfl

/-- A rendered positive number starts with a digit. -/
theorem renderNat_cons (n : Nat) :
    ∃ c tl, renderNat n = c :: tl ∧ isDigitC c = true := by
  rcases h : renderNat n with _ | ⟨c, tl⟩
  · exact absurd h (renderNat_ne_nil n)
  · refine ⟨c, tl, rfl, ?_⟩
    have hall := renderNat_digits n
    rw [h] at hall
    simp only [List.all_cons, Bool.and_eq_true] at hall
    exact hall.1

/-- Unit characters are not digits. -/
theorem isDigitC_unitChar (u : RecurringUnit) : isDigitC (unitChar u) = false := by
  cases u <;> decide

/-- Unit characters read back to their unit. -/
theorem unitOf_unitChar (u : RecurringUnit) : unitOf (unitChar u) = some u := by
  cases u <;> rfl

/-- Unit characters are not spaces. -/
theorem unitChar_ne_space (u : RecurringUnit) : (unitChar u == ' ') = false := by
  cases u <;> decide

/-- A digit character is not the space character. -/
theorem ne_space_of_digit (c : Char) (h : isDigitC c = true) : c ≠ ' ' :=
  fun he => by rw [he] at h; exact absurd h (by decide)

/-- An uppercase character is not the space character. -/
theorem ne_space_of_upper (c : Char) (h : isUpperC c = true) : c ≠ ' ' :=
  fun he => by rw [he] at h; exact absurd h (by decide)

/-- Membership form of the no-space predicate, forward direction. -/
theorem noSpace_of_forall (cs : List Char) (h : ∀ c ∈ cs, c ≠ ' ') :
    noSpace cs = true := by
  simp only [noSpace, List.all_eq_true]
  intro c hc
  simp [h c hc]

/-- Membership form of the no-space predicate, backward direction. -/
theorem noSpace_forall (cs : List Char) (h : noSpace cs = true) :
    ∀ c ∈ cs, c ≠ ' ' := by
  simp only [noSpace, List.all_eq_true] at h
  intro c hc
  have h2 := h c hc
  simp only [Bool.not_eq_true'] at h2
  intro he
  rw [he] at h2
  exact absurd h2 (by decide)

/-- The rendered chunk of a textually well-formed content part is nonempty
and space-free. -/
theorem chunkOK_good (c : Content) (h : chunkOK c = true) :
    renderContentC c ≠ [] ∧ noSpace (renderContentC c) = true := by
  cases c with
  | word s =>
    simp only [chunkOK, Bool.and_eq_true] at h
    obtain ⟨⟨h1, h2⟩, h3⟩ := h
    refine ⟨fun hn => ?_, h2⟩
    rw [show renderContentC (.word s) = s.data from rfl] at hn
    rw [hn] at h1
    exact Bool.noConfusion h1
  | context s =>
    simp only [chunkOK, Bool.and_eq_true] at h
    refine ⟨by simp [renderContentC], noSpace_of_forall _ ?_⟩
    have hm := noSpace_forall _ h.2
    intro c hc
    rw [show renderContentC (.context s) = '@' :: s.data from rfl] at hc
    rcases List.mem_cons.mp hc with hc | hc
    · subst hc; decide
    · exact hm c hc
  | project s =>
    simp only [chunkOK, Bool.and_eq_true] at h
    refine ⟨by simp [renderContentC], noSpace_of_forall _ ?_⟩
    have hm := noSpace_forall _ h.2
    intro c hc
    rw [show renderContentC (.project s) = '+' :: s.data from rfl] at hc
    rcases List.mem_cons.mp hc with hc | hc
    · subst hc; decide
    · exact hm c hc
  | recur rel a u =>
    refine ⟨by simp [renderContentC], noSpace_of_forall _ ?_⟩
    intro c hc
    rw [show renderContentC (.recur rel a u) = 'r' :: 'e' :: 'c' :: ':' ::
      ((if rel then ['+'] else []) ++ renderNat a ++ [unitChar u]) from rfl] at hc
    simp only [List.mem_cons, List.mem_append, List.mem_singleton] at hc
    rcases hc with hc | hc | hc | hc | (hc | hc) | hc
    · subst hc; decide
    · subst hc; decide
    · subst hc; decide
    · subst hc; decide
    · cases rel with
      | true => simp at hc; subst hc; decide
      | false => simp at hc
    · have hall := List.all_eq_true.mp (renderNat_digits a) c hc
      exact ne_space_of_digit c hall
    · rcases hc with hc | hc
      · subst hc
        intro he
        have hu := unitChar_ne_space u
        rw [he] at hu
        exact absurd hu (by decide)
      · simp at hc
  | due d =>
    refine ⟨by simp [renderContentC], noSpace_of_forall _ ?_⟩
    intro c hc
    rw [show renderContentC (.due d) = 'd' :: 'u' :: 'e' :: ':' :: renderDate d
      from rfl] at hc
    have hm := noSpace_forall _ (renderDate_noSpace d)
    simp only [List.mem_cons] at hc
    rcases hc with hc | hc | hc | hc | hc
    · subst hc; decide
    · subst hc; decide
    · subst hc; decide
    · subst hc; decide
    · exact hm c hc
  | t d =>
    refine ⟨by simp [renderContentC], noSpace_of_forall _ ?_⟩
    intro c hc
    rw [show renderContentC (.t d) = 't' :: ':' :: renderDate d from rfl] at hc
    have hm := noSpace_forall _ (renderDate_noSpace d)
    simp only [List.mem_cons] at hc
    rcases hc with hc | hc | hc
    · subst hc; decide
    · subst hc; decide
    · exact hm c hc
  | pri ch =>
    refine ⟨by simp [renderContentC], noSpace_of_forall _ ?_⟩
    intro c hc
    rw [show renderContentC (.pri ch) = ['p', 'r', 'i', ':', ch] from rfl] at hc
    simp only [List.mem_cons] at hc
    rcases hc with hc | hc | hc | hc | hc | hc
    · subst hc; decide
    · subst hc; decide
    · subst hc; decide
    · subst hc; decide
    · subst hc
      exact ne_space_of_upper _ h
    · simp at hc

/-- takeWhile passes over a fully matching prefix. -/
theorem takeWhile_all_append (p : Char → Bool) (l r : List Char)
    (h : l.all p = true) : (l ++ r).takeWhile p = l ++ r.takeWhile p := by
  induction l with
  | nil => simp
  | cons c cs ih =>
    simp only [List.all_cons, Bool.and_eq_true] at h
    simp [List.takeWhile_cons, h.1, ih h.2]

/-- dropWhile removes a fully matching prefix. -/
theorem dropWhile_all_append (p : Char → Bool) (l r : List Char)
    (h : l.all p = true) : (l ++ r).dropWhile p = r.dropWhile p := by
  induction l with
  | nil => simp
  | cons c cs ih =>
    simp only [List.all_cons, Bool.and_eq_true] at h
    simp [List.dropWhile_cons, h.1, ih h.2]

/-- The head remaining after dropWhile fails the predicate. -/
theorem dropWhile_head_false (p : Char → Bool) (l : List Char) :
    l.dropWhile p = [] ∨ ∃ c r, l.dropWhile p = c :: r ∧ p c = false := by
  induction l with
  | nil => left; rfl
  | cons c cs ih =>
    rw [List.dropWhile_cons]
    by_cases h : p c = true
    · rw [if_pos h]
      exact ih
    · right
      exact ⟨c, cs, by simp [h], by simpa using h⟩

/-- Unfolding the chunk scan at a space character. -/
theorem scanChunks_space (pos : Nat) (sp : List Char) (c : Char)
    (rest : List Char) (h : (c == ' ') = true) :
    scanChunks pos sp (c :: rest) = scanChunks (pos + 1) (sp ++ [c]) rest := by
  simp only [scanChunks]
  rw [if_pos h]

/-- Unfolding the chunk scan at a non-space character. -/
theorem scanChunks_chunk (pos : Nat) (sp : List Char) (c : Char)
    (rest : List Char) (h : (c == ' ') = false) :
    scanChunks pos sp (c :: rest) =
      (pos, sp, c :: rest.takeWhile (fun d => !(d == ' '))) ::
        scanChunks (pos + (c :: rest.takeWhile (fun d => !(d == ' '))).length) []
          (rest.dropWhile (fun d => !(d == ' '))) := by
  simp only [scanChunks]
  rw [if_neg (by simp [h])]

/-- The chunk scan absorbs a leading space run into the pending space. -/
theorem scanChunks_spacerun (run : List Char) : ∀ (pos : Nat) (sp r : List Char),
    run.all isSpaceC = true →
    scanChunks pos sp (run ++ r) = scanChunks (pos + run.length) (sp ++ run) r := by
  induction run with
  | nil =>
    intro pos sp r _
    simp
  | cons c cs ih =>
    intro pos sp r h
    simp only [List.all_cons, Bool.and_eq_true] at h
    rw [List.cons_append, scanChunks_space pos sp c (cs ++ r) h.1,
      ih (pos + 1) (sp ++ [c]) r h.2]
    congr 1
    · simp only [List.length_cons]
      omega
    · simp

/-- The chunk scan emits a leading space-free chunk whole, provided what
follows is empty or starts with a space. -/
theorem scanChunks_chunkhead (ch : List Char) (hne : ch ≠ [])
    (hns : noSpace ch = true) (r : List Char)
    (hr : r = [] ∨ ∃ c2 r2, r = c2 :: r2 ∧ (c2 == ' ') = true)
    (pos : Nat) (sp : List Char) :
    scanChunks pos sp (ch ++ r) =
      (pos, sp, ch) :: scanChunks (pos + ch.length) [] r := by
  rcases ch with _ | ⟨c, ch2⟩
  · exact absurd rfl hne
  have hcvals := noSpace_forall _ hns
  have hcs : (c == ' ') = false :=
    beq_eq_false_iff_ne.mpr (hcvals c (by simp))
  have hch2 : ch2.all (fun d => !(d == ' ')) = true := by
    simp only [List.all_eq_true]
    intro d hd
    simp [hcvals d (by simp [hd])]
  have hrtw : r.takeWhile (fun d => !(d == ' ')) = [] := by
    rcases hr with hr | ⟨c2, r2, hr, hc2⟩
    · simp [hr]
    · rw [hr, List.takeWhile_cons, if_neg (by simp [hc2])]
  have hrdw : r.dropWhile (fun d => !(d == ' ')) = r := by
    rcases hr with hr | ⟨c2, r2, hr, hc2⟩
    · simp [hr]
    · rw [hr, List.dropWhile_cons, if_neg (by simp [hc2])]
  rw [List.cons_append, scanChunks_chunk pos sp c (ch2 ++ r) hcs,
    takeWhile_all_append _ _ _ hch2, dropWhile_all_append _ _ _ hch2,
    hrtw, hrdw, List.append_nil]

/-- Well-formedness of the chunk scan output: every chunk is nonempty and
space-free; the first triple inherits the seed space plus the leading space
run, every later triple a nonempty space run. -/
theorem scanChunks_wf (n : Nat) : ∀ (cs : List Char), cs.length ≤ n →
    ∀ (pos : Nat) (sp : List Char),
    (∀ t ∈ scanChunks pos sp cs, t.2.2 ≠ [] ∧ noSpace t.2.2 = true) ∧
    (scanChunks pos sp cs = [] ∨
      ∃ p ch rest,
        scanChunks pos sp cs = (p, sp ++ cs.takeWhile isSpaceC, ch) :: rest ∧
        ∀ u ∈ rest, u.2.1 ≠ [] ∧ u.2.1.all isSpaceC = true) := by
  induction n with
  | zero =>
    intro cs hlen pos sp
    have hnil : cs = [] := List.length_eq_zero.mp (Nat.le_zero.mp hlen)
    subst hnil
    refine ⟨fun t ht => absurd ht (by simp [scanChunks]), Or.inl (by simp [scanChunks])⟩
  | succ n ih =>
    intro cs hlen pos sp
    rcases cs with _ | ⟨c, rest⟩
    · refine ⟨fun t ht => absurd ht (by simp [scanChunks]), Or.inl (by simp [scanChunks])⟩
    rcases hsp : (c == ' ') with _ | _
    · -- non-space head: a chunk is emitted
      rw [scanChunks_chunk pos sp c rest hsp]
      have hlen2 : (rest.dropWhile (fun d => !(d == ' '))).length ≤ n := by
        have := dropWhile_len_le (fun d => !(d == ' ')) rest
        simp only [List.length_cons] at hlen
        omega
      have ihafter := ih (rest.dropWhile (fun d => !(d == ' '))) hlen2
        (pos + (c :: rest.takeWhile (fun d => !(d == ' '))).length) []
      constructor
      · intro t ht
        rcases List.mem_cons.mp ht with ht | ht
        · subst ht
          refine ⟨by simp, noSpace_of_forall _ ?_⟩
          intro d hd
          rcases List.mem_cons.mp hd with hd | hd
          · subst hd
            exact beq_eq_false_iff_ne.mp hsp
          · have := List.mem_takeWhile_imp hd
            intro he
            rw [he] at this
            exact absurd this (by decide)
        · exact ihafter.1 t ht
      · right
        refine ⟨pos, c :: rest.takeWhile (fun d => !(d == ' ')),
          scanChunks (pos + (c :: rest.takeWhile (fun d => !(d == ' '))).length) []
            (rest.dropWhile (fun d => !(d == ' '))), ?_, ?_⟩
        · rw [show (c :: rest).takeWhile isSpaceC = [] from by
            rw [List.takeWhile_cons, if_neg (by simp [isSpaceC, hsp])]]
          rw [List.append_nil]
        · intro u hu
          rcases ihafter.2 with h2 | ⟨p2, ch2, rest2, heq2, hrest2⟩
          · rw [h2] at hu
            exact absurd hu (by simp)
          · rw [heq2] at hu
            rcases List.mem_cons.mp hu with hu | hu
            · subst hu
              simp only [List.nil_append]
              rcases dropWhile_head_false (fun d => !(d == ' ')) rest with hafter |
                ⟨d, r2, hafter, hd⟩
              · rw [hafter] at heq2
                simp [scanChunks] at heq2
              · have hdsp : isSpaceC d = true := by
                  simpa [isSpaceC] using hd
                rw [hafter, List.takeWhile_cons, if_pos hdsp]
                refine ⟨by simp, ?_⟩
                simp only [List.all_cons, hdsp, Bool.true_and]
                exact List.all_eq_true.mpr fun x hx => List.mem_takeWhile_imp hx
            · exact hrest2 u hu
    · -- space head: absorbed into the pending space
      rw [scanChunks_space pos sp c rest hsp]
      have ihrest := ih rest (by
        simp only [List.length_cons] at hlen
        omega) (pos + 1) (sp ++ [c])
      refine ⟨ihrest.1, ?_⟩
      rcases ihrest.2 with h2 | ⟨p, ch, rest2, heq, hrest⟩
      · left; exact h2
      · right
        refine ⟨p, ch, rest2, ?_, hrest⟩
        rw [heq, List.takeWhile_cons, if_pos (by simpa [isSpaceC] using hsp)]
        simp

/-- Unfolding the prefix test on cons cells. -/
theorem prefB_cons (a : Char) (as : List Char) (b : Char) (bs : List Char) :
    prefB (a :: as) (b :: bs) = ((a == b) && prefB as bs) := rfl

/-- The empty needle is a prefix of anything. -/
theorem prefB_nil (bs : List Char) : prefB [] bs = true := rfl

/-- Only a word token carries the whole chunk. -/
theorem classify_pword (chunk : List Char) (s : String)
    (h : classify chunk = .pword s) : s = ⟨chunk⟩ := by
  unfold classify at h
  repeat' split at h
  all_goals try exact PreTok.noConfusion h
  all_goals
    injection h with h2
    exact h2.symm

/-- A context token comes from an at-chunk with a nonempty remainder. -/
theorem classify_pctx (chunk : List Char) (s : String)
    (h : classify chunk = .pctx s) : chunk = '@' :: s.data ∧ s.data ≠ [] := by
  unfold classify at h
  repeat' split at h
  all_goals try exact PreTok.noConfusion h
  rename_i hc
  injection h with h2
  subst h2
  simp only [Bool.and_eq_true] at hc
  obtain ⟨hp, hl⟩ := hc
  rcases chunk with _ | ⟨c, cs⟩
  · exact absurd hp (by simp [prefB])
  · have hc2 : c = '@' := by
      rw [prefB_cons] at hp
      simp only [prefB_nil, Bool.and_true] at hp
      exact (eq_of_beq hp).symm
    subst hc2
    refine ⟨rfl, ?_⟩
    simp only [List.length_cons] at hl
    show cs ≠ []
    intro hn
    rw [hn] at hl
    simp at hl

/-- A project token comes from a plus-chunk with a nonempty remainder. -/
theorem classify_pproj (chunk : List Char) (s : String)
    (h : classify chunk = .pproj s) : chunk = '+' :: s.data ∧ s.data ≠ [] := by
  unfold classify at h
  repeat' split at h
  all_goals try exact PreTok.noConfusion h
  rename_i hc
  injection h with h2
  subst h2
  simp only [Bool.and_eq_true] at hc
  obtain ⟨hp, hl⟩ := hc
  rcases chunk with _ | ⟨c, cs⟩
  · exact absurd hp (by simp [prefB])
  · have hc2 : c = '+' := by
      rw [prefB_cons] at hp
      simp only [prefB_nil, Bool.and_true] at hp
      exact (eq_of_beq hp).symm
    subst hc2
    refine ⟨rfl, ?_⟩
    simp only [List.length_cons] at hl
    show cs ≠ []
    intro hn
    rw [hn] at hl
    simp at hl

/-- A due token carries digits read from a date-shaped run. -/
theorem classify_pdue (chunk : List Char) (y m d : Nat)
    (h : classify chunk = .pdue y m d) :
    ∃ rest, readDateShape rest = some (y, m, d) := by
  unfold classify at h
  repeat' split at h
  all_goals try exact PreTok.noConfusion h
  rename_i y2 m2 d2 heq
  injection h with hy hm hd
  subst hy
  subst hm
  subst hd
  exact ⟨chunk.drop 4, heq⟩

/-- A threshold token carries digits read from a date-shaped run. -/
theorem classify_pt (chunk : List Char) (y m d : Nat)
    (h : classify chunk = .pt y m d) :
    ∃ rest, readDateShape rest = some (y, m, d) := by
  unfold classify at h
  repeat' split at h
  all_goals try exact PreTok.noConfusion h
  rename_i y2 m2 d2 heq
  injection h with hy hm hd
  subst hy
  subst hm
  subst hd
  exact ⟨chunk.drop 2, heq⟩

/-- A pri token carries an uppercase letter. -/
theorem classify_ppri (chunk : List Char) (c : Char)
    (h : classify chunk = .ppri c) : isUpperC c = true := by
  unfold classify at h
  repeat' split at h
  all_goals try exact PreTok.noConfusion h
  rename_i hup
  injection h with h2
  subst h2
  exact hup

/-- Reading back a rendered recurrence payload. -/
theorem readRecShape_render (rel : Bool) (a : Nat) (u : RecurringUnit) :
    readRecShape ((if rel then ['+'] else []) ++ renderNat a ++ [unitChar u]) =
      some (rel, a, u) := by
  obtain ⟨c, tl, hrn, hc⟩ := renderNat_cons a
  have htw : (renderNat a ++ [unitChar u]).takeWhile isDigitC = renderNat a := by
    rw [takeWhile_all_append _ _ _ (renderNat_digits a), List.takeWhile_cons,
      if_neg (by simp [isDigitC_unitChar]), List.append_nil]
  have hdw : (renderNat a ++ [unitChar u]).dropWhile isDigitC = [unitChar u] := by
    rw [dropWhile_all_append _ _ _ (renderNat_digits a), List.dropWhile_cons,
      if_neg (by simp [isDigitC_unitChar])]
  have hie : (renderNat a).isEmpty = false := by
    rw [hrn]
    rfl
  cases rel with
  | false =>
    show readRecShape (renderNat a ++ [unitChar u]) = some (false, a, u)
    have h1 : prefB ['+'] (renderNat a ++ [unitChar u]) = false := by
      rw [hrn, List.cons_append, prefB_cons,
        beq_false_of_pred_flip isDigitC '+' c hc (by decide)]
      rfl
    simp only [readRecShape, h1, if_false, Bool.false_eq_true, htw, hdw, hie]
    rw [unitOf_unitChar, Option.map_some', natFromDigits_renderNat]
  | true =>
    show readRecShape ('+' :: (renderNat a ++ [unitChar u])) = some (true, a, u)
    have h1 : prefB ['+'] ('+' :: (renderNat a ++ [unitChar u])) = true := by
      rw [prefB_cons]
      simp [prefB_nil]
    have h2 : ('+' :: (renderNat a ++ [unitChar u])).drop 1 =
        renderNat a ++ [unitChar u] := rfl
    simp only [readRecShape, h1, if_true, h2, htw, hdw, hie,
      Bool.false_eq_true, if_false]
    rw [unitOf_unitChar, Option.map_some', natFromDigits_renderNat]

/-- Classification of a rendered word chunk. -/
theorem classify_render_word (s : String) (h : chunkOK (.word s) = true) :
    classify (renderContentC (.word s)) = .pword s := by
  simp only [chunkOK, Bool.and_eq_true] at h
  exact eq_of_beq h.2

/-- Classification of a rendered context chunk. -/
theorem classify_render_ctx (s : String) (h : chunkOK (.context s) = true) :
    classify (renderContentC (.context s)) = .pctx s := by
  simp only [chunkOK, Bool.and_eq_true] at h
  have hne : s.data ≠ [] := by
    intro hn
    have h1 := h.1
    rw [hn] at h1
    exact Bool.noConfusion h1
  show classify ('@' :: s.data) = .pctx s
  unfold classify
  rw [if_pos (by
    simp only [prefB_cons, prefB_nil, Bool.and_true, List.length_cons,
      Bool.and_eq_true]
    refine ⟨by decide, ?_⟩
    simp only [decide_eq_true_eq]
    rcases hsd : s.data with _ | ⟨c, cs⟩
    · exact absurd hsd hne
    · simp only [List.length_cons]
      omega)]
  rw [show ('@' :: s.data).drop 1 = s.data from rfl, stringMk_data]

/-- Classification of a rendered project chunk. -/
theorem classify_render_proj (s : String) (h : chunkOK (.project s) = true) :
    classify (renderContentC (.project s)) = .pproj s := by
  simp only [chunkOK, Bool.and_eq_true] at h
  have hne : s.data ≠ [] := by
    intro hn
    have h1 := h.1
    rw [hn] at h1
    exact Bool.noConfusion h1
  show classify ('+' :: s.data) = .pproj s
  unfold classify
  rw [if_neg (by
    simp only [prefB_cons, prefB_nil, Bool.and_true, Bool.and_eq_true]
    rintro ⟨h1, -⟩
    exact absurd h1 (by decide))]
  rw [if_pos (by
    simp only [prefB_cons, prefB_nil, Bool.and_true, List.length_cons,
      Bool.and_eq_true]
    refine ⟨by decide, ?_⟩
    simp only [decide_eq_true_eq]
    rcases hsd : s.data with _ | ⟨c, cs⟩
    · exact absurd hsd hne
    · simp only [List.length_cons]
      omega)]
  rw [show ('+' :: s.data).drop 1 = s.data from rfl, stringMk_data]

/-- A mismatching head makes the prefix test fail. -/
theorem prefB_false_head (a b : Char) (hab : (a == b) = false)
    (as bs : List Char) : prefB (a :: as) (b :: bs) = false := by
  rw [prefB_cons, hab]
  rfl

/-- Classification of a rendered recurrence chunk. -/
theorem classify_render_rec (rel : Bool) (a : Nat) (u : RecurringUnit) :
    classify (renderContentC (.recur rel a u)) = .prec rel a u := by
  show classify ('r' :: 'e' :: 'c' :: ':' ::
    ((if rel then ['+'] else []) ++ renderNat a ++ [unitChar u])) = _
  unfold classify
  rw [if_neg (by rw [prefB_false_head _ _ (by decide)]; simp),
    if_neg (by rw [prefB_false_head _ _ (by decide)]; simp),
    if_pos (by simp [prefB_cons, prefB_nil])]
  rw [show ('r' :: 'e' :: 'c' :: ':' ::
      ((if rel then ['+'] else []) ++ renderNat a ++ [unitChar u])).drop 4 =
      (if rel then ['+'] else []) ++ renderNat a ++ [unitChar u] from rfl,
    readRecShape_render]

/-- Classification of a rendered due chunk. -/
theorem classify_render_due (d : Date) (h : chunkOK (.due d) = true) :
    classify (renderContentC (.due d)) = .pdue d.year d.month d.day := by
  show classify ('d' :: 'u' :: 'e' :: ':' :: renderDate d) = _
  unfold classify
  rw [if_neg (by rw [prefB_false_head _ _ (by decide)]; simp),
    if_neg (by rw [prefB_false_head _ _ (by decide)]; simp),
    if_neg (by rw [prefB_false_head _ _ (by decide)]; simp),
    if_pos (by simp [prefB_cons, prefB_nil])]
  rw [show ('d' :: 'u' :: 'e' :: ':' :: renderDate d).drop 4 = renderDate d
      from rfl,
    readDateShape_renderDate_ok d h]

/-- Classification of a rendered threshold chunk. -/
theorem classify_render_t (d : Date) (h : chunkOK (.t d) = true) :
    classify (renderContentC (.t d)) = .pt d.year d.month d.day := by
  show classify ('t' :: ':' :: renderDate d) = _
  unfold classify
  rw [if_neg (by rw [prefB_false_head _ _ (by decide)]; simp),
    if_neg (by rw [prefB_false_head _ _ (by decide)]; simp),
    if_neg (by rw [prefB_false_head _ _ (by decide)]; simp),
    if_neg (by rw [prefB_false_head _ _ (by decide)]; simp),
    if_pos (by simp [prefB_cons, prefB_nil])]
  rw [show ('t' :: ':' :: renderDate d).drop 2 = renderDate d from rfl,
    readDateShape_renderDate_ok d h]

/-- Classification of a rendered pri chunk. -/
theorem classify_render_pri (ch : Char) (h : chunkOK (.pri ch) = true) :
    classify (renderContentC (.pri ch)) = .ppri ch := by
  show classify ['p', 'r', 'i', ':', ch] = _
  unfold classify
  rw [if_neg (by rw [prefB_false_head _ _ (by decide)]; simp),
    if_neg (by rw [prefB_false_head _ _ (by decide)]; simp),
    if_neg (by rw [prefB_false_head _ _ (by decide)]; simp),
    if_neg (by rw [prefB_false_head _ _ (by decide)]; simp),
    if_neg (by rw [prefB_false_head _ _ (by decide)]; simp),
    if_pos (by simp [prefB_cons, prefB_nil])]
  rw [show (['p', 'r', 'i', ':', ch] : List Char).drop 4 = [ch] from rfl]
  exact if_pos h

/-- The space and chunk components of the tail triples. -/
theorem tailTriples_map (ps : List ContentPart) : ∀ pos : Nat,
    (tailTriples pos ps).map (fun t => (t.2.1, t.2.2)) =
      ps.map fun q => (q.space.data, renderContentC q.content) := by
  induction ps with
  | nil => intro pos; rfl
  | cons q qs ih =>
    intro pos
    simp only [tailTriples, List.map_cons, ih]

/-- A rendered tail run is empty or starts with a space. -/
theorem renderRest_head (ps : List ContentPart)
    (h : ps.all (fun q => !q.space.data.isEmpty && q.space.data.all isSpaceC) = true) :
    renderRest ps = [] ∨ ∃ c2 r2, renderRest ps = c2 :: r2 ∧ (c2 == ' ') = true := by
  rcases ps with _ | ⟨q, qs⟩
  · left
    rfl
  · right
    simp only [List.all_cons, Bool.and_eq_true] at h
    obtain ⟨⟨h1, h2⟩, h3⟩ := h
    rcases hq : q.space.data with _ | ⟨c, cs⟩
    · rw [hq] at h1
      exact absurd h1 (by simp)
    · have hc : isSpaceC c = true := by
        rw [hq] at h2
        simp only [List.all_cons, Bool.and_eq_true] at h2
        exact h2.1
      refine ⟨c, cs ++ renderContentC q.content ++ renderRest qs, ?_,
        by simpa [isSpaceC] using hc⟩
      show q.space.data ++ renderContentC q.content ++ renderRest qs = _
      rw [hq]
      simp [List.cons_append, List.append_assoc]

/-- Scanning a rendered tail run recovers exactly its triples. -/
theorem scan_renderRest (ps : List ContentPart) : ∀ pos : Nat,
    ps.all (fun q => !q.space.data.isEmpty && q.space.data.all isSpaceC) = true →
    ps.all (fun p => chunkOK p.content) = true →
    scanChunks pos [] (renderRest ps) = tailTriples pos ps := by
  induction ps with
  | nil =>
    intro pos _ _
    simp [renderRest, scanChunks, tailTriples]
  | cons q qs ih =>
    intro pos hsp hck
    simp only [List.all_cons, Bool.and_eq_true] at hsp hck
    obtain ⟨⟨h1, h2⟩, h3⟩ := hsp
    obtain ⟨hc1, hc2⟩ := hck
    have hgood := chunkOK_good _ hc1
    show scanChunks pos []
      (q.space.data ++ renderContentC q.content ++ renderRest qs) = _
    rw [List.append_assoc, scanChunks_spacerun q.space.data pos [] _ h2,
      scanChunks_chunkhead _ hgood.1 hgood.2 _ (renderRest_head qs h3) _ _,
      ih _ h3 hc2]
    simp only [tailTriples, List.nil_append]

/-- Scanning a rendered nonempty content run, seeded with the separator
space, recovers the head chunk and the tail triples. -/
theorem scan_renderParts (p : ContentPart) (ps : List ContentPart) (pos : Nat)
    (hsp : spacesOK (p :: ps) = true)
    (hck : (p :: ps).all (fun q => chunkOK q.content) = true) :
    scanChunks pos [' '] (renderParts (p :: ps)) =
      (pos, [' '], renderContentC p.content) ::
        tailTriples (pos + (renderContentC p.content).length) ps := by
  simp only [spacesOK, Bool.and_eq_true] at hsp
  simp only [List.all_cons, Bool.and_eq_true] at hck
  have hgood := chunkOK_good _ hck.1
  show scanChunks pos [' '] (renderContentC p.content ++ renderRest ps) = _
  rw [scanChunks_chunkhead _ hgood.1 hgood.2 _ (renderRest_head ps hsp.2) _ _,
    scan_renderRest ps _ hsp.2 hck.2]

/-- A successful builder step appends exactly one content part, carrying
the triple's space run and a textually well-formed content; it never
introduces a literal priority. -/
theorem buildStep_shape (st : BState) (t : Nat × List Char × List Char)
    (st2 : BState) (h : buildStep st t = .ok st2)
    (hne : t.2.2 ≠ []) (hns : noSpace t.2.2 = true) :
    ∃ p, st2.parts = st.parts ++ [p] ∧ p.space = (⟨t.2.1⟩ : String) ∧
      chunkOK p.content = true ∧
      (∀ c, st2.prio = some (.literal c) → st.prio = some (.literal c)) := by
  obtain ⟨pos, sp, chunk⟩ := t
  simp only at hne hns
  rcases hcl : classify chunk with s | s | s | ⟨rel, a, u⟩ | ⟨y, m, dd⟩ |
    ⟨y, m, dd⟩ | c0
  case pword =>
    simp only [buildStep, hcl] at h
    injection h with h2
    subst h2
    refine ⟨⟨⟨sp⟩, .word s⟩, rfl, rfl, ?_, fun c hc => hc⟩
    have hs := classify_pword chunk s hcl
    subst hs
    simp only [chunkOK, Bool.and_eq_true]
    refine ⟨⟨?_, hns⟩, ?_⟩
    · show (!chunk.isEmpty) = true
      rcases chunk with _ | ⟨c, cs⟩
      · exact absurd rfl hne
      · rfl
    · show (classify chunk == PreTok.pword ⟨chunk⟩) = true
      simp [hcl]
  case pctx =>
    simp only [buildStep, hcl] at h
    injection h with h2
    subst h2
    refine ⟨⟨⟨sp⟩, .context s⟩, rfl, rfl, ?_, fun c hc => hc⟩
    obtain ⟨hch, hsne⟩ := classify_pctx chunk s hcl
    simp only [chunkOK, Bool.and_eq_true]
    subst hch
    have hnstail := noSpace_forall _ hns
    refine ⟨?_, noSpace_of_forall _ fun c hc => hnstail c (by simp [hc])⟩
    rcases hsd : s.data with _ | ⟨c, cs⟩
    · exact absurd hsd hsne
    · simp [hsd]
  case pproj =>
    simp only [buildStep, hcl] at h
    injection h with h2
    subst h2
    refine ⟨⟨⟨sp⟩, .project s⟩, rfl, rfl, ?_, fun c hc => hc⟩
    obtain ⟨hch, hsne⟩ := classify_pproj chunk s hcl
    simp only [chunkOK, Bool.and_eq_true]
    subst hch
    have hnstail := noSpace_forall _ hns
    refine ⟨?_, noSpace_of_forall _ fun c hc => hnstail c (by simp [hc])⟩
    rcases hsd : s.data with _ | ⟨c, cs⟩
    · exact absurd hsd hsne
    · simp [hsd]
  case prec =>
    simp only [buildStep, hcl] at h
    split at h
    · exact Except.noConfusion h
    · injection h with h2
      subst h2
      exact ⟨⟨⟨sp⟩, .recur rel a u⟩, rfl, rfl, rfl, fun c hc => hc⟩
  case pdue =>
    simp only [buildStep, hcl] at h
    split at h
    · exact Except.noConfusion h
    · split at h
      case isTrue hv =>
        injection h with h2
        subst h2
        refine ⟨⟨⟨sp⟩, .due ⟨y, m, dd⟩⟩, rfl, rfl, ?_, fun c hc => hc⟩
        obtain ⟨cs2, hrd⟩ := classify_pdue chunk y m dd hcl
        obtain ⟨hy, -, -⟩ := readDateShape_bounds cs2 y m dd hrd
        simp only [chunkOK, dateOKB, Date.validB, Bool.and_eq_true,
          decide_eq_true_eq]
        exact ⟨hv, hy⟩
      case isFalse => exact Except.noConfusion h
  case pt =>
    simp only [buildStep, hcl] at h
    split at h
    · exact Except.noConfusion h
    · split at h
      case isTrue hv =>
        injection h with h2
        subst h2
        refine ⟨⟨⟨sp⟩, .t ⟨y, m, dd⟩⟩, rfl, rfl, ?_, fun c hc => hc⟩
        obtain ⟨cs2, hrd⟩ := classify_pt chunk y m dd hcl
        obtain ⟨hy, -, -⟩ := readDateShape_bounds cs2 y m dd hrd
        simp only [chunkOK, dateOKB, Date.validB, Bool.and_eq_true,
          decide_eq_true_eq]
        exact ⟨hv, hy⟩
      case isFalse => exact Except.noConfusion h
  case ppri =>
    simp only [buildStep, hcl] at h
    split at h
    · exact Except.noConfusion h
    · injection h with h2
      subst h2
      refine ⟨⟨⟨sp⟩, .pri c0⟩, rfl, rfl, classify_ppri chunk c0 hcl, ?_⟩
      intro c hc
      simp only at hc
      injection hc with h3
      exact Priority.noConfusion h3

/-- A successful builder run appends one part per triple: the spaces match
the triples' space runs pointwise, every appended part is textually
well-formed, and a literal priority can only come from the initial state. -/
theorem buildParts_parts_shape (ts : List (Nat × List Char × List Char)) :
    ∀ (st st' : BState), buildParts st ts = .ok st' →
    (∀ t ∈ ts, t.2.2 ≠ [] ∧ noSpace t.2.2 = true) →
    ∃ new, st'.parts = st.parts ++ new ∧
      new.map (fun p => p.space.data) = ts.map (fun t => t.2.1) ∧
      (∀ p ∈ new, chunkOK p.content = true) ∧
      (∀ c, st'.prio = some (.literal c) → st.prio = some (.literal c)) := by
  induction ts with
  | nil =>
    intro st st' h _
    have hst : st = st' := by
      simpa [buildParts] using h
    subst hst
    exact ⟨[], by simp, by simp, by simp, fun c hc => hc⟩
  | cons t ts ih =>
    intro st st' h hts
    rcases hbs : buildStep st t with e | st2
    · simp only [buildParts, hbs] at h
      exact Except.noConfusion h
    · simp only [buildParts, hbs] at h
      obtain ⟨p, hp1, hp2, hp3, hp4⟩ :=
        buildStep_shape st t st2 hbs (hts t (by simp)).1 (hts t (by simp)).2
      obtain ⟨new, hn1, hn2, hn3, hn4⟩ :=
        ih st2 st' h (fun u hu => hts u (by simp [hu]))
      refine ⟨p :: new, ?_, ?_, ?_, ?_⟩
      · rw [hn1, hp1, List.append_assoc, List.singleton_append]
      · simp only [List.map_cons, hn2, hp2]
      · intro q hq
        rcases List.mem_cons.mp hq with hq | hq
        · subst hq
          exact hp3
        · exact hn3 q hq
      · intro c hc
        exact hp4 c (hn4 c hc)

/-- What a successful content parse guarantees about the final builder
state: canonical spaces, textually well-formed parts, and a literal
priority only as passed in. -/
theorem parseContent_wf (pos : Nat) (p0 : Option Priority) (body : List Char)
    (st' : BState) (h : parseContent pos p0 body = .ok st') :
    spacesOK st'.parts = true ∧ (∀ p ∈ st'.parts, chunkOK p.content = true) ∧
    (∀ c, st'.prio = some (.literal c) → p0 = some (.literal c)) := by
  rcases body with _ | ⟨c, rest⟩
  · simp only [parseContent] at h
    injection h with h2
    subst h2
    exact ⟨rfl, by simp, fun c hc => hc⟩
  · simp only [parseContent] at h
    split at h
    · exact Except.noConfusion h
    case isFalse hcsp =>
      have hwf := scanChunks_wf (c :: rest).length (c :: rest) le_rfl pos [' ']
      obtain ⟨new, hn1, hn2, hn3, hn4⟩ :=
        buildParts_parts_shape _ _ _ h hwf.1
      simp only [List.nil_append] at hn1
      have hcsp2 : (c == ' ') = false := by
        simpa using hcsp
      refine ⟨?_, ?_, ?_⟩
      · rcases hwf.2 with hscan | ⟨p2, ch2, rest2, heq, hrest⟩
        · rw [hscan, List.map_nil] at hn2
          rw [hn1, List.map_eq_nil.mp hn2]
          rfl
        · rw [heq] at hn2
          have htw : (c :: rest).takeWhile isSpaceC = [] := by
            rw [List.takeWhile_cons, if_neg (by simp [isSpaceC, hcsp2])]
          rw [htw, List.append_nil, List.map_cons] at hn2
          rcases new with _ | ⟨q, qs⟩
          · exact absurd hn2 (by simp)
          · simp only [List.map_cons, List.cons.injEq] at hn2
            obtain ⟨hq, hqs⟩ := hn2
            have hqsp : q.space = " " := by
              have hmk := stringMk_data q.space
              rw [hq] at hmk
              exact hmk.symm
            rw [hn1]
            simp only [spacesOK, Bool.and_eq_true]
            refine ⟨by rw [hqsp]; rfl, ?_⟩
            simp only [List.all_eq_true]
            intro u hu
            have humap : u.space.data ∈ qs.map fun p => p.space.data :=
              List.mem_map_of_mem _ hu
            rw [hqs] at humap
            obtain ⟨t2, ht2, ht2e⟩ := List.mem_map.mp humap
            obtain ⟨hne2, hall2⟩ := hrest t2 ht2
            rw [ht2e] at hne2 hall2
            simp only [Bool.and_eq_true]
            constructor
            · rcases hud : u.space.data with _ | ⟨d2, ds⟩
              · exact absurd hud hne2
              · rfl
            · exact hall2
      · rw [hn1]
        exact hn3
      · exact hn4

/-- Field equations of a successful set_indices application. -/
theorem set_indicesOpt_fields (raw item : TodoItem)
    (h : set_indicesOpt raw = some item) :
    item.completion_date = raw.completion_date ∧
    item.creation_date = raw.creation_date ∧
    item.content = raw.content ∧
    ∃ d : IndexData, setIndicesFn raw.priority raw.content = some d ∧
      item.priority = d.prio := by
  unfold set_indicesOpt at h
  cases hd : setIndicesFn raw.priority raw.content with
  | none =>
    rw [hd] at h
    simp at h
  | some d =>
    rw [hd] at h
    simp only [Option.map_some'] at h
    have h2 := Option.some_inj.mp h
    subst h2
    exact ⟨rfl, rfl, rfl, ⟨d, rfl, rfl⟩⟩

/-- A finished item is well-formed whenever the builder state it is
assembled from is. -/
theorem finishItem_itemWFB (compl : Option Date) (creation : Date)
    (st : BState) (item : TodoItem) (hco : compl.all dateOKB = true)
    (hcr : dateOKB creation = true) (hsp : spacesOK st.parts = true)
    (hck : ∀ p ∈ st.parts, chunkOK p.content = true)
    (hpl : ∀ c, st.prio = some (.literal c) → isUpperC c = true)
    (hfin : finishItem compl creation st = .ok item) : itemWFB item = true := by
  have hso := finishItem_ok compl creation st item hfin
  have hwf := set_indicesOpt_wfIdx _ item hso
  obtain ⟨hfc, hfcr, hfct, d, hd, hfp⟩ := set_indicesOpt_fields _ item hso
  simp only [itemWFB, Bool.and_eq_true]
  refine ⟨⟨⟨⟨⟨hwf, ?_⟩, ?_⟩, ?_⟩, ?_⟩, ?_⟩
  · rw [hfcr]
    exact hcr
  · rw [hfc]
    exact hco
  · rcases hpr : item.priority with _ | pr
    · rfl
    · cases pr with
      | index i => rfl
      | literal c =>
        rw [hfp] at hpr
        rw [setIndicesFn_char] at hd
        split at hd
        · exact Option.noConfusion hd
        · have hd2 := Option.some_inj.mp hd
          subst hd2
          simp only at hpr
          cases hip : initP st.prio with
          | none =>
            rw [hip] at hpr
            simp only [oFill] at hpr
            cases hfi : firstIdxFrom priP 0
                (⟨compl, st.prio, creation, st.parts, [], [],
                  none, none, none⟩ : TodoItem).content with
            | none =>
              rw [hfi] at hpr
              simp at hpr
            | some j =>
              rw [hfi] at hpr
              simp only [Option.map_some'] at hpr
              have h3 := Option.some_inj.mp hpr
              exact Priority.noConfusion h3
          | some q =>
            rw [hip] at hpr
            simp only [oFill] at hpr
            have h3 := Option.some_inj.mp hpr
            subst h3
            cases hst : st.prio with
            | none =>
              rw [hst] at hip
              exact Option.noConfusion hip
            | some pr2 =>
              cases pr2 with
              | literal c2 =>
                rw [hst, initP_literal] at hip
                have h4 := Option.some_inj.mp hip
                have h5 : c2 = c := by
                  cases h4
                  rfl
                subst h5
                exact hpl c2 hst
              | index i2 =>
                rw [hst, initP_index] at hip
                exact Option.noConfusion hip
  · rw [hfct]
    exact hsp
  · rw [hfct]
    simp only [List.all_eq_true]
    exact hck

/-- A recognized completion prefix reads a date shape. -/
theorem matchCompleted_inv (cs : List Char) (raw : Nat × Nat × Nat)
    (rest : List Char) (h : matchCompleted cs = some (raw, rest)) :
    ∃ cs2, readDateShape cs2 = some raw := by
  unfold matchCompleted at h
  repeat' split at h
  all_goals try exact Option.noConfusion h
  injection h with h2
  cases h2
  exact ⟨_, by assumption⟩

/-- A recognized priority prefix carries an uppercase letter. -/
theorem matchPrio_inv (cs : List Char) (c : Char) (rest : List Char)
    (h : matchPrio cs = some (c, rest)) : isUpperC c = true := by
  unfold matchPrio at h
  repeat' split at h
  all_goals try exact Option.noConfusion h
  rename_i hcond
  injection h with h2
  cases h2
  simp only [Bool.and_eq_true] at hcond
  exact hcond.2

/-- Every parser-produced item is fully well-formed: index integrity plus
the textual constraints on dates, priority, spaces and chunks. -/
theorem parse_itemWFB (cs : List Char) (item : TodoItem)
    (h : parseItemCh cs = .ok item) : itemWFB item = true := by
  have key2 : ∀ (compl : Option Date) (prioLit : Option Char)
      (cs2 : List Char) (off2 : Nat), compl.all dateOKB = true →
      (∀ c, prioLit = some c → isUpperC c = true) →
      parseFromCreation compl prioLit cs2 off2 = .ok item →
      itemWFB item = true := by
    intro compl prioLit cs2 off2 hco hplit hp
    unfold parseFromCreation at hp
    split at hp
    · exact Except.noConfusion hp
    case h_2 y m d heq =>
      split at hp
      case isFalse => exact Except.noConfusion hp
      case isTrue hv =>
        have hcr : dateOKB ⟨y, m, d⟩ = true := by
          obtain ⟨hy, -, -⟩ := readDateShape_bounds _ _ _ _ heq
          simp only [dateOKB, Date.validB, Bool.and_eq_true, decide_eq_true_eq]
          exact ⟨hv, hy⟩
        have hkey : ∀ (body : List Char) (st : BState),
            parseContent (off2 + 11) (prioLit.map .literal) body = .ok st →
            finishItem compl ⟨y, m, d⟩ st = .ok item → itemWFB item = true := by
          intro body st hpc hfin
          obtain ⟨hsp, hck, hprio⟩ := parseContent_wf _ _ _ _ hpc
          refine finishItem_itemWFB compl ⟨y, m, d⟩ st item hco hcr hsp hck
            ?_ hfin
          intro c hc
          have h2 := hprio c hc
          cases prioLit with
          | none => exact Option.noConfusion h2
          | some c2 =>
            simp only [Option.map_some'] at h2
            have h3 := Option.some_inj.mp h2
            have h4 : c2 = c := by
              cases h3
              rfl
            subst h4
            exact hplit c2 rfl
        split at hp
        · split at hp
          case h_1 st hpc => exact hkey [] st hpc hp
          case h_2 e he => exact Except.noConfusion hp
        · split at hp
          · split at hp
            case h_1 st hpc => exact hkey _ st hpc hp
            case h_2 e he => exact Except.noConfusion hp
          · exact Except.noConfusion hp
  have key3 : ∀ (compl : Option Date) (cs1 : List Char) (off1 : Nat),
      compl.all dateOKB = true →
      parseAfterCompleted compl cs1 off1 = .ok item → itemWFB item = true := by
    intro compl cs1 off1 hco hp
    unfold parseAfterCompleted at hp
    split at hp
    case h_1 c rest hmp =>
      refine key2 compl (some c) rest _ hco ?_ hp
      intro c2 hc2
      have h3 : c = c2 := by
        have h4 := Option.some_inj.mp hc2
        cases h4
        rfl
      subst h3
      exact matchPrio_inv _ _ _ hmp
    case h_2 => exact key2 compl none cs1 off1 hco (fun c hc => Option.noConfusion hc) hp
  unfold parseItemCh at h
  split at h
  case h_1 y m d rest hmc =>
    split at h
    case isTrue hv =>
      refine key3 _ _ _ ?_ h
      obtain ⟨cs2, hrd⟩ := matchCompleted_inv _ _ _ hmc
      obtain ⟨hy, -, -⟩ := readDateShape_bounds _ _ _ _ hrd
      simp only [Option.all, dateOKB, Date.validB, Bool.and_eq_true,
        decide_eq_true_eq]
      exact ⟨hv, hy⟩
    case isFalse => exact Except.noConfusion h
  case h_2 => exact key3 none cs 0 rfl h

/-- setIndicesFn acts through initP on the priority. -/
theorem setIndicesFn_eq_initP (p0 : Option Priority) (c : List ContentPart) :
    setIndicesFn p0 c = siGo 0 ⟨initP p0, [], [], none, none, none⟩ c := by
  cases p0 with
  | none => rfl
  | some pr => cases pr <;> rfl

/-- Priorities with equal initP give equal scans. -/
theorem setIndicesFn_initP_congr (a b : Option Priority) (c : List ContentPart)
    (h : initP a = initP b) : setIndicesFn a c = setIndicesFn b c := by
  rw [setIndicesFn_eq_initP, setIndicesFn_eq_initP, h]

/-- Rebuilding a content run from the rendered triples: with well-formed
chunks and tag-count bounds the builder succeeds, appends exactly the
original parts, and leaves the priority untouched except for recording the
index of a pri part. -/
theorem buildParts_roundtrip (suf : List ContentPart) :
    ∀ (ts : List (Nat × List Char × List Char)) (st : BState),
    ts.map (fun t => (t.2.1, t.2.2)) =
      suf.map (fun p => (p.space.data, renderContentC p.content)) →
    suf.all (fun p => chunkOK p.content) = true →
    flagCount st.prio.isSome + suf.countP priP ≤ 1 →
    flagCount st.recSet + suf.countP recP ≤ 1 →
    flagCount st.dueSet + suf.countP dueP ≤ 1 →
    flagCount st.tSet + suf.countP tP ≤ 1 →
    ∃ st', buildParts st ts = .ok st' ∧ st'.parts = st.parts ++ suf ∧
      (st'.prio = st.prio ∨
        (st.prio = none ∧ ∃ j, st'.prio = some (.index j))) := by
  induction suf with
  | nil =>
    intro ts st hmap _ _ _ _ _
    have hts : ts = [] := by
      rw [List.map_nil] at hmap
      exact List.map_eq_nil_iff.mp hmap
    subst hts
    exact ⟨st, rfl, by simp, Or.inl rfl⟩
  | cons p ps ih =>
    intro ts st hmap hck hb1 hb2 hb3 hb4
    rcases ts with _ | ⟨t, ts⟩
    · simp at hmap
    simp only [List.map_cons, List.cons.injEq] at hmap
    obtain ⟨ht, hts⟩ := hmap
    obtain ⟨pos, sp, chunk⟩ := t
    simp only [Prod.mk.injEq] at ht
    obtain ⟨ht1, ht2⟩ := ht
    simp only [List.all_cons, Bool.and_eq_true] at hck
    obtain ⟨hck1, hck2⟩ := hck
    simp only [List.countP_cons] at hb1 hb2 hb3 hb4
    rcases p with ⟨psp, pc⟩
    have hsppsp : (⟨sp⟩ : String) = psp := by
      rw [ht1]
    cases pc with
    | word s =>
      have hcl : classify chunk = .pword s := by
        rw [ht2]
        exact classify_render_word s hck1
      have hbs : buildStep st (pos, sp, chunk) =
          .ok {st with parts := st.parts ++ [⟨⟨sp⟩, Content.word s⟩]} := by
        simp only [buildStep, hcl]
      rw [show (if priP ⟨psp, Content.word s⟩ = true then 1 else 0) = 0 from rfl] at hb1
      rw [show (if recP ⟨psp, Content.word s⟩ = true then 1 else 0) = 0 from rfl] at hb2
      rw [show (if dueP ⟨psp, Content.word s⟩ = true then 1 else 0) = 0 from rfl] at hb3
      rw [show (if tP ⟨psp, Content.word s⟩ = true then 1 else 0) = 0 from rfl] at hb4
      obtain ⟨st', hbp, hparts, hprio⟩ :=
        ih ts {st with parts := st.parts ++ [⟨⟨sp⟩, Content.word s⟩]} hts hck2
          (by simpa using hb1) (by simpa using hb2) (by simpa using hb3)
          (by simpa using hb4)
      refine ⟨st', ?_, ?_, ?_⟩
      · simp only [buildParts, hbs]
        exact hbp
      · rw [hparts]
        simp only [hsppsp]
        rw [List.append_assoc, List.singleton_append]
      · exact hprio
    | context s =>
      have hcl : classify chunk = .pctx s := by
        rw [ht2]
        exact classify_render_ctx s hck1
      have hbs : buildStep st (pos, sp, chunk) =
          .ok {st with parts := st.parts ++ [⟨⟨sp⟩, Content.context s⟩]} := by
        simp only [buildStep, hcl]
      rw [show (if priP ⟨psp, Content.context s⟩ = true then 1 else 0) = 0 from rfl] at hb1
      rw [show (if recP ⟨psp, Content.context s⟩ = true then 1 else 0) = 0 from rfl] at hb2
      rw [show (if dueP ⟨psp, Content.context s⟩ = true then 1 else 0) = 0 from rfl] at hb3
      rw [show (if tP ⟨psp, Content.context s⟩ = true then 1 else 0) = 0 from rfl] at hb4
      obtain ⟨st', hbp, hparts, hprio⟩ :=
        ih ts {st with parts := st.parts ++ [⟨⟨sp⟩, Content.context s⟩]} hts hck2
          (by simpa using hb1) (by simpa using hb2) (by simpa using hb3)
          (by simpa using hb4)
      refine ⟨st', ?_, ?_, ?_⟩
      · simp only [buildParts, hbs]
        exact hbp
      · rw [hparts]
        simp only [hsppsp]
        rw [List.append_assoc, List.singleton_append]
      · exact hprio
    | project s =>
      have hcl : classify chunk = .pproj s := by
        rw [ht2]
        exact classify_render_proj s hck1
      have hbs : buildStep st (pos, sp, chunk) =
          .ok {st with parts := st.parts ++ [⟨⟨sp⟩, Content.project s⟩]} := by
        simp only [buildStep, hcl]
      rw [show (if priP ⟨psp, Content.project s⟩ = true then 1 else 0) = 0 from rfl] at hb1
      rw [show (if recP ⟨psp, Content.project s⟩ = true then 1 else 0) = 0 from rfl] at hb2
      rw [show (if dueP ⟨psp, Content.project s⟩ = true then 1 else 0) = 0 from rfl] at hb3
      rw [show (if tP ⟨psp, Content.project s⟩ = true then 1 else 0) = 0 from rfl] at hb4
      obtain ⟨st', hbp, hparts, hprio⟩ :=
        ih ts {st with parts := st.parts ++ [⟨⟨sp⟩, Content.project s⟩]} hts hck2
          (by simpa using hb1) (by simpa using hb2) (by simpa using hb3)
          (by simpa using hb4)
      refine ⟨st', ?_, ?_, ?_⟩
      · simp only [buildParts, hbs]
        exact hbp
      · rw [hparts]
        simp only [hsppsp]
        rw [List.append_assoc, List.singleton_append]
      · exact hprio
    | recur rel a u =>
      have hcl : classify chunk = .prec rel a u := by
        rw [ht2]
        exact classify_render_rec rel a u
      rw [show (if priP ⟨psp, Content.recur rel a u⟩ = true then 1 else 0) = 0 from rfl] at hb1
      rw [show (if recP ⟨psp, Content.recur rel a u⟩ = true then 1 else 0) = 1 from rfl] at hb2
      rw [show (if dueP ⟨psp, Content.recur rel a u⟩ = true then 1 else 0) = 0 from rfl] at hb3
      rw [show (if tP ⟨psp, Content.recur rel a u⟩ = true then 1 else 0) = 0 from rfl] at hb4
      have hfl : st.recSet = false := by
        rcases hx : st.recSet
        · rfl
        · exfalso
          rw [hx, show flagCount true = 1 from rfl] at hb2
          omega
      have hbs : buildStep st (pos, sp, chunk) =
          .ok {st with recSet := true, parts := st.parts ++ [⟨⟨sp⟩, Content.recur rel a u⟩]} := by
        simp only [buildStep, hcl, hfl, Bool.false_eq_true, if_false]
      obtain ⟨st', hbp, hparts, hprio⟩ :=
        ih ts {st with recSet := true, parts := st.parts ++ [⟨⟨sp⟩, Content.recur rel a u⟩]} hts hck2
          (by simpa using hb1) (by
            rw [show flagCount ({st with recSet := true, parts := st.parts ++ [⟨⟨sp⟩, Content.recur rel a u⟩]} : BState).recSet = 1 from rfl]
            omega) (by simpa using hb3)
          (by simpa using hb4)
      refine ⟨st', ?_, ?_, ?_⟩
      · simp only [buildParts, hbs]
        exact hbp
      · rw [hparts]
        simp only [hsppsp]
        rw [List.append_assoc, List.singleton_append]
      · exact hprio
    | due dd =>
      have hcl : classify chunk = .pdue dd.year dd.month dd.day := by
        rw [ht2]
        exact classify_render_due dd hck1
      rw [show (if priP ⟨psp, Content.due dd⟩ = true then 1 else 0) = 0 from rfl] at hb1
      rw [show (if recP ⟨psp, Content.due dd⟩ = true then 1 else 0) = 0 from rfl] at hb2
      rw [show (if dueP ⟨psp, Content.due dd⟩ = true then 1 else 0) = 1 from rfl] at hb3
      rw [show (if tP ⟨psp, Content.due dd⟩ = true then 1 else 0) = 0 from rfl] at hb4
      have hfl : st.dueSet = false := by
        rcases hx : st.dueSet
        · rfl
        · exfalso
          rw [hx, show flagCount true = 1 from rfl] at hb3
          omega
      have hv : validYmd dd.year dd.month dd.day = true := by
        simp only [chunkOK, dateOKB, Date.validB, Bool.and_eq_true] at hck1
        exact hck1.1
      have hbs : buildStep st (pos, sp, chunk) =
          .ok {st with dueSet := true, parts := st.parts ++ [⟨⟨sp⟩, Content.due dd⟩]} := by
        simp only [buildStep, hcl, hfl, Bool.false_eq_true, if_false, hv, if_true]
      obtain ⟨st', hbp, hparts, hprio⟩ :=
        ih ts {st with dueSet := true, parts := st.parts ++ [⟨⟨sp⟩, Content.due dd⟩]} hts hck2
          (by simpa using hb1) (by simpa using hb2) (by
            rw [show flagCount ({st with dueSet := true, parts := st.parts ++ [⟨⟨sp⟩, Content.due dd⟩]} : BState).dueSet = 1 from rfl]
            omega)
          (by simpa using hb4)
      refine ⟨st', ?_, ?_, ?_⟩
      · simp only [buildParts, hbs]
        exact hbp
      · rw [hparts]
        simp only [hsppsp]
        rw [List.append_assoc, List.singleton_append]
      · exact hprio
    | t dd =>
      have hcl : classify chunk = .pt dd.year dd.month dd.day := by
        rw [ht2]
        exact classify_render_t dd hck1
      rw [show (if priP ⟨psp, Content.t dd⟩ = true then 1 else 0) = 0 from rfl] at hb1
      rw [show (if recP ⟨psp, Content.t dd⟩ = true then 1 else 0) = 0 from rfl] at hb2
      rw [show (if dueP ⟨psp, Content.t dd⟩ = true then 1 else 0) = 0 from rfl] at hb3
      rw [show (if tP ⟨psp, Content.t dd⟩ = true then 1 else 0) = 1 from rfl] at hb4
      have hfl : st.tSet = false := by
        rcases hx : st.tSet
        · rfl
        · exfalso
          rw [hx, show flagCount true = 1 from rfl] at hb4
          omega
      have hv : validYmd dd.year dd.month dd.day = true := by
        simp only [chunkOK, dateOKB, Date.validB, Bool.and_eq_true] at hck1
        exact hck1.1
      have hbs : buildStep st (pos, sp, chunk) =
          .ok {st with tSet := true, parts := st.parts ++ [⟨⟨sp⟩, Content.t dd⟩]} := by
        simp only [buildStep, hcl, hfl, Bool.false_eq_true, if_false, hv, if_true]
      obtain ⟨st', hbp, hparts, hprio⟩ :=
        ih ts {st with tSet := true, parts := st.parts ++ [⟨⟨sp⟩, Content.t dd⟩]} hts hck2
          (by simpa using hb1) (by simpa using hb2) (by simpa using hb3)
          (by
            rw [show flagCount ({st with tSet := true, parts := st.parts ++ [⟨⟨sp⟩, Content.t dd⟩]} : BState).tSet = 1 from rfl]
            omega)
      refine ⟨st', ?_, ?_, ?_⟩
      · simp only [buildParts, hbs]
        exact hbp
      · rw [hparts]
        simp only [hsppsp]
        rw [List.append_assoc, List.singleton_append]
      · exact hprio
    | pri ch =>
      have hcl : classify chunk = .ppri ch := by
        rw [ht2]
        exact classify_render_pri ch hck1
      rw [show (if priP ⟨psp, Content.pri ch⟩ = true then 1 else 0) = 1 from rfl] at hb1
      rw [show (if recP ⟨psp, Content.pri ch⟩ = true then 1 else 0) = 0 from rfl] at hb2
      rw [show (if dueP ⟨psp, Content.pri ch⟩ = true then 1 else 0) = 0 from rfl] at hb3
      rw [show (if tP ⟨psp, Content.pri ch⟩ = true then 1 else 0) = 0 from rfl] at hb4
      have hpn : st.prio = none := by
        rcases hx : st.prio with _ | q
        · rfl
        · exfalso
          rw [hx, show flagCount (some q).isSome = 1 from rfl] at hb1
          omega
      have hps : st.prio.isSome = false := by
        rw [hpn]
        rfl
      have hbs : buildStep st (pos, sp, chunk) =
          .ok {st with prio := some (.index st.parts.length),
                       parts := st.parts ++ [⟨⟨sp⟩, Content.pri ch⟩]} := by
        simp only [buildStep, hcl, hps, Bool.false_eq_true, if_false]
      obtain ⟨st', hbp, hparts, hprio⟩ :=
        ih ts {st with prio := some (.index st.parts.length),
                       parts := st.parts ++ [⟨⟨sp⟩, Content.pri ch⟩]} hts hck2
          (by
            have h0 : ps.countP priP = 0 := by
              rw [hpn, show flagCount (none : Option Priority).isSome = 0
                from rfl] at hb1
              omega
            simp [flagCount, h0])
          (by simpa using hb2) (by simpa using hb3) (by simpa using hb4)
      refine ⟨st', ?_, ?_, ?_⟩
      · simp only [buildParts, hbs]
        exact hbp
      · rw [hparts]
        simp only [hsppsp]
        rw [List.append_assoc, List.singleton_append]
      · right
        refine ⟨hpn, ?_⟩
        rcases hprio with hprio | ⟨hnone, j, hj⟩
        · exact ⟨st.parts.length, by rw [hprio]⟩
        · exact ⟨j, hj⟩

/-- Parsing the rendered content run of a well-formed item recovers exactly
its parts. -/
theorem parseContent_render (pos : Nat) (p0 : Option Priority)
    (content : List ContentPart)
    (hsp : spacesOK content = true)
    (hck : content.all (fun p => chunkOK p.content) = true)
    (hb1 : flagCount p0.isSome + content.countP priP ≤ 1)
    (hb2 : content.countP recP ≤ 1)
    (hb3 : content.countP dueP ≤ 1)
    (hb4 : content.countP tP ≤ 1) :
    ∃ st', parseContent pos p0 (renderParts content) = .ok st' ∧
      st'.parts = content ∧
      (st'.prio = p0 ∨ (p0 = none ∧ ∃ j, st'.prio = some (.index j))) := by
  rcases content with _ | ⟨p, ps⟩
  · exact ⟨⟨p0, false, false, false, []⟩, rfl, rfl, Or.inl rfl⟩
  · have hscan := scan_renderParts p ps pos hsp hck
    have hgood := chunkOK_good p.content (by
      simp only [List.all_cons, Bool.and_eq_true] at hck
      exact hck.1)
    have hps2 : p.space = " " := by
      simp only [spacesOK, Bool.and_eq_true] at hsp
      exact eq_of_beq hsp.1
    obtain ⟨st', hbp, hparts, hprio⟩ := buildParts_roundtrip (p :: ps)
      ((pos, [' '], renderContentC p.content) ::
        tailTriples (pos + (renderContentC p.content).length) ps)
      ⟨p0, false, false, false, []⟩
      (by simp only [List.map_cons, tailTriples_map, hps2])
      hck hb1 (by simpa [flagCount] using hb2) (by simpa [flagCount] using hb3)
      (by simpa [flagCount] using hb4)
    refine ⟨st', ?_, by simpa using hparts, hprio⟩
    rcases hrc : renderContentC p.content with _ | ⟨c, ch⟩
    · exact absurd hrc hgood.1
    have hcns : (c == ' ') = false := by
      apply beq_eq_false_iff_ne.mpr
      apply noSpace_forall _ hgood.2
      rw [hrc]
      simp
    have hbody : renderParts (p :: ps) = c :: (ch ++ renderRest ps) := by
      show renderContentC p.content ++ renderRest ps = _
      rw [hrc, List.cons_append]
    rw [hbody]
    simp only [parseContent, hcns, Bool.false_eq_true, if_false]
    rw [← hbody]
    show buildParts ⟨p0, false, false, false, []⟩
      (scanChunks pos [' '] (renderParts (p :: ps))) = _
    rw [hscan, hbp]

/-- The explicit cons form of a rendered date. -/
theorem renderDate_cons (d : Date) : renderDate d =
    digitChar (d.year / 1000 % 10) :: (digitChar (d.year / 100 % 10) ::
      digitChar (d.year / 10 % 10) :: digitChar (d.year % 10) :: '-' ::
      pad2 d.month ++ '-' :: pad2 d.day) := rfl

/-- No completion prefix on a line starting with a digit. -/
theorem matchCompleted_digit (c1 : Char) (h : isDigitC c1 = true)
    (r : List Char) : matchCompleted (c1 :: r) = none := by
  rcases r with _ | ⟨a, r⟩
  · rfl
  have hx : (c1 == 'x') = false := beq_false_of_pred isDigitC c1 'x' h (by decide)
  simp only [matchCompleted, hx, Bool.false_and, Bool.false_eq_true, if_false]

/-- No completion prefix on a line starting with a parenthesis. -/
theorem matchCompleted_paren (r : List Char) :
    matchCompleted ('(' :: r) = none := by
  rcases r with _ | ⟨a, r⟩
  · rfl
  have hx : (('(' : Char) == 'x') = false := by decide
  simp only [matchCompleted, hx, Bool.false_and, Bool.false_eq_true, if_false]

/-- No priority prefix on a line starting with a digit. -/
theorem matchPrio_digit (c1 : Char) (h : isDigitC c1 = true)
    (r : List Char) : matchPrio (c1 :: r) = none := by
  rcases r with _ | ⟨a, r⟩
  · rfl
  rcases r with _ | ⟨b, r⟩
  · rfl
  rcases r with _ | ⟨c, r⟩
  · rfl
  have hp : (c1 == '(') = false := beq_false_of_pred isDigitC c1 '(' h (by decide)
  simp only [matchPrio, hp, Bool.false_and, Bool.false_eq_true, if_false]

/-- initP fixes the image of a literal-priority option. -/
theorem initP_map_literal (o : Option Char) :
    initP (o.map Priority.literal) = o.map Priority.literal := by
  cases o <;> rfl

/-- initP is idempotent. -/
theorem initP_idem (o : Option Priority) : initP (initP o) = initP o := by
  cases o with
  | none => rfl
  | some pr => cases pr <;> rfl

/-- Closed form of finishItem on a builder state whose scan succeeds. -/
theorem finishItem_eq (compl : Option Date) (creation : Date) (st : BState)
    (d : IndexData) (h : setIndicesFn st.prio st.parts = some d) :
    finishItem compl creation st =
      .ok ⟨compl, d.prio, creation, st.parts, d.ci, d.pi, d.ri, d.di, d.ti⟩ := by
  unfold finishItem set_indicesOpt
  rw [show (⟨compl, st.prio, creation, st.parts, [], [], none, none, none⟩ :
      TodoItem).priority = st.prio from rfl,
    show (⟨compl, st.prio, creation, st.parts, [], [], none, none, none⟩ :
      TodoItem).content = st.parts from rfl,
    h, Option.map_some']

/-- Parsing the rendered creation date, separator and content of a
well-formed item recovers the item, up to the supplied completion date and
the recomputed indices. -/
theorem parseFromCreation_render (X : TodoItem) (hWF : itemWFB X = true)
    (compl : Option Date) (prioLit : Option Char) (off2 : Nat)
    (hpre : prioLit.map Priority.literal = initP X.priority) :
    parseFromCreation compl prioLit
      (renderDate X.creation_date ++ ' ' :: renderParts X.content) off2 =
      .ok ⟨compl, X.priority, X.creation_date, X.content, X.context_indices,
        X.project_indices, X.rec_index, X.due_index, X.t_index⟩ := by
  simp only [itemWFB, Bool.and_eq_true] at hWF
  obtain ⟨⟨⟨⟨⟨hwf, hcr⟩, hco⟩, hpl⟩, hsp⟩, hck⟩ := hWF
  obtain ⟨hcp, hcrec, hcdue, hct⟩ := wfIdx_counts X hwf
  have htake : (renderDate X.creation_date ++
      ' ' :: renderParts X.content).take 10 = renderDate X.creation_date := by
    rw [show (10 : Nat) = (renderDate X.creation_date).length from
      (renderDate_len _).symm]
    exact List.take_left _ _
  have hdrop : (renderDate X.creation_date ++
      ' ' :: renderParts X.content).drop 10 = ' ' :: renderParts X.content := by
    rw [show (10 : Nat) = (renderDate X.creation_date).length from
      (renderDate_len _).symm]
    exact List.drop_left _ _
  have hvd : validYmd X.creation_date.year X.creation_date.month
      X.creation_date.day = true := by
    have hcr2 := hcr
    simp only [dateOKB, Date.validB, Bool.and_eq_true] at hcr2
    exact hcr2.1
  obtain ⟨st', hpc, hparts, hprio⟩ := parseContent_render (off2 + 11)
    (prioLit.map .literal) X.content hsp hck
    (by
      rw [show flagCount (Option.map Priority.literal prioLit).isSome =
        flagCount (initP X.priority).isSome from by rw [hpre]]
      exact hcp)
    hcrec hcdue hct
  have hsi : setIndicesFn st'.prio st'.parts =
      some ⟨X.priority, X.context_indices, X.project_indices, X.rec_index,
        X.due_index, X.t_index⟩ := by
    rw [hparts]
    have hinit : initP st'.prio = initP X.priority := by
      rcases hprio with hp | ⟨hp0, j, hj⟩
      · rw [hp, initP_map_literal, hpre]
      · have h2 : initP X.priority = none := by
          rw [← hpre, hp0]
        rw [hj, initP_index, h2]
    rw [setIndicesFn_initP_congr st'.prio X.priority X.content hinit]
    exact eq_of_beq hwf
  simp only [parseFromCreation, htake, hdrop,
    readDateShape_renderDate_ok X.creation_date hcr, hvd, if_true,
    beq_self_eq_true, hpc]
  rw [finishItem_eq compl _ st' _ hsi, hparts]

/-- No priority prefix after a rendered date. -/
theorem matchPrio_rd (d : Date) (r : List Char) :
    matchPrio (renderDate d ++ r) = none := by
  rw [renderDate_cons, List.cons_append]
  exact matchPrio_digit _ (isDigitC_digitChar _ (by omega)) _

/-- No completion prefix after a rendered date. -/
theorem matchCompleted_rd (d : Date) (r : List Char) :
    matchCompleted (renderDate d ++ r) = none := by
  rw [renderDate_cons, List.cons_append]
  exact matchCompleted_digit _ (isDigitC_digitChar _ (by omega)) _

/-- The round-trip law for well-formed items outside the lossy case: as
long as the item is not simultaneously completed and carrying a literal
priority, re-parsing its serialization recovers it field for field. -/
theorem roundtrip_of_WF (X : TodoItem) (hWF : itemWFB X = true)
    (hnc : ¬(X.completion_date.isSome = true ∧
      ∃ c, X.priority = some (.literal c))) :
    parseItemCh (renderItemCh X) = .ok X := by
  have hWF2 := hWF
  simp only [itemWFB, Bool.and_eq_true] at hWF2
  obtain ⟨⟨⟨⟨⟨hwf, hcr⟩, hco⟩, hpl⟩, hsp⟩, hck⟩ := hWF2
  rcases hxc : X.completion_date with _ | dc
  · rcases hxp : X.priority with _ | pr
    · have hpren : (none : Option Char).map Priority.literal =
          initP X.priority := by
        rw [hxp]
        rfl
      have hrend : renderItemCh X =
          renderDate X.creation_date ++ ' ' :: renderParts X.content := by
        simp only [renderItemCh, hxc, hxp]
        simp [List.append_assoc]
      rw [hrend]
      simp only [parseItemCh, matchCompleted_rd, parseAfterCompleted,
        matchPrio_rd]
      rw [parseFromCreation_render X hWF none none 0 hpren, ← hxc]
    · cases pr with
      | literal c =>
        have hup : isUpperC c = true := by
          rw [hxp] at hpl
          exact hpl
        have hpren : (some c).map Priority.literal = initP X.priority := by
          rw [hxp]
          rfl
        have hrend : renderItemCh X = '(' :: c :: ')' :: ' ' ::
            (renderDate X.creation_date ++ ' ' :: renderParts X.content) := by
          simp only [renderItemCh, hxc, hxp]
          simp [List.append_assoc]
        have hmp : matchPrio ('(' :: c :: ')' :: ' ' ::
            (renderDate X.creation_date ++ ' ' :: renderParts X.content)) =
            some (c, renderDate X.creation_date ++
              ' ' :: renderParts X.content) := by
          simp only [matchPrio, beq_self_eq_true, Bool.true_and, hup,
            Bool.and_true, Bool.and_self, if_true]
        rw [hrend]
        simp only [parseItemCh, matchCompleted_paren, parseAfterCompleted,
          hmp]
        rw [parseFromCreation_render X hWF none (some c) 4 hpren, ← hxc]
      | index i =>
        have hpren : (none : Option Char).map Priority.literal =
            initP X.priority := by
          rw [hxp]
          rfl
        have hrend : renderItemCh X =
            renderDate X.creation_date ++ ' ' :: renderParts X.content := by
          simp only [renderItemCh, hxc, hxp]
          simp [List.append_assoc]
        rw [hrend]
        simp only [parseItemCh, matchCompleted_rd, parseAfterCompleted,
          matchPrio_rd]
        rw [parseFromCreation_render X hWF none none 0 hpren, ← hxc]
  · have hnl : initP X.priority = none := by
      rcases hp2 : X.priority with _ | pr
      · rfl
      · cases pr with
        | literal c => exact absurd ⟨by rw [hxc]; rfl, c, hp2⟩ hnc
        | index i => rfl
    have hpren : (none : Option Char).map Priority.literal =
        initP X.priority := by
      rw [hnl]
      rfl
    have hdok : dateOKB dc = true := by
      rw [hxc] at hco
      exact hco
    have hvd2 : validYmd dc.year dc.month dc.day = true := by
      have h2 := hdok
      simp only [dateOKB, Date.validB, Bool.and_eq_true] at h2
      exact h2.1
    have hrend : renderItemCh X = 'x' :: ' ' ::
        (renderDate dc ++ ' ' ::
          (renderDate X.creation_date ++ ' ' :: renderParts X.content)) := by
      simp only [renderItemCh, hxc]
      simp [List.append_assoc]
    have htk : (renderDate dc ++ ' ' :: (renderDate X.creation_date ++
        ' ' :: renderParts X.content)).take 10 = renderDate dc := by
      rw [show (10 : Nat) = (renderDate dc).length from (renderDate_len _).symm]
      exact List.take_left _ _
    have hdr : (renderDate dc ++ ' ' :: (renderDate X.creation_date ++
        ' ' :: renderParts X.content)).drop 10 =
        ' ' :: (renderDate X.creation_date ++
          ' ' :: renderParts X.content) := by
      rw [show (10 : Nat) = (renderDate dc).length from (renderDate_len _).symm]
      exact List.drop_left _ _
    have hmc : matchCompleted ('x' :: ' ' :: (renderDate dc ++ ' ' ::
        (renderDate X.creation_date ++ ' ' :: renderParts X.content))) =
        some ((dc.year, dc.month, dc.day),
          renderDate X.creation_date ++ ' ' :: renderParts X.content) := by
      simp only [matchCompleted, beq_self_eq_true, Bool.and_self, if_true,
        htk, readDateShape_renderDate_ok dc hdok, hdr]
    rw [hrend]
    simp only [parseItemCh, hmc, hvd2, if_true, parseAfterCompleted,
      matchPrio_rd]
    rw [parseFromCreation_render X hWF (some ⟨dc.year, dc.month, dc.day⟩)
      none 13 hpren]
    rw [show (⟨dc.year, dc.month, dc.day⟩ : Date) = dc from rfl, ← hxc]

/-- C1: the round-trip law fails as stated.  The line
"x 2024-01-02 (A) 2024-01-01 task" parses to a completed item with literal
priority A, but serialization drops a literal priority while a completion
date is present, so re-parsing the serialization does not reproduce the
item. -/
theorem c1_counterexample :
    ∃ (s : String) (X : TodoItem),
      parseItemS s = .ok X ∧ parseItemS (renderItemS X) ≠ .ok X := by
  refine ⟨"x 2024-01-02 (A) 2024-01-01 task",
    ⟨some ⟨2024, 1, 2⟩, some (.literal 'A'), ⟨2024, 1, 1⟩,
      [⟨" ", .word "task"⟩], [], [], none, none, none⟩, ?_, ?_⟩
  · rfl
  · intro h
    rw [show parseItemS (renderItemS
        ⟨some ⟨2024, 1, 2⟩, some (.literal 'A'), ⟨2024, 1, 1⟩,
          [⟨" ", .word "task"⟩], [], [], none, none, none⟩) =
        .ok ⟨some ⟨2024, 1, 2⟩, none, ⟨2024, 1, 1⟩,
          [⟨" ", .word "task"⟩], [], [], none, none, none⟩ from rfl] at h
    have h2 := Except.ok.inj h
    exact absurd h2 (by decide)

/-- C1 (amended): for every item X produced by the item parser,
re-parsing its serialization succeeds and yields an item equal to X in
every field, provided X is not simultaneously completed and carrying a
literal (prefix) priority — in that single case the serializer drops the
priority and the law fails. -/
theorem c1_roundtrip (cs : List Char) (X : TodoItem)
    (h : parseItemCh cs = .ok X)
    (hx : ¬(X.completion_date.isSome = true ∧
      ∃ c, X.priority = some (.literal c))) :
    parseItemCh (renderItemCh X) = .ok X :=
  roundtrip_of_WF X (parse_itemWFB cs X h) hx

/-- The amended C1 at a concrete parsed item with a literal priority, a
word, a context and a due tag. -/
theorem c1_roundtrip_witness :
    parseItemCh (renderItemCh ⟨none, some (.literal 'A'), ⟨2024, 1, 1⟩,
      [⟨" ", .word "call"⟩, ⟨" ", .context "home"⟩,
        ⟨" ", .due ⟨2024, 2, 3⟩⟩], [1], [], none, some 2, none⟩) =
      .ok ⟨none, some (.literal 'A'), ⟨2024, 1, 1⟩,
        [⟨" ", .word "call"⟩, ⟨" ", .context "home"⟩,
          ⟨" ", .due ⟨2024, 2, 3⟩⟩], [1], [], none, some 2, none⟩ :=
  c1_roundtrip ("(A) 2024-01-01 call @home due:2024-02-03".data) _ (by rfl)
    (by
      rintro ⟨h1, -⟩
      exact Bool.noConfusion h1)
